import Mathlib

/-!
# Project-Calculator: the arithmetic state machine of `src/javascript/script.js`

The engine state of the script (its six `let` variables) is a record, every
function of the script is a function on that record, and the host facilities the
script calls (`parseFloat`, `Number.prototype.toString`, the arithmetic of
doubles, `Function(...)()` on an arithmetic string, `Math.*`) are modelled after
ECMAScript.  What ECMAScript leaves to the implementation (the transcendental
functions, inexact powers, evaluation of text outside the arithmetic fragment)
is a field of `Host`, and every theorem holds for every host.
-/

set_option exponentiation.threshold 100000
set_option maxRecDepth 100000

namespace Calc

/-- A JavaScript string, as the list of its characters.  Every string the
engine builds is ASCII, where characters and UTF-16 code units coincide. -/
abbrev Str := List Char

/-! ## Numbers: IEEE-754 binary64 -/

/-- A Number value.  A finite value is a sign and a magnitude counted in units
of `2^-1074` (the smallest positive double), so that every finite double is
`fin neg z` for exactly one `z < 2^2098`; `fin true 0` is negative zero. -/
inductive JSNum where
  | nan
  | inf (neg : Bool)
  | fin (neg : Bool) (mag : Nat)
  deriving DecidableEq, Repr

/-- The number of units of `2^-1074` in `1`. -/
def unit : Nat := 2 ^ 1074

/-- The first magnitude (in units) that is no longer finite: `2^1024`. -/
def overflowMag : Nat := 2 ^ 2098

/-- Bit length of `n` by binary search on the exponent, for `n < 2^(2^l)`. -/
def bitLenAux : Nat → Nat → Nat
  | 0, n => if n = 0 then 0 else 1
  | l + 1, n =>
    if 2 ^ (2 ^ l) ≤ n then 2 ^ l + bitLenAux l (n / 2 ^ (2 ^ l)) else bitLenAux l n

/-- Bit length of `n` (the least `k` with `n < 2^k`), for `n < 2^8192`. -/
def bitLen (n : Nat) : Nat := bitLenAux 13 n

/-- The quotient `p / q` rounded to the nearest integer, ties to the even one. -/
def halfEven (p q : Nat) : Nat :=
  let f := p / q
  let r := p % q
  if 2 * r < q then f
  else if q < 2 * r then f + 1
  else if f % 2 = 0 then f else f + 1

/-- Round the non-negative rational `p / q` (in units of `2^-1074`) to the
nearest double magnitude, ties to even; `none` is overflow to infinity.  Below
`2^53` units the doubles are the integers; a magnitude of bit length `L > 53`
lies in a binade whose doubles are the multiples of `2^(L-53)`. -/
def roundMag (p q : Nat) : Option Nat :=
  let x := p / q
  if 2 ^ 8192 ≤ x then none
  else
    let s := bitLen x - 53
    let z := halfEven p (q * 2 ^ s) * 2 ^ s
    if overflowMag ≤ z then none else some z

/-- The double nearest to `± p / q` units. -/
def mkNum (neg : Bool) (p q : Nat) : JSNum :=
  match roundMag p q with
  | none => .inf neg
  | some z => .fin neg z

/-- The Number value of the non-negative integer `n`. -/
def ofNat (n : Nat) : JSNum := mkNum false (n * unit) 1

/-- The Number value of the integer `i`. -/
def ofInt (i : Int) : JSNum := mkNum (decide (i < 0)) (i.natAbs * unit) 1

/-- The Number value of `± m * 10^e`, the value of a decimal literal. -/
def ofDecimal (neg : Bool) (m : Nat) (e : Int) : JSNum :=
  match e with
  | .ofNat k => mkNum neg (m * 10 ^ k * unit) 1
  | .negSucc k => mkNum neg (m * unit) (10 ^ (k + 1))

namespace JSNum

def isNaN : JSNum → Bool
  | nan => true
  | _ => false

def isFinite : JSNum → Bool
  | fin _ _ => true
  | _ => false

/-- Unary minus. -/
def neg : JSNum → JSNum
  | nan => nan
  | inf b => inf (!b)
  | fin b z => fin (!b) z

/-- Addition of doubles: the exact sum, rounded. -/
def add : JSNum → JSNum → JSNum
  | nan, _ => nan
  | _, nan => nan
  | inf a, inf b => if a = b then inf a else nan
  | inf a, fin _ _ => inf a
  | fin _ _, inf b => inf b
  | fin a x, fin b y =>
    if a = b then mkNum a (x + y) 1
    else if y < x then mkNum a (x - y) 1
    else if x < y then mkNum b (y - x) 1
    else fin false 0

/-- Subtraction of doubles. -/
def sub (a b : JSNum) : JSNum := add a (neg b)

/-- Multiplication of doubles: the exact product, rounded. -/
def mul : JSNum → JSNum → JSNum
  | nan, _ => nan
  | _, nan => nan
  | inf a, inf b => inf (a != b)
  | inf a, fin b y => if y = 0 then nan else inf (a != b)
  | fin a x, inf b => if x = 0 then nan else inf (a != b)
  | fin a x, fin b y => mkNum (a != b) (x * y) unit

/-- Division of doubles: the exact quotient, rounded. -/
def div : JSNum → JSNum → JSNum
  | nan, _ => nan
  | _, nan => nan
  | inf _, inf _ => nan
  | inf a, fin b _ => inf (a != b)
  | fin a _, inf b => fin (a != b) 0
  | fin a x, fin b y =>
    if y = 0 then (if x = 0 then nan else inf (a != b))
    else mkNum (a != b) (x * unit) y

/-- The remainder operator `%` of JavaScript: truncated remainder, with the sign
of the dividend; it is always exact. -/
def mod : JSNum → JSNum → JSNum
  | nan, _ => nan
  | _, nan => nan
  | inf _, _ => nan
  | fin a x, inf _ => fin a x
  | fin a x, fin _ y => if y = 0 then nan else fin a (x % y)

/-- Position of a non-NaN value on the extended line, in units. -/
def key : JSNum → Int
  | nan => 0
  | inf false => (overflowMag : Int)
  | inf true => -(overflowMag : Int)
  | fin false z => (z : Int)
  | fin true z => -(z : Int)

/-- The comparison `a < b` of JavaScript (false when either side is NaN). -/
def lt (a b : JSNum) : Bool := !a.isNaN && !b.isNaN && decide (a.key < b.key)

/-- The comparison `a > b` of JavaScript. -/
def gt (a b : JSNum) : Bool := lt b a

/-- The comparison `a === b` on Numbers (NaN differs from itself, `-0 === 0`). -/
def strictEq (a b : JSNum) : Bool := !a.isNaN && !b.isNaN && decide (a.key = b.key)

end JSNum

/-! ## Strings of digits -/

/-- The class `\d` of a regular expression, and the DecimalDigit of the grammar. -/
def isDigit (c : Char) : Bool := decide (48 ≤ c.toNat) && decide (c.toNat ≤ 57)

/-- The value of a string of decimal digits, most significant first. -/
def digitsVal (ds : Str) : Nat := ds.foldl (fun a c => 10 * a + (c.toNat - 48)) 0

/-- The character of the decimal digit `d`. -/
def digitChar (d : Nat) : Char := Char.ofNat (48 + d)

/-- Decimal digits of `n` in front of `acc`. -/
def natDigitsAux : Nat → Nat → Str → Str
  | 0, _, acc => acc
  | f + 1, n, acc =>
    if n < 10 then digitChar n :: acc
    else natDigitsAux f (n / 10) (digitChar (n % 10) :: acc)

/-- The decimal representation of a natural number, without leading zeros. -/
def natToStr (n : Nat) : Str := natDigitsAux (n + 1) n []

/-- The decimal representation of an integer, with `-` in front when negative. -/
def intToStr (i : Int) : Str :=
  if i < 0 then '-' :: natToStr i.natAbs else natToStr i.natAbs

/-! ## `parseFloat` -/

/-- WhiteSpace and LineTerminator code points, which `parseFloat` skips in front. -/
def isWhite (c : Char) : Bool :=
  [9, 10, 11, 12, 13, 32, 160, 5760, 8232, 8233, 8239, 8287, 12288, 65279].contains c.toNat
    || (decide (8192 ≤ c.toNat) && decide (c.toNat ≤ 8202))

/-- The mantissa `digits`, `digits.digits?` or `.digits` in front of a string:
integer digits, fraction digits, and what follows. -/
def scanMantissa (s : Str) : Option (Str × Str × Str) :=
  match (s.span isDigit).2 with
  | '.' :: r =>
    if (s.span isDigit).1 = [] ∧ (r.span isDigit).1 = [] then none
    else some ((s.span isDigit).1, (r.span isDigit).1, (r.span isDigit).2)
  | r => if (s.span isDigit).1 = [] then none else some ((s.span isDigit).1, [], r)

/-- Drop an optional sign: whether it was `-`, and what follows. -/
def scanSign : Str → Bool × Str
  | '+' :: r => (false, r)
  | '-' :: r => (true, r)
  | r => (false, r)

/-- The ExponentPart `e±digits` in front of a string: its value and what follows. -/
def scanExp : Str → Option (Int × Str)
  | c :: r =>
    if c == 'e' || c == 'E' then
      if ((scanSign r).2.span isDigit).1 = [] then none
      else some
        (if (scanSign r).1 then -(digitsVal ((scanSign r).2.span isDigit).1 : Int)
          else (digitsVal ((scanSign r).2.span isDigit).1 : Int),
         ((scanSign r).2.span isDigit).2)
    else none
  | [] => none

/-- The Number value of a decimal numeral with integer digits `i`, fraction
digits `f` and exponent `e`. -/
def numeralValue (neg : Bool) (i f : Str) (e : Int) : JSNum :=
  ofDecimal neg (digitsVal (i ++ f)) (e - (f.length : Int))

/-- The function `parseFloat` of JavaScript: skip white space, then the value of
the longest prefix that is a StrDecimalLiteral, or NaN when there is none. -/
def parseFloat (s : Str) : JSNum :=
  let u := scanSign (s.dropWhile isWhite)
  if "Infinity".toList.isPrefixOf u.2 then .inf u.1
  else
    match scanMantissa u.2 with
    | none => .nan
    | some (i, f, r) =>
      match scanExp r with
      | some (e, _) => numeralValue u.1 i f e
      | none => numeralValue u.1 i f 0

/-! ## `Number.prototype.toString` -/

/-- The digits `s` at decimal exponent `t` for the magnitude `z`, when `s * 10^t`
is read back as `z`: of the two neighbours of `z / 10^t`, the nearer one that
reads back (the even one on a tie). -/
def shortestAt (z : Nat) (t : Int) : Option Nat :=
  let num := match t with
    | .ofNat _ => z
    | .negSucc k => z * 10 ^ (k + 1)
  let den := match t with
    | .ofNat k => unit * 10 ^ k
    | .negSucc _ => unit
  let lo := num / den
  let okLo := decide (0 < lo) && decide (ofDecimal false lo t = .fin false z)
  let okHi := decide (ofDecimal false (lo + 1) t = .fin false z)
  if okLo && okHi then
    if 2 * num < (2 * lo + 1) * den then some lo
    else if (2 * lo + 1) * den < 2 * num then some (lo + 1)
    else if lo % 2 = 0 then some lo else some (lo + 1)
  else if okLo then some lo
  else if okHi then some (lo + 1)
  else none

/-- The shortest digits that read back as `z`: try the decimal exponents from
`t` downwards.  At exponent `-1074` the exact expansion `z * 5^1074` reads back. -/
def shortest : Nat → Nat → Int → Nat × Int
  | 0, z, _ => (z * 5 ^ 1074, -1074)
  | f + 1, z, t =>
    match shortestAt z t with
    | some s => (s, t)
    | none => shortest f z (t - 1)

/-- Lay out the digits `ds` of a positive number whose decimal point comes
after `n` of them (steps 6 to 10 of Number::toString). -/
def layout (ds : Str) (n : Int) : Str :=
  let k : Int := ds.length
  if k ≤ n ∧ n ≤ 21 then ds ++ List.replicate (n - k).toNat '0'
  else if 0 < n ∧ n ≤ 21 then ds.take n.toNat ++ '.' :: ds.drop n.toNat
  else if -6 < n ∧ n ≤ 0 then '0' :: '.' :: (List.replicate (-n).toNat '0' ++ ds)
  else
    let e := n - 1
    let tail := (if e < 0 then '-' else '+') :: natToStr e.natAbs
    match ds with
    | [] => []
    | [d] => d :: 'e' :: tail
    | d :: more => d :: '.' :: (more ++ 'e' :: tail)

/-- The string of a positive finite magnitude.  An integer up to `2^53` is
written with all its digits, which is what the shortest digits are for it. -/
def posToString (z : Nat) : Str :=
  if z % unit = 0 ∧ z / unit ≤ 2 ^ 53 then natToStr (z / unit)
  else
    let t0 : Nat := (natToStr (z / unit)).length
    let st := shortest (t0 + 1076) z t0
    layout (natToStr st.1) (st.2 + ((natToStr st.1).length : Int))

/-- The method `toString()` of a Number (radix 10). -/
def numToString : JSNum → Str
  | .nan => "NaN".toList
  | .inf false => "Infinity".toList
  | .inf true => "-Infinity".toList
  | .fin neg z =>
    if z = 0 then "0".toList
    else if neg then '-' :: posToString z else posToString z

/-! ## The arithmetic fragment of JavaScript expressions -/

/-- The tokens of the fragment: numeric literals, the operators and parentheses
the engine writes, and the global names whose text `toString` can produce. -/
inductive Tok where
  | num (v : JSNum)
  | plus | minus | star | slash | percent
  | lparen | rparen
  | nanId | infinityId | errorId
  deriving DecidableEq, Repr

/-- Outcome of reading the source text: its tokens, a SyntaxError (`bad`), or
text that leaves the fragment (`unsupported`). -/
inductive Lexed where
  | toks (ts : List Tok)
  | bad
  | unsupported
  deriving DecidableEq, Repr

/-- Put a token in front of the tokens of the rest. -/
def Lexed.cons (t : Tok) : Lexed → Lexed
  | .toks ts => .toks (t :: ts)
  | .bad => .bad
  | .unsupported => .unsupported

/-- A letter, `_` or `$`: the ASCII characters that start an identifier. -/
def isIdStart (c : Char) : Bool :=
  (decide (65 ≤ c.toNat) && decide (c.toNat ≤ 90)) ||
  (decide (97 ≤ c.toNat) && decide (c.toNat ≤ 122)) || c == '_' || c == '$'

/-- The ASCII characters of an identifier. -/
def isIdChar (c : Char) : Bool := isIdStart c || isDigit c

/-- Whether the character after a numeric literal leaves the fragment: an
identifier character there is a BigInt suffix, a radix or separator, or an
error. -/
def afterNumeralOk : Str → Bool
  | [] => true
  | c :: _ => !isIdStart c

/-- The token of an identifier of the fragment. -/
def identTok (name : Str) : Option Tok :=
  if name = "NaN".toList then some .nanId
  else if name = "Infinity".toList then some .infinityId
  else if name = "Error".toList then some .errorId
  else none

/-- Tokens of a source text of strict code.  A numeric literal is a mantissa
with an optional exponent; an integer part of several digits that starts with
`0` is a SyntaxError of strict mode.  The sequences `++`, `--`, `**`, `//`,
`/*`, a lone `.`, other identifiers and every other character leave the
fragment. -/
def tokenize : Nat → Str → Lexed
  | 0, _ => .unsupported
  | _ + 1, [] => .toks []
  | f + 1, c :: r =>
    if isDigit c || c == '.' then
      match scanMantissa (c :: r) with
      | none => .unsupported
      | some (i, fr, r1) =>
        if decide (1 < i.length) && i.head? == some '0' then .bad
        else
          match scanExp r1 with
          | some (e, r2) =>
            if afterNumeralOk r2 then (tokenize f r2).cons (.num (numeralValue false i fr e))
            else .unsupported
          | none =>
            if afterNumeralOk r1 then (tokenize f r1).cons (.num (numeralValue false i fr 0))
            else .unsupported
    else if c == '+' then
      (if r.head? == some '+' then .unsupported else (tokenize f r).cons .plus)
    else if c == '-' then
      (if r.head? == some '-' then .unsupported else (tokenize f r).cons .minus)
    else if c == '*' then
      (if r.head? == some '*' then .unsupported else (tokenize f r).cons .star)
    else if c == '/' then
      (if r.head? == some '/' || r.head? == some '*' then .unsupported
       else (tokenize f r).cons .slash)
    else if c == '%' then (tokenize f r).cons .percent
    else if c == '(' then (tokenize f r).cons .lparen
    else if c == ')' then (tokenize f r).cons .rparen
    else if isIdStart c then
      match identTok ((c :: r).span isIdChar).1 with
      | some t => (tokenize f ((c :: r).span isIdChar).2).cons t
      | none => .unsupported
    else .unsupported

/-- A value of the fragment: a Number, or a value that is not a Number and
whose ToNumber is NaN (the constructor `Error`, and the strings `+` makes of
it). -/
inductive Val where
  | num (v : JSNum)
  | other
  deriving DecidableEq, Repr

/-- ToNumber on the values of the fragment. -/
def Val.toNum : Val → JSNum
  | .num v => v
  | .other => .nan

/-- The multiplicative operators. -/
inductive MulOp where
  | mul | div | mod
  deriving DecidableEq, Repr

/-- A multiplicative operator applies ToNumber to both operands. -/
def applyMul (op : MulOp) (a b : Val) : Val :=
  match op with
  | .mul => .num (JSNum.mul a.toNum b.toNum)
  | .div => .num (JSNum.div a.toNum b.toNum)
  | .mod => .num (JSNum.mod a.toNum b.toNum)

/-- Binary `-` applies ToNumber; binary `+` adds two Numbers and otherwise
concatenates strings, which is not a Number. -/
def applyAdd (minus : Bool) (a b : Val) : Val :=
  if minus then .num (JSNum.sub a.toNum b.toNum)
  else
    match a, b with
    | .num x, .num y => .num (JSNum.add x y)
    | _, _ => .other

/-- Apply the pending unary operators, the innermost (read last) first;
`true` is unary `-`, `false` is unary `+`. -/
def applySigns (signs : List Bool) (v : Val) : Val :=
  signs.foldl (fun u sg => .num (if sg then JSNum.neg u.toNum else u.toNum)) v

/-- What is pending at one parenthesis depth while the next operand is read:
the sum so far with its additive operator (`true` is `-`), the product so far
with its multiplicative operator, and the unary operators read in front of the
operand. -/
structure Frame where
  sum : Option (Val × Bool)
  term : Option (Val × MulOp)
  signs : List Bool
  deriving DecidableEq, Repr

/-- Nothing pending. -/
def Frame.empty : Frame := { sum := none, term := none, signs := [] }

/-- The product so far, once the operand `v` is read. -/
def Frame.operand (fr : Frame) (v : Val) : Val :=
  match fr.term with
  | none => applySigns fr.signs v
  | some (l, op) => applyMul op l (applySigns fr.signs v)

/-- The sum so far, once the product `t` is complete. -/
def Frame.close (fr : Frame) (t : Val) : Val :=
  match fr.sum with
  | none => t
  | some (l, minus) => applyAdd minus l t

/-- The parser is either waiting for an operand or holds the product so far. -/
inductive Mode where
  | expect
  | have (t : Val)
  deriving DecidableEq, Repr

/-- Result of evaluating a source text: a Number, `fail` (the evaluation throws
or its value is not a Number), or text outside the fragment. -/
inductive EvalRes where
  | num (v : JSNum)
  | fail
  | unsupported
  deriving DecidableEq, Repr

/-- Evaluate the tokens of an expression from left to right, with the usual
precedence: unary operators, then `* / %`, then `+ -`, all left-associative, and
parentheses.  A `/` where an operand is expected starts a regular expression
literal, which leaves the fragment.  An operand right after an operand, a call
`f(...)` (no value of the fragment is callable into a Number), an operator
without operand and unbalanced parentheses all fail. -/
def run : List Tok → Mode → Frame → List Frame → EvalRes
  | [], .have t, fr, [] =>
    match fr.close t with
    | .num v => .num v
    | .other => .fail
  | [], _, _, _ => .fail
  | tok :: rest, .expect, fr, stack =>
    match tok with
    | .num v => run rest (.have (fr.operand (.num v))) { fr with term := none, signs := [] } stack
    | .nanId => run rest (.have (fr.operand (.num .nan))) { fr with term := none, signs := [] } stack
    | .infinityId =>
      run rest (.have (fr.operand (.num (.inf false)))) { fr with term := none, signs := [] } stack
    | .errorId => run rest (.have (fr.operand .other)) { fr with term := none, signs := [] } stack
    | .plus => run rest .expect { fr with signs := false :: fr.signs } stack
    | .minus => run rest .expect { fr with signs := true :: fr.signs } stack
    | .lparen => run rest .expect Frame.empty (fr :: stack)
    | .slash => .unsupported
    | _ => .fail
  | tok :: rest, .have t, fr, stack =>
    match tok with
    | .plus => run rest .expect { sum := some (fr.close t, false), term := none, signs := [] } stack
    | .minus => run rest .expect { sum := some (fr.close t, true), term := none, signs := [] } stack
    | .star => run rest .expect { sum := fr.sum, term := some (t, .mul), signs := [] } stack
    | .slash => run rest .expect { sum := fr.sum, term := some (t, .div), signs := [] } stack
    | .percent => run rest .expect { sum := fr.sum, term := some (t, .mod), signs := [] } stack
    | .rparen =>
      match stack with
      | [] => .fail
      | outer :: st =>
        run rest (.have (outer.operand (fr.close t))) { outer with term := none, signs := [] } st
    | _ => .fail

/-! ## The host -/

/-- What ECMAScript leaves to the implementation: the `Math` functions whose
result is implementation-approximated, and the evaluation of a source text
outside the arithmetic fragment (`some v` when it evaluates to the Number `v`,
`none` when it throws or gives another value; it is taken to return). -/
structure Host where
  sqrt : JSNum → JSNum
  sin : JSNum → JSNum
  cos : JSNum → JSNum
  tan : JSNum → JSNum
  asin : JSNum → JSNum
  acos : JSNum → JSNum
  atan : JSNum → JSNum
  pow : JSNum → JSNum → JSNum
  evalOther : Str → Option JSNum

/-- The value of a source text of the fragment, wrapped in the parentheses of
`return (...)`. -/
def evalFragment (text : Str) : EvalRes :=
  match tokenize (text.length + 3) ('(' :: text ++ [')']) with
  | .toks ts => run ts .expect Frame.empty []
  | .bad => .fail
  | .unsupported => .unsupported

/-- The call `Function('"use strict";return (' + text + ')')()`: the value of
the parenthesised text, `none` when the call throws or the value is not a
Number. -/
def jsEval (H : Host) (text : Str) : Option JSNum :=
  match evalFragment text with
  | .num v => some v
  | .fail => none
  | .unsupported => H.evalOther text

/-- A finite Number that is an integer. -/
def isInteger : JSNum → Bool
  | .fin _ z => decide (z % unit = 0)
  | _ => false

/-- A finite Number that is an odd integer. -/
def isOddInteger : JSNum → Bool
  | .fin _ z => decide (z % unit = 0) && decide (z / unit % 2 = 1)
  | _ => false

/-- The results of Number::exponentiate that do not depend on the
implementation: its special cases, and an integer base to a positive integer
exponent whose power is at most `2^53`, which is taken to give exactly that
power.  `none` is the implementation-approximated rest. -/
def powSpecified (base exponent : JSNum) : Option JSNum :=
  match exponent with
  | .nan => some .nan
  | .inf eneg =>
    match base with
    | .nan => some .nan
    | .inf _ => some (if eneg then .fin false 0 else .inf false)
    | .fin _ x =>
      if x = 0 then some (if eneg then .inf false else .fin false 0)
      else if unit < x then some (if eneg then .fin false 0 else .inf false)
      else if x = unit then some .nan
      else some (if eneg then .inf false else .fin false 0)
  | .fin eneg y =>
    if y = 0 then some (ofNat 1)
    else
      match base with
      | .nan => some .nan
      | .inf false => some (if eneg then .fin false 0 else .inf false)
      | .inf true =>
        some (if eneg then .fin (isOddInteger exponent) 0 else .inf (isOddInteger exponent))
      | .fin bneg x =>
        if x = 0 then
          some (if eneg then .inf (bneg && isOddInteger exponent)
                else .fin (bneg && isOddInteger exponent) 0)
        else if bneg && !isInteger exponent then some .nan
        else if !eneg && x % unit = 0 && y % unit = 0 &&
            (x / unit = 1 || (y / unit ≤ 53 && (x / unit) ^ (y / unit) ≤ 2 ^ 53)) then
          some (.fin (bneg && isOddInteger exponent) ((x / unit) ^ (y / unit) * unit))
        else none

/-- The function `Math.pow`. -/
def mathPow (H : Host) (base exponent : JSNum) : JSNum :=
  match powSpecified base exponent with
  | some v => v
  | none => H.pow base exponent

/-- The constant `Math.PI`. -/
def mathPI : JSNum := .fin false (7074237752028440 * 2 ^ 1023)

/-! ## The engine -/

/-- The state variables of the script. -/
structure State where
  currentInput : Str
  expression : Str
  memory : JSNum
  lastResult : Option JSNum
  powerMode : Bool
  baseForPower : Option Str
  deriving DecidableEq, Repr

/-- The state when the script has been loaded. -/
def State.init : State :=
  { currentInput := "0".toList, expression := [], memory := .fin false 0,
    lastResult := none, powerMode := false, baseForPower := none }

/-- The two texts `updateDisplays` shows: the expression, and the current input
with `0` for an empty one. -/
def updateDisplays (s : State) : Str × Str :=
  (s.expression, if s.currentInput = [] then "0".toList else s.currentInput)

def clearAll (s : State) : State :=
  { s with currentInput := "0".toList, expression := [], powerMode := false,
           baseForPower := none }

def clearEntry (s : State) : State :=
  { s with currentInput := "0".toList }

def appendInput (val : Str) (s : State) : State :=
  if s.powerMode then
    if val = ".".toList ∧ '.' ∈ s.currentInput then s
    else if s.currentInput = "0".toList ∧ val ≠ ".".toList then { s with currentInput := val }
    else { s with currentInput := s.currentInput ++ val }
  else if val = ".".toList then
    if '.' ∉ s.currentInput then { s with currentInput := s.currentInput ++ ".".toList }
    else s
  else if val = "+/-".toList then
    if s.currentInput.head? = some '-' then { s with currentInput := s.currentInput.drop 1 }
    else if s.currentInput ≠ "0".toList then { s with currentInput := '-' :: s.currentInput }
    else s
  else if s.currentInput = "0".toList then { s with currentInput := val }
  else { s with currentInput := s.currentInput ++ val }

/-- The class `[+\-*/%]` of the two regular expressions of the script. -/
def isOp (c : Char) : Bool := c == '+' || c == '-' || c == '*' || c == '/' || c == '%'

/-- The test `/[+\-*/%]$/` on a string: its last character is an operator. -/
def endsWithOp (s : Str) : Bool :=
  match s.getLast? with
  | some c => isOp c
  | none => false

def addOperator (H : Host) (operator : Str) (s : State) : State :=
  if s.powerMode then
    match s.baseForPower with
    | none => s
    | some b =>
      if s.currentInput = [] then s
      else if (parseFloat s.currentInput).isNaN || (parseFloat b).isNaN then clearAll s
      else
        { s with currentInput := numToString (mathPow H (parseFloat b) (parseFloat s.currentInput)),
                 expression := [], powerMode := false, baseForPower := none }
  else if s.expression ≠ [] ∧ endsWithOp s.expression then
    { s with expression := s.expression.dropLast ++ operator, currentInput := [] }
  else if s.expression = [] then
    { s with expression := s.currentInput ++ operator, currentInput := [] }
  else
    { s with expression := s.expression ++ (s.currentInput ++ operator), currentInput := [] }

/-- The replacement `.replace(/[+\-*/%]+$/, '')`: drop the operators at the end. -/
def stripTrailingOps (s : Str) : Str := s.rdropWhile isOp

/-- A match of `(\d+(\.\d+)?)%` at the front of a string: group 1, and what
follows the match.  Both runs of digits are the longest ones: with fewer digits
the next character is a digit, not `%`. -/
def matchPercent (s : Str) : Option (Str × Str) :=
  if (s.span isDigit).1 = [] then none
  else
    match (s.span isDigit).2 with
    | '%' :: r => some ((s.span isDigit).1, r)
    | '.' :: r1 =>
      if (r1.span isDigit).1 = [] then none
      else
        match (r1.span isDigit).2 with
        | '%' :: r => some ((s.span isDigit).1 ++ '.' :: (r1.span isDigit).1, r)
        | _ => none
    | _ => none

/-- The replacement `.replace(/(\d+(\.\d+)?)%/g, '($1*0.01)')`: from left to
right, each match becomes `(` group 1 `*0.01)` and the search goes on behind
it; where there is no match the character is kept. -/
def percentRewrite : Nat → Str → Str
  | 0, s => s
  | _ + 1, [] => []
  | f + 1, c :: r =>
    match matchPercent (c :: r) with
    | some (g, rest) => '(' :: (g ++ ("*0.01)".toList ++ percentRewrite f rest))
    | none => c :: percentRewrite f r

/-- The text `calculateExpression` hands to the evaluator. -/
def fullExpression (s : State) : Str :=
  percentRewrite ((stripTrailingOps (s.expression ++ s.currentInput)).length + 1)
    (stripTrailingOps (s.expression ++ s.currentInput))

/-- The error marker. -/
def errorMarker : Str := "Error".toList

def calculateExpression (H : Host) (s : State) : State :=
  if s.powerMode then
    match s.baseForPower with
    | none => s
    | some b =>
      if s.currentInput = [] then s
      else if (parseFloat s.currentInput).isNaN || (parseFloat b).isNaN then clearAll s
      else
        { s with currentInput := numToString (mathPow H (parseFloat b) (parseFloat s.currentInput)),
                 expression := [], powerMode := false, baseForPower := none,
                 lastResult := some (parseFloat
                   (numToString (mathPow H (parseFloat b) (parseFloat s.currentInput)))) }
  else if s.expression = [] ∧ s.currentInput = [] then
    { s with currentInput := "0".toList }
  else
    match jsEval H (fullExpression s) with
    | some v =>
      if !v.isNaN && v.isFinite then
        { s with lastResult := some v, currentInput := numToString v, expression := [] }
      else { s with currentInput := errorMarker, expression := [] }
    | none => { s with currentInput := errorMarker, expression := [] }

/-- The conversion `deg * (Math.PI / 180)`. -/
def toRadians (deg : JSNum) : JSNum := JSNum.mul deg (JSNum.div mathPI (ofNat 180))

/-- The conversion `rad * (180 / Math.PI)`. -/
def toDegrees (rad : JSNum) : JSNum := JSNum.mul rad (JSNum.div (ofNat 180) mathPI)

/-- The common end of `applyFunction`: show the result. -/
def showResult (s : State) (result : JSNum) : State :=
  { s with currentInput := numToString result, expression := [] }

/-- The error paths of `applyFunction`. -/
def showError (s : State) : State :=
  { s with currentInput := errorMarker, expression := [] }

def applyFunction (H : Host) (funcName : Str) (s : State) : State :=
  if (parseFloat s.currentInput).isNaN then s
  else if funcName = "sqrt".toList then
    if (parseFloat s.currentInput).lt (ofNat 0) then showError s
    else showResult s (H.sqrt (parseFloat s.currentInput))
  else if funcName = "square".toList then
    showResult s (JSNum.mul (parseFloat s.currentInput) (parseFloat s.currentInput))
  else if funcName = "reciprocal".toList then
    if (parseFloat s.currentInput).strictEq (ofNat 0) then showError s
    else showResult s (JSNum.div (ofNat 1) (parseFloat s.currentInput))
  else if funcName = "sin".toList then
    showResult s (H.sin (toRadians (parseFloat s.currentInput)))
  else if funcName = "cos".toList then
    showResult s (H.cos (toRadians (parseFloat s.currentInput)))
  else if funcName = "tan".toList then
    if (JSNum.mod (parseFloat s.currentInput) (ofNat 360)).strictEq (ofNat 90)
        || (JSNum.mod (parseFloat s.currentInput) (ofNat 360)).strictEq (ofNat 270) then
      showError s
    else showResult s (H.tan (toRadians (parseFloat s.currentInput)))
  else if funcName = "asin".toList then
    if (parseFloat s.currentInput).lt (JSNum.neg (ofNat 1))
        || (parseFloat s.currentInput).gt (ofNat 1) then showError s
    else showResult s (toDegrees (H.asin (parseFloat s.currentInput)))
  else if funcName = "acos".toList then
    if (parseFloat s.currentInput).lt (JSNum.neg (ofNat 1))
        || (parseFloat s.currentInput).gt (ofNat 1) then showError s
    else showResult s (toDegrees (H.acos (parseFloat s.currentInput)))
  else if funcName = "atan".toList then
    showResult s (toDegrees (H.atan (parseFloat s.currentInput)))
  else if funcName = "power".toList then
    { s with baseForPower := some s.currentInput, powerMode := true, currentInput := [] }
  else s

def memoryClear (s : State) : State :=
  { s with memory := .fin false 0 }

def memoryRecall (s : State) : State :=
  { s with currentInput := numToString s.memory }

def memoryAdd (s : State) : State :=
  if (parseFloat s.currentInput).isNaN then s
  else { s with memory := JSNum.add s.memory (parseFloat s.currentInput) }

def memorySubtract (s : State) : State :=
  if (parseFloat s.currentInput).isNaN then s
  else { s with memory := JSNum.sub s.memory (parseFloat s.currentInput) }

/-- The `Backspace` branch of the keydown handler. -/
def backspace (s : State) : State :=
  if 1 < s.currentInput.length then { s with currentInput := s.currentInput.dropLast }
  else { s with currentInput := "0".toList }

/-- A host whose implementation-approximated functions all give NaN and which
evaluates nothing outside the fragment; it serves to run the engine on concrete
inputs that do not reach the host. -/
def Host.trivial : Host :=
  { sqrt := fun _ => .nan, sin := fun _ => .nan, cos := fun _ => .nan, tan := fun _ => .nan,
    asin := fun _ => .nan, acos := fun _ => .nan, atan := fun _ => .nan,
    pow := fun _ _ => .nan, evalOther := fun _ => none }

/-! ## Auxiliary definitions of the statements -/

/-- Whether the power pending in `s` is decided without the host. -/
def powFree (s : State) : Bool :=
  match s.baseForPower with
  | none => true
  | some b => (powSpecified (parseFloat b) (parseFloat s.currentInput)).isSome

/-- Whether `calculateExpression` runs on `s` without the host. -/
def hostFree (s : State) : Bool :=
  if s.powerMode then powFree s
  else decide (evalFragment (fullExpression s) ≠ .unsupported)

/-- Press the digit keys `ds` one after the other. -/
def typeDigits (ds : Str) (s : State) : State :=
  ds.foldl (fun st c => appendInput [c] st) s

/-- A string of decimal digits, not empty. -/
def isDigits (d : Str) : Bool := !d.isEmpty && d.all isDigit

/-- A decimal numeral as strict code writes a non-negative integer: digits, with
no `0` in front of other digits. -/
def isNumeral (d : Str) : Bool := isDigits d && (d.length == 1 || d.head? != some '0')

/-- The operators `+ - * /`. -/
def isArithOp (c : Char) : Bool := c == '+' || c == '-' || c == '*' || c == '/'

/-- The text of a flat expression: a numeral, then operators and numerals in
turn. -/
def flatText : Str → List (Char × Str) → Str
  | d, [] => d
  | d, (op, e) :: rest => d ++ op :: flatText e rest

/-- A flat expression whose numerals are numerals and whose operators are among
`+ - * /`. -/
def flatOk : Str → List (Char × Str) → Bool
  | d, [] => isNumeral d
  | d, (op, e) :: rest => isNumeral d && isArithOp op && flatOk e rest

/-- An integer that a double holds exactly: of absolute value at most `2^53`. -/
def isSafe (v : Int) : Bool := decide (v.natAbs ≤ 2 ^ 53)

/-- The sum `sum` with the term `term` added or subtracted. -/
def addTerm (sum : Int) (minus : Bool) (term : Nat) : Int :=
  if minus then sum - term else sum + term

/-- The value of a flat expression after the words of the specification, the
conventional precedence: `*` and `/` before `+` and `-`, each from left to
right.  `sum` is the sum of the terms before the current one, `minus` says
whether the current term is subtracted, `term` is the product so far.  The
value is `none` as soon as a numeral, a product or a partial sum exceeds `2^53`
in absolute value, or a division is by zero or leaves a remainder. -/
def specEval (sum : Int) (minus : Bool) (term : Nat) : List (Char × Str) → Option Int
  | [] => if isSafe (addTerm sum minus term) then some (addTerm sum minus term) else none
  | (op, d) :: rest =>
    if 2 ^ 53 < digitsVal d then none
    else if op = '*' then
      (if term * digitsVal d ≤ 2 ^ 53 then specEval sum minus (term * digitsVal d) rest else none)
    else if op = '/' then
      (if 0 < digitsVal d ∧ digitsVal d ∣ term then specEval sum minus (term / digitsVal d) rest
       else none)
    else if isSafe (addTerm sum minus term) then
      specEval (addTerm sum minus term) (op == '-') (digitsVal d) rest
    else none

/-- The value of the flat expression `d rest` under the conventional
precedence. -/
def specValue (d : Str) (rest : List (Char × Str)) : Option Int :=
  if digitsVal d ≤ 2 ^ 53 then specEval 0 false (digitsVal d) rest else none

/-- The token of an operator among `+ - * /`. -/
def opTok (c : Char) : Tok :=
  if c = '+' then .plus else if c = '-' then .minus else if c = '*' then .star else .slash

/-- The tokens of the operators and numerals of a flat expression. -/
def flatToks : List (Char × Str) → List Tok
  | [] => []
  | (op, e) :: rest => opTok op :: .num (ofNat (digitsVal e)) :: flatToks rest

/-- A magnitude that is a double: below `2^1024`, and a multiple of the
spacing of its binade. -/
def isDoubleMag (z : Nat) : Bool :=
  decide (z < overflowMag) && decide (z % 2 ^ (bitLen z - 53) = 0)

/-- A Number value that is a double. -/
def JSNum.isDouble : JSNum → Bool
  | .fin _ z => isDoubleMag z
  | _ => true

/-- The host gives doubles. -/
def Host.givesDoubles (H : Host) : Prop :=
  (∀ a b, (H.pow a b).isDouble = true) ∧ (∀ t v, H.evalOther t = some v → v.isDouble = true)

/-- The text `T` is one numeric literal of value `V`: in front of a closing
parenthesis it is one token, it starts and ends with a digit and holds no
`%`. -/
def IsNumText (T : Str) (V : JSNum) : Prop :=
  (∀ f, tokenize (f + 1) (T ++ [')']) = (tokenize f [')']).cons (.num V)) ∧
  (∃ c r, T = c :: r ∧ isDigit c = true) ∧
  (∃ l x, T = l ++ [x] ∧ isDigit x = true) ∧
  '%' ∉ T

/-- A value of the fragment whose Number, if it is one, is a double. -/
def Val.ok : Val → Prop
  | .num v => v.isDouble = true
  | .other => True

/-- A token whose Number, if it is a literal, is a double. -/
def Tok.ok : Tok → Prop
  | .num v => v.isDouble = true
  | _ => True

/-- A frame that holds doubles. -/
def Frame.ok (fr : Frame) : Prop :=
  (∀ l m, fr.sum = some (l, m) → l.ok) ∧ (∀ l op, fr.term = some (l, op) → l.ok)

/-- The tokens read, if any, hold doubles. -/
def Lexed.ok : Lexed → Prop
  | .toks ts => ∀ t ∈ ts, t.ok
  | _ => True

/-! ## Events -/

/-- The operator keys: the five values for which a handler calls
`addOperator`. -/
inductive OpKey where
  | plus | minus | times | divide | percent
  deriving DecidableEq, Repr

/-- The character of an operator key. -/
def OpKey.char : OpKey → Char
  | .plus => '+'
  | .minus => '-'
  | .times => '*'
  | .divide => '/'
  | .percent => '%'

/-- The actions the click handler passes to `applyFunction`. -/
inductive FuncKey where
  | sqrt | square | reciprocal | sin | cos | tan | asin | acos | atan | power
  deriving DecidableEq, Repr

/-- The name of an action, as `applyFunction` receives it. -/
def FuncKey.name : FuncKey → Str
  | .sqrt => "sqrt".toList
  | .square => "square".toList
  | .reciprocal => "reciprocal".toList
  | .sin => "sin".toList
  | .cos => "cos".toList
  | .tan => "tan".toList
  | .asin => "asin".toList
  | .acos => "acos".toList
  | .atan => "atan".toList
  | .power => "power".toList

/-- The events the two handlers of the script tell apart: a click on a button
(a digit, the decimal point, the sign toggle, an operator, an action) and a key
of the keyboard (digits, the decimal point, operators, `Enter` or `=`,
`Backspace`, `Escape`, which clears like the button). -/
inductive Event where
  | digit (d : Fin 10)
  | dot
  | toggleSign
  | operator (op : OpKey)
  | func (f : FuncKey)
  | equals
  | clear
  | clearEntry
  | memoryClear
  | memoryRecall
  | memoryAdd
  | memorySubtract
  | backspace
  deriving DecidableEq, Repr

/-- What the handlers do on an event. -/
def handle (H : Host) (e : Event) (s : State) : State :=
  match e with
  | .digit d => appendInput [digitChar d.val] s
  | .dot => appendInput ".".toList s
  | .toggleSign => appendInput "+/-".toList s
  | .operator op => addOperator H [op.char] s
  | .func f => applyFunction H f.name s
  | .equals => calculateExpression H s
  | .clear => clearAll s
  | .clearEntry => clearEntry s
  | .memoryClear => memoryClear s
  | .memoryRecall => memoryRecall s
  | .memoryAdd => memoryAdd s
  | .memorySubtract => memorySubtract s
  | .backspace => backspace s

/-- The state after the events `evs`, in order, from the state `s`. -/
def runEvents (H : Host) (evs : List Event) (s : State) : State :=
  evs.foldl (fun st e => handle H e st) s

/-! ## Auxiliary definitions of the invariants -/

/-- The text of a decimal literal: digits, and after a decimal point the
digits of the fraction if there is one. -/
def decimalText (i : Str) (f : Option Str) : Str :=
  match f with
  | none => i
  | some g => i ++ '.' :: g

/-- The integer a Number is, if it is one. -/
def JSNum.toInt : JSNum → Option Int
  | .fin neg z =>
    if z % unit = 0 then some (if neg then -((z / unit : Nat) : Int) else ((z / unit : Nat) : Int))
    else none
  | _ => none

/-- Two adjacent operator characters somewhere in a string. -/
def hasAdjacentOps : Str → Bool
  | a :: b :: r => (isOp a && isOp b) || hasAdjacentOps (b :: r)
  | _ => false

/-- An operator character comes only after the letter `e`. -/
def opAfterE (a b : Char) : Prop := isOp b = true → a = 'e'

instance : DecidableRel opAfterE := fun a b =>
  if h : isOp b = true → a = 'e' then isTrue h else isFalse h

/-- A string in which an operator character is the `-` in front or the sign
of an exponent. -/
def CurOk (t : Str) : Prop :=
  List.Chain' opAfterE t ∧ ∀ c ∈ t.head?, isOp c = true → c = '-'

/-- The shape of the strings of numbers: digits, then maybe a decimal point
with digits, then maybe an exponent with its sign. -/
def NumShape (t : Str) : Prop :=
  ∃ a m x, t = a ++ (m ++ x) ∧ isDigits a = true ∧
    (m = [] ∨ ∃ b, m = '.' :: b ∧ ∀ c ∈ b, isDigit c = true) ∧
    (x = [] ∨ ∃ sg d, x = 'e' :: sg :: d ∧ (sg = '+' ∨ sg = '-') ∧ isDigits d = true)

/-- What the engine relies on of a string it shows: at most one decimal
point, operator characters only as a sign, and it is neither empty nor a lone
`-`, does not end in an operator and is not the error marker. -/
def StrOk (t : Str) : Prop :=
  t.count '.' ≤ 1 ∧ CurOk t ∧ t ≠ [] ∧ t ≠ ['-'] ∧ endsWithOp t = false ∧ t ≠ errorMarker

/-- What holds of every state the events reach. -/
def Inv (s : State) : Prop :=
  s.currentInput.count '.' ≤ 1 ∧
  s.baseForPower.isSome = s.powerMode ∧
  (s.powerMode = false → CurOk s.currentInput)

/-- An expression that is empty or one operand and one operator behind it. -/
def ExprOk (e : Str) : Prop :=
  e = [] ∨ ∃ c op, e = c ++ [op] ∧ isOp op = true ∧ c ≠ [] ∧ endsWithOp c = false ∧
    List.Chain' opAfterE c

/-- A current input of Normal mode beside the expression `expr`: it is empty
or a lone `-` only behind an operator, and otherwise it does not end in an
operator. -/
def CurNB (cur expr : Str) : Prop :=
  CurOk cur ∧ ((cur = [] ∨ cur = ['-']) → expr ≠ []) ∧
    (cur ≠ [] → cur ≠ ['-'] → endsWithOp cur = false)

/-- What holds of every state the events other than `Backspace` reach. -/
def InvNB (s : State) : Prop :=
  ExprOk s.expression ∧ (s.powerMode = false → CurNB s.currentInput s.expression)

/-! ## Host independence -/


theorem jsEval_congr (H K : Host) (t : Str) (h : evalFragment t ≠ .unsupported) :
    jsEval H t = jsEval K t := by
  unfold jsEval
  cases hev : evalFragment t with
  | num v => rfl
  | fail => rfl
  | unsupported => exact absurd hev h

theorem mathPow_congr (H K : Host) (b e : JSNum) (h : (powSpecified b e).isSome = true) :
    mathPow H b e = mathPow K b e := by
  unfold mathPow
  cases hp : powSpecified b e with
  | none => rw [hp] at h; cases h
  | some v => rfl

theorem calculateExpression_congr (H K : Host) (s : State) (h : hostFree s = true) :
    calculateExpression H s = calculateExpression K s := by
  unfold hostFree at h
  unfold calculateExpression
  cases hpm : s.powerMode with
  | true =>
    rw [hpm, if_pos rfl] at h
    unfold powFree at h
    cases hb : s.baseForPower with
    | none => rfl
    | some b =>
      rw [hb] at h
      simp only at h
      simp only [if_true, mathPow_congr H K _ _ h]
  | false =>
    rw [hpm] at h
    simp only [Bool.false_eq_true, if_false] at h ⊢
    rw [jsEval_congr H K _ (of_decide_eq_true h)]

theorem addOperator_congr (H K : Host) (op : Str) (s : State)
    (h : s.powerMode = false ∨ powFree s = true) :
    addOperator H op s = addOperator K op s := by
  unfold addOperator
  cases hpm : s.powerMode with
  | true =>
    rcases h with h | h
    · rw [hpm] at h; cases h
    · unfold powFree at h
      cases hb : s.baseForPower with
      | none => rfl
      | some b =>
        rw [hb] at h
        simp only at h
        simp only [if_true, mathPow_congr H K _ _ h]
  | false => rfl


/-! ## Operators -/

theorem isDigit_ne_dot (d : Char) (hd : isDigit d = true) : d ≠ '.' := by
  rintro rfl
  revert hd
  decide

theorem endsWithOp_concat (a : Str) (c : Char) : endsWithOp (a ++ [c]) = isOp c := by
  unfold endsWithOp
  simp

/-- C2: in Normal mode with an empty expression and operand `a`, two operator
keys in a row leave `a` followed by the second operator only, with an empty
current input; and the keys 5, +, -, 3, = from the initial state show `2`. -/
theorem addOperator_collapses (H : Host) (s : State) (a : Str) (op1 op2 : Char)
    (hpm : s.powerMode = false) (hex : s.expression = []) (ha : s.currentInput = a)
    (h1 : isOp op1 = true) (_h2 : isOp op2 = true) :
    (addOperator H [op2] (addOperator H [op1] s)).expression = a ++ [op2] ∧
    (addOperator H [op2] (addOperator H [op1] s)).currentInput = [] ∧
    (calculateExpression H (appendInput "3".toList (addOperator H "-".toList
      (addOperator H "+".toList (appendInput "5".toList State.init))))).currentInput
        = "2".toList := by
  have hfirst : addOperator H [op1] s
      = { s with expression := a ++ [op1], currentInput := [] } := by
    unfold addOperator
    simp [hpm, hex, ha]
  have hsecond : addOperator H [op2] (addOperator H [op1] s)
      = { s with expression := a ++ [op2], currentInput := [] } := by
    rw [hfirst]
    unfold addOperator
    simp [hpm, endsWithOp_concat, h1]
  refine ⟨by rw [hsecond], by rw [hsecond], ?_⟩
  rw [addOperator_congr H Host.trivial "+".toList (appendInput "5".toList State.init)
      (Or.inl (by decide)),
    addOperator_congr H Host.trivial "-".toList _ (Or.inl (by decide)),
    calculateExpression_congr H Host.trivial _ (by decide)]
  decide

theorem addOperator_collapses_witness :
    (addOperator Host.trivial ['-'] (addOperator Host.trivial ['+']
        { State.init with currentInput := "5".toList })).expression = "5-".toList ∧
    (addOperator Host.trivial ['-'] (addOperator Host.trivial ['+']
        { State.init with currentInput := "5".toList })).currentInput = [] ∧
    (calculateExpression Host.trivial (appendInput "3".toList (addOperator Host.trivial "-".toList
      (addOperator Host.trivial "+".toList (appendInput "5".toList State.init))))).currentInput
        = "2".toList :=
  addOperator_collapses Host.trivial { State.init with currentInput := "5".toList }
    "5".toList '+' '-' rfl rfl rfl (by decide) (by decide)

/-- C3: on the full string `200+50%` the operator at the end is dropped before
the percent terms are rewritten, so the code evaluates `200+50` and shows `250`;
and the keys 5, 0, %, = show `50`. -/
theorem percent_at_end_is_dropped :
    (∀ H : Host, (calculateExpression H
        { State.init with expression := "200+".toList, currentInput := "50%".toList }).currentInput
      = "250".toList) ∧
    (∀ H : Host, (calculateExpression H (addOperator H "%".toList
        (appendInput "0".toList (appendInput "5".toList State.init)))).currentInput
      = "50".toList) := by
  constructor
  · intro H
    rw [calculateExpression_congr H Host.trivial _ (by decide)]
    decide
  · intro H
    rw [addOperator_congr H Host.trivial "%".toList _ (Or.inl (by decide)),
      calculateExpression_congr H Host.trivial _ (by decide)]
    decide

/-- C8 as stated fails: a digit typed after the error marker is appended to
it, while a digit typed after `0` replaces it. -/
theorem appendInput_error_counterexample :
    (appendInput "5".toList { State.init with currentInput := errorMarker }).currentInput
      = "Error5".toList ∧
    (appendInput "5".toList { State.init with currentInput := "0".toList }).currentInput
      = "5".toList := by
  decide

/-- C8, amended: when the current input is the error marker, a digit key
appends the digit to the marker, in Normal and in power mode. -/
theorem appendInput_after_error (s : State) (d : Char)
    (he : s.currentInput = errorMarker) (hd : isDigit d = true) :
    (appendInput [d] s).currentInput = errorMarker ++ [d] := by
  have hdot : d ≠ '.' := isDigit_ne_dot d hd
  have h1 : ([d] : Str) ≠ ".".toList := by
    intro h; exact hdot (by simpa using h)
  have h2 : ([d] : Str) ≠ "+/-".toList := by
    intro h; simp at h
  have h3 : errorMarker ≠ ['0'] := by decide
  unfold appendInput
  cases hpm : s.powerMode <;> simp [he, h1, h2, h3, hdot]

theorem appendInput_after_error_witness :
    (appendInput ['7'] { State.init with currentInput := errorMarker }).currentInput
      = errorMarker ++ ['7'] :=
  appendInput_after_error { State.init with currentInput := errorMarker } '7' rfl (by decide)


/-! ## Power mode and error paths -/

/-- C6 as stated fails: when the power cannot be committed the operator key
does nothing, and the expression entered before the power key still holds its
operator (keys 5, +, 3, power, +). -/
theorem addOperator_power_counterexample :
    (applyFunction Host.trivial "power".toList (appendInput "3".toList
      (addOperator Host.trivial "+".toList (appendInput "5".toList State.init)))).powerMode = true ∧
    '+' ∈ (addOperator Host.trivial "+".toList
      (applyFunction Host.trivial "power".toList (appendInput "3".toList
        (addOperator Host.trivial "+".toList (appendInput "5".toList State.init))))).expression := by
  decide

/-- C6, amended: in power mode an operator key gives the state that
`calculateExpression` gives, with `lastResult` left as it was; the operator is
never appended (the expression is emptied whenever the state changes), and
when the current input is empty or no base is pending both are no-ops that
stay in power mode. -/
theorem addOperator_power_commits (H : Host) (s : State) (op : Str)
    (hpm : s.powerMode = true) :
    addOperator H op s = { calculateExpression H s with lastResult := s.lastResult } ∧
    (addOperator H op s = s ∨ (addOperator H op s).expression = []) ∧
    (s.currentInput = [] ∨ s.baseForPower = none →
      addOperator H op s = s ∧ calculateExpression H s = s ∧
      (addOperator H op s).powerMode = true) := by
  unfold addOperator calculateExpression
  rw [if_pos hpm, if_pos hpm]
  cases hb : s.baseForPower with
  | none => exact ⟨rfl, Or.inl rfl, fun _ => ⟨rfl, rfl, hpm⟩⟩
  | some b =>
    dsimp only
    by_cases hc : s.currentInput = []
    · rw [if_pos hc, if_pos hc]
      exact ⟨rfl, Or.inl rfl, fun _ => ⟨rfl, rfl, hpm⟩⟩
    · rw [if_neg hc, if_neg hc]
      have hno : ¬ (s.currentInput = [] ∨ some b = none) := by
        rintro (h | h)
        · exact hc h
        · cases h
      by_cases hn : ((parseFloat s.currentInput).isNaN || (parseFloat b).isNaN) = true
      · rw [if_pos hn, if_pos hn]
        exact ⟨rfl, Or.inr rfl, fun h => absurd h hno⟩
      · rw [if_neg hn, if_neg hn]
        exact ⟨rfl, Or.inr rfl, fun h => absurd h hno⟩

theorem addOperator_power_commits_witness :
    addOperator Host.trivial "+".toList
        { State.init with currentInput := "10".toList, powerMode := true,
                          baseForPower := some "2".toList }
      = { calculateExpression Host.trivial
            { State.init with currentInput := "10".toList, powerMode := true,
                              baseForPower := some "2".toList }
          with lastResult := none } :=
  (addOperator_power_commits Host.trivial
    { State.init with currentInput := "10".toList, powerMode := true,
                      baseForPower := some "2".toList } "+".toList rfl).1

/-- C9 as stated fails: the reciprocal of `0` typed as an exponent (keys 2,
power, 0, 1/x) shows the error marker and leaves the engine in power mode. -/
theorem error_in_power_mode_counterexample :
    (applyFunction Host.trivial "reciprocal".toList (appendInput "0".toList
      (applyFunction Host.trivial "power".toList (appendInput "2".toList State.init)))).currentInput
        = errorMarker ∧
    (applyFunction Host.trivial "reciprocal".toList (appendInput "0".toList
      (applyFunction Host.trivial "power".toList (appendInput "2".toList State.init)))).powerMode
        = true := by
  decide

theorem ite_ind {α : Type} (P : α → Prop) (c : Prop) [Decidable c] (a b : α)
    (ha : c → P a) (hb : ¬c → P b) : P (if c then a else b) := by
  by_cases h : c
  · rw [if_pos h]; exact ha h
  · rw [if_neg h]; exact hb h

/-- The four ways `applyFunction` ends: nothing, the error marker, a result,
or the start of power mode. -/
theorem applyFunction_ind (H : Host) (f : Str) (s : State) (P : State → Prop)
    (hsame : P s) (herr : P (showError s)) (hres : ∀ r, P (showResult s r))
    (hpow : P { s with baseForPower := some s.currentInput, powerMode := true,
                       currentInput := [] }) :
    P (applyFunction H f s) := by
  unfold applyFunction
  repeat' first
    | exact hsame
    | exact herr
    | exact hres _
    | exact hpow
    | refine ite_ind P _ _ _ (fun _ => ?_) (fun _ => ?_)

/-- The ways `calculateExpression` ends. -/
theorem calculateExpression_cases (H : Host) (s : State) :
    calculateExpression H s = s ∨
    ((calculateExpression H s).expression = [] ∧ (calculateExpression H s).powerMode = false) := by
  unfold calculateExpression
  cases hpm : s.powerMode with
  | true =>
    rw [if_pos rfl]
    cases hb : s.baseForPower with
    | none => exact Or.inl rfl
    | some b =>
      dsimp only
      split_ifs
      · exact Or.inl rfl
      · exact Or.inr ⟨rfl, rfl⟩
      · exact Or.inr ⟨rfl, rfl⟩
  | false =>
    rw [if_neg (by simp)]
    split_ifs with h1
    · exact Or.inr ⟨h1.1, rfl⟩
    · cases jsEval H (fullExpression s) with
      | none => exact Or.inr ⟨rfl, rfl⟩
      | some v =>
        dsimp only
        split_ifs
        · exact Or.inr ⟨rfl, rfl⟩
        · exact Or.inr ⟨rfl, rfl⟩

/-- C9, amended: whenever `applyFunction` or `calculateExpression` changes the
state and leaves the error marker in the current input, the expression is
empty; `applyFunction` leaves the power mode and the pending base as they
were, and `calculateExpression` ends in Normal mode. -/
theorem error_paths_clear_expression (H : Host) (s : State) (f : Str) :
    ((applyFunction H f s).currentInput = errorMarker → applyFunction H f s ≠ s →
      (applyFunction H f s).expression = [] ∧
      (applyFunction H f s).powerMode = s.powerMode ∧
      (applyFunction H f s).baseForPower = s.baseForPower) ∧
    ((calculateExpression H s).currentInput = errorMarker → calculateExpression H s ≠ s →
      (calculateExpression H s).expression = [] ∧
      (calculateExpression H s).powerMode = false) := by
  constructor
  · intro he hne
    revert he hne
    refine applyFunction_ind H f s (fun r => r.currentInput = errorMarker → r ≠ s →
      r.expression = [] ∧ r.powerMode = s.powerMode ∧ r.baseForPower = s.baseForPower)
      ?_ ?_ ?_ ?_
    · intro _ hne; exact absurd rfl hne
    · intro _ _; exact ⟨rfl, rfl, rfl⟩
    · intro r _ _; exact ⟨rfl, rfl, rfl⟩
    · intro he _; exact absurd he (by simp [errorMarker])
  · intro _ hne
    rcases calculateExpression_cases H s with h | h
    · exact absurd h hne
    · exact h

theorem error_paths_clear_expression_witness :
    (applyFunction Host.trivial "reciprocal".toList
        { State.init with expression := "1+".toList, powerMode := true,
                          baseForPower := some "2".toList }).expression = [] ∧
    (applyFunction Host.trivial "reciprocal".toList
        { State.init with expression := "1+".toList, powerMode := true,
                          baseForPower := some "2".toList }).powerMode = true ∧
    (applyFunction Host.trivial "reciprocal".toList
        { State.init with expression := "1+".toList, powerMode := true,
                          baseForPower := some "2".toList }).baseForPower = some "2".toList :=
  (error_paths_clear_expression Host.trivial
    { State.init with expression := "1+".toList, powerMode := true,
                      baseForPower := some "2".toList } "reciprocal".toList).1
    (by decide) (by decide)


/-! ## Domain errors of the unary functions -/

theorem ofNat_zero : ofNat 0 = .fin false 0 := by decide

theorem ofNat_one : ofNat 1 = .fin false unit := by decide

theorem key_ofNat_zero : (ofNat 0).key = 0 := by decide

theorem key_ofNat_one : (ofNat 1).key = (unit : Int) := by decide

theorem key_neg_ofNat_one : (JSNum.neg (ofNat 1)).key = -(unit : Int) := by decide

/-- C10: when the current input parses to a number `x` (its position `x.key`
counted in units of `2^-1074`, so that `1` is `unit`), `sqrt` with `x < 0`,
`reciprocal` with `x = 0`, and `asin` and `acos` with `x < -1` or `x > 1` put
the error marker in the current input, empty the expression and change nothing
else. -/
theorem unary_domain_errors (H : Host) (s : State) (x : JSNum)
    (hx : parseFloat s.currentInput = x) (hnum : x.isNaN = false) :
    (x.key < 0 →
      applyFunction H "sqrt".toList s = { s with currentInput := errorMarker, expression := [] }) ∧
    (x.key = 0 →
      applyFunction H "reciprocal".toList s
        = { s with currentInput := errorMarker, expression := [] }) ∧
    (x.key < -(unit : Int) ∨ (unit : Int) < x.key →
      applyFunction H "asin".toList s = { s with currentInput := errorMarker, expression := [] } ∧
      applyFunction H "acos".toList s = { s with currentInput := errorMarker, expression := [] }) := by
  have hn : ¬ ((parseFloat s.currentInput).isNaN = true) := by rw [hx, hnum]; decide
  refine ⟨fun h => ?_, fun h => ?_, fun h => ?_⟩
  · have hlt : (parseFloat s.currentInput).lt (ofNat 0) = true := by
      rw [hx]; unfold JSNum.lt; rw [hnum, key_ofNat_zero, ofNat_zero]; simpa [JSNum.isNaN] using h
    unfold applyFunction
    rw [if_neg hn, if_pos rfl, if_pos hlt]
    rfl
  · have heq : (parseFloat s.currentInput).strictEq (ofNat 0) = true := by
      rw [hx]; unfold JSNum.strictEq; rw [hnum, key_ofNat_zero, ofNat_zero]; simpa [JSNum.isNaN] using h
    unfold applyFunction
    rw [if_neg hn, if_neg (by decide), if_neg (by decide), if_pos rfl, if_pos heq]
    rfl
  · have hout : ((parseFloat s.currentInput).lt (JSNum.neg (ofNat 1))
        || (parseFloat s.currentInput).gt (ofNat 1)) = true := by
      rw [hx]; unfold JSNum.gt JSNum.lt
      rw [hnum, key_neg_ofNat_one, key_ofNat_one]
      rcases h with h | h
      · simp [h, JSNum.isNaN, JSNum.neg, ofNat_one]
      · simp [h, JSNum.isNaN, ofNat_one]
    constructor
    · unfold applyFunction
      rw [if_neg hn, if_neg (by decide), if_neg (by decide), if_neg (by decide),
        if_neg (by decide), if_neg (by decide), if_neg (by decide), if_pos rfl, if_pos hout]
      rfl
    · unfold applyFunction
      rw [if_neg hn, if_neg (by decide), if_neg (by decide), if_neg (by decide),
        if_neg (by decide), if_neg (by decide), if_neg (by decide), if_neg (by decide),
        if_pos rfl, if_pos hout]
      rfl

theorem unary_domain_errors_witness :
    applyFunction Host.trivial "sqrt".toList
        { State.init with currentInput := "-4".toList, expression := "1+".toList }
      = { State.init with currentInput := errorMarker } ∧
    applyFunction Host.trivial "reciprocal".toList
        { State.init with currentInput := "0".toList, expression := "1+".toList }
      = { State.init with currentInput := errorMarker } ∧
    applyFunction Host.trivial "asin".toList
        { State.init with currentInput := "2".toList, expression := "1+".toList }
      = { State.init with currentInput := errorMarker } :=
  ⟨(unary_domain_errors Host.trivial
      { State.init with currentInput := "-4".toList, expression := "1+".toList }
      (.fin true (4 * unit)) (by decide) rfl).1 (by decide),
   (unary_domain_errors Host.trivial
      { State.init with currentInput := "0".toList, expression := "1+".toList }
      (.fin false 0) (by decide) rfl).2.1 (by decide),
   ((unary_domain_errors Host.trivial
      { State.init with currentInput := "2".toList, expression := "1+".toList }
      (.fin false (2 * unit)) (by decide) rfl).2.2 (Or.inr (by decide))).1⟩


/-! ## Rounding is exact on doubles -/

theorem size_eq_add_of_le (n k : Nat) (h : 2 ^ k ≤ n) : n.size = k + (n / 2 ^ k).size := by
  have hm : 0 < n / 2 ^ k := Nat.div_pos h (by positivity)
  have hs : 0 < (n / 2 ^ k).size := Nat.size_pos.mpr hm
  apply le_antisymm
  · rw [Nat.size_le, pow_add]
    have := Nat.lt_size_self (n / 2 ^ k)
    rw [Nat.div_lt_iff_lt_mul (by positivity)] at this
    rw [mul_comm]; exact this
  · have h1 : 2 ^ ((n / 2 ^ k).size - 1) ≤ n / 2 ^ k := by
      rw [← Nat.lt_size]; omega
    have h2 : 2 ^ (k + (n / 2 ^ k).size - 1) ≤ n := by
      have : k + (n / 2 ^ k).size - 1 = (n / 2 ^ k).size - 1 + k := by omega
      rw [this, pow_add]
      calc 2 ^ ((n / 2 ^ k).size - 1) * 2 ^ k ≤ n / 2 ^ k * 2 ^ k := Nat.mul_le_mul_right _ h1
        _ ≤ n := Nat.div_mul_le_self n (2 ^ k)
    have h3 := Nat.lt_size.mpr h2
    omega

theorem bitLenAux_eq_size (l : Nat) : ∀ n, n < 2 ^ (2 ^ l) → bitLenAux l n = n.size := by
  induction l with
  | zero =>
    intro n hn
    have : n = 0 ∨ n = 1 := by simp at hn; omega
    rcases this with rfl | rfl <;> simp [bitLenAux]
  | succ l ih =>
    intro n hn
    unfold bitLenAux
    split_ifs with h
    · have hlt : n / 2 ^ (2 ^ l) < 2 ^ (2 ^ l) := by
        rw [Nat.div_lt_iff_lt_mul (by positivity), ← pow_add]
        have : 2 ^ l + 2 ^ l = 2 ^ (l + 1) := by rw [pow_succ]; ring
        rw [this]; exact hn
      rw [ih _ hlt, size_eq_add_of_le n _ h]
    · exact ih n (lt_of_not_le h)

theorem bitLen_eq_size (n : Nat) (hn : n < 2 ^ 8192) : bitLen n = n.size :=
  bitLenAux_eq_size 13 n (by simpa using hn)

theorem overflowMag_lt : overflowMag < 2 ^ 8192 := by
  unfold overflowMag
  exact Nat.pow_lt_pow_right (by norm_num) (by norm_num)

theorem halfEven_mul (y q : Nat) (hq : 0 < q) : halfEven (y * q) q = y := by
  unfold halfEven
  simp [Nat.mul_div_cancel _ hq, hq]

theorem halfEven_exact (x q s : Nat) (hq : 0 < q) (hd : 2 ^ s ∣ x) :
    halfEven (x * q) (q * 2 ^ s) * 2 ^ s = x := by
  obtain ⟨y, rfl⟩ := hd
  have hp : 2 ^ s * y * q = y * (q * 2 ^ s) := by ring
  rw [hp, halfEven_mul _ _ (by positivity)]
  ring

/-- A magnitude below `2^1024` that is a multiple of the spacing of its binade
is rounded to itself. -/
theorem roundMag_exact (x q : Nat) (hq : 0 < q) (hx : x < overflowMag)
    (hdvd : 2 ^ (x.size - 53) ∣ x) : roundMag (x * q) q = some x := by
  have hx' : x < 2 ^ 8192 := lt_trans hx overflowMag_lt
  unfold roundMag
  simp only [Nat.mul_div_cancel _ hq]
  rw [if_neg (not_le.mpr hx'), bitLen_eq_size x hx', halfEven_exact x q _ hq hdvd,
    if_neg (not_le.mpr hx)]

theorem mkNum_exact (neg : Bool) (x q : Nat) (hq : 0 < q) (hx : x < overflowMag)
    (hdvd : 2 ^ (x.size - 53) ∣ x) : mkNum neg (x * q) q = .fin neg x := by
  unfold mkNum
  rw [roundMag_exact x q hq hx hdvd]

theorem dvd_of_mantissa (m e : Nat) (hm : m < 2 ^ 53) :
    2 ^ ((m * 2 ^ e).size - 53) ∣ m * 2 ^ e := by
  have hs : (m * 2 ^ e).size ≤ 53 + e := by
    rw [Nat.size_le, pow_add]
    exact Nat.mul_lt_mul_of_pos_right hm (by positivity)
  exact Dvd.dvd.mul_left (pow_dvd_pow 2 (by omega)) m

theorem pow53_unit_lt : 2 ^ 53 * unit < overflowMag := by
  unfold unit overflowMag
  rw [← pow_add]
  exact Nat.pow_lt_pow_right (by norm_num) (by norm_num)

theorem natMag_lt (n : Nat) (hn : n ≤ 2 ^ 53) : n * unit < overflowMag :=
  lt_of_le_of_lt (Nat.mul_le_mul_right _ hn) pow53_unit_lt

theorem natMag_dvd (n : Nat) (hn : n ≤ 2 ^ 53) :
    2 ^ ((n * unit).size - 53) ∣ n * unit := by
  rcases Nat.lt_or_eq_of_le hn with h | h
  · exact dvd_of_mantissa n 1074 h
  · have : n * unit = 1 * 2 ^ 1127 := by
      rw [h]; unfold unit; rw [← pow_add]; norm_num
    rw [this]
    exact dvd_of_mantissa 1 1127 (by norm_num)

/-- An integer magnitude up to `2^53` is rounded to itself. -/
theorem mkNum_nat (neg : Bool) (n q : Nat) (hq : 0 < q) (hn : n ≤ 2 ^ 53) :
    mkNum neg (n * unit * q) q = .fin neg (n * unit) :=
  mkNum_exact neg _ q hq (natMag_lt n hn) (natMag_dvd n hn)

theorem ofNat_eq (n : Nat) (hn : n ≤ 2 ^ 53) : ofNat n = .fin false (n * unit) := by
  unfold ofNat
  simpa using mkNum_nat false n 1 Nat.one_pos hn

/-- The double of an integer of absolute value at most `2^53`. -/
theorem ofInt_eq (v : Int) (hv : v.natAbs ≤ 2 ^ 53) :
    ofInt v = .fin (decide (v < 0)) (v.natAbs * unit) := by
  unfold ofInt
  simpa using mkNum_nat (decide (v < 0)) v.natAbs 1 Nat.one_pos hv

theorem mul_ofNat (a b : Nat) (ha : a ≤ 2 ^ 53) (hb : b ≤ 2 ^ 53) (hab : a * b ≤ 2 ^ 53) :
    JSNum.mul (ofNat a) (ofNat b) = ofNat (a * b) := by
  rw [ofNat_eq a ha, ofNat_eq b hb, ofNat_eq _ hab]
  show mkNum (false != false) (a * unit * (b * unit)) unit = _
  have : a * unit * (b * unit) = a * b * unit * unit := by ring
  rw [this]
  simpa using mkNum_nat false (a * b) unit (by unfold unit; positivity) hab

theorem div_ofNat (a b : Nat) (ha : a ≤ 2 ^ 53) (hb : b ≤ 2 ^ 53) (hpos : 0 < b)
    (hdvd : b ∣ a) : JSNum.div (ofNat a) (ofNat b) = ofNat (a / b) := by
  have hq : a / b ≤ 2 ^ 53 := le_trans (Nat.div_le_self a b) ha
  have hu : 0 < unit := by unfold unit; positivity
  rw [ofNat_eq a ha, ofNat_eq b hb, ofNat_eq _ hq]
  unfold JSNum.div
  have hne : b * unit ≠ 0 := by positivity
  simp only [hne, if_false]
  have : a * unit * unit = a / b * unit * (b * unit) := by
    conv_lhs => rw [← Nat.div_mul_cancel hdvd]
    ring
  rw [this]
  simpa using mkNum_nat false (a / b) (b * unit) (by positivity) hq

/-- The sum of the doubles of an integer and a natural number. -/
theorem add_ofInt_ofNat (a : Int) (b : Nat) (ha : a.natAbs ≤ 2 ^ 53) (hb : b ≤ 2 ^ 53)
    (hab : (a + b).natAbs ≤ 2 ^ 53) :
    JSNum.add (ofInt a) (ofNat b) = ofInt (a + b) := by
  rw [ofInt_eq a ha, ofNat_eq b hb, ofInt_eq _ hab]
  unfold JSNum.add
  by_cases hneg : a < 0
  · have h1 : decide (a < 0) = true := by simpa using hneg
    simp only [h1, Bool.true_eq_false, if_false]
    by_cases hlt : b * unit < a.natAbs * unit
    · rw [if_pos hlt]
      have hlt' : b < a.natAbs := lt_of_mul_lt_mul_right hlt (Nat.zero_le _)
      have e1 : a.natAbs * unit - b * unit = (a + b).natAbs * unit := by
        rw [← Nat.sub_mul]; congr 1; omega
      have e2 : decide (a + (b : Int) < 0) = true := by simp; omega
      rw [e1, e2]
      simpa using mkNum_nat true (a + b).natAbs 1 Nat.one_pos hab
    · rw [if_neg hlt]
      have hle : a.natAbs ≤ b := by
        by_contra hc
        exact hlt (Nat.mul_lt_mul_of_pos_right (not_le.mp hc) (by unfold unit; positivity))
      by_cases hlt2 : a.natAbs * unit < b * unit
      · rw [if_pos hlt2]
        have hlt' : a.natAbs < b := lt_of_mul_lt_mul_right hlt2 (Nat.zero_le _)
        have e1 : b * unit - a.natAbs * unit = (a + b).natAbs * unit := by
          rw [← Nat.sub_mul]; congr 1; omega
        have e2 : decide (a + (b : Int) < 0) = false := by simp; omega
        rw [e1, e2]
        simpa using mkNum_nat false (a + b).natAbs 1 Nat.one_pos hab
      · rw [if_neg hlt2]
        have heq : a.natAbs = b := by
          apply le_antisymm hle
          by_contra hc
          exact hlt2 (Nat.mul_lt_mul_of_pos_right (not_le.mp hc) (by unfold unit; positivity))
        have e0 : a + (b : Int) = 0 := by omega
        rw [e0]; simp
  · have h1 : decide (a < 0) = false := by simpa using hneg
    simp only [h1, if_true]
    have e1 : a.natAbs * unit + b * unit = (a + b).natAbs * unit := by
      rw [← Nat.add_mul]; congr 1; omega
    have e2 : decide (a + (b : Int) < 0) = false := by simp; omega
    rw [e1, e2]
    simpa using mkNum_nat false (a + b).natAbs 1 Nat.one_pos hab

/-- The difference of the doubles of an integer and a natural number. -/
theorem sub_ofInt_ofNat (a : Int) (b : Nat) (ha : a.natAbs ≤ 2 ^ 53) (hb : b ≤ 2 ^ 53)
    (hab : (a - b).natAbs ≤ 2 ^ 53) :
    JSNum.sub (ofInt a) (ofNat b) = ofInt (a - b) := by
  rw [ofInt_eq a ha, ofNat_eq b hb, ofInt_eq _ hab]
  unfold JSNum.sub JSNum.neg JSNum.add
  by_cases hneg : a < 0
  · have h1 : decide (a < 0) = true := by simpa using hneg
    simp only [h1, Bool.not_false, if_true]
    have e1 : a.natAbs * unit + b * unit = (a - b).natAbs * unit := by
      rw [← Nat.add_mul]; congr 1; omega
    have e2 : decide (a - (b : Int) < 0) = true := by simp; omega
    rw [e1, e2]
    simpa using mkNum_nat true (a - b).natAbs 1 Nat.one_pos hab
  · have h1 : decide (a < 0) = false := by simpa using hneg
    simp only [h1, Bool.not_false, Bool.false_eq_true, if_false]
    by_cases hlt : b * unit < a.natAbs * unit
    · rw [if_pos hlt]
      have hlt' : b < a.natAbs := lt_of_mul_lt_mul_right hlt (Nat.zero_le _)
      have e1 : a.natAbs * unit - b * unit = (a - b).natAbs * unit := by
        rw [← Nat.sub_mul]; congr 1; omega
      have e2 : decide (a - (b : Int) < 0) = false := by simp; omega
      rw [e1, e2]
      simpa using mkNum_nat false (a - b).natAbs 1 Nat.one_pos hab
    · rw [if_neg hlt]
      have hle : a.natAbs ≤ b := by
        by_contra hc
        exact hlt (Nat.mul_lt_mul_of_pos_right (not_le.mp hc) (by unfold unit; positivity))
      by_cases hlt2 : a.natAbs * unit < b * unit
      · rw [if_pos hlt2]
        have hlt' : a.natAbs < b := lt_of_mul_lt_mul_right hlt2 (Nat.zero_le _)
        have e1 : b * unit - a.natAbs * unit = (a - b).natAbs * unit := by
          rw [← Nat.sub_mul]; congr 1; omega
        have e2 : decide (a - (b : Int) < 0) = true := by simp; omega
        rw [e1, e2]
        simpa using mkNum_nat true (a - b).natAbs 1 Nat.one_pos hab
      · rw [if_neg hlt2]
        have heq : a.natAbs = b := by
          apply le_antisymm hle
          by_contra hc
          exact hlt2 (Nat.mul_lt_mul_of_pos_right (not_le.mp hc) (by unfold unit; positivity))
        have e0 : a - (b : Int) = 0 := by omega
        rw [e0]; simp


/-! ## Strings of digits -/

theorem span_digits (d rest : Str) (hd : ∀ c ∈ d, isDigit c = true)
    (hr : ∀ c, rest.head? = some c → isDigit c = false) :
    (d ++ rest).span isDigit = (d, rest) := by
  rw [List.span_eq_take_drop]
  induction d with
  | nil =>
    cases rest with
    | nil => rfl
    | cons c r =>
      have := hr c rfl
      simp [List.takeWhile, List.dropWhile, this]
  | cons c d ih =>
    have hc : isDigit c = true := hd c (List.mem_cons_self _ _)
    have ih' := ih (fun x hx => hd x (List.mem_cons_of_mem _ hx))
    simp only [Prod.mk.injEq] at ih'
    simp only [List.cons_append, List.takeWhile_cons, List.dropWhile_cons, hc, if_true,
      Prod.mk.injEq, List.cons.injEq, true_and]
    exact ih'

theorem digitsVal_nil : digitsVal [] = 0 := rfl

theorem digitsVal_foldl (ds : Str) (a : Nat) :
    ds.foldl (fun a c => 10 * a + (c.toNat - 48)) a = a * 10 ^ ds.length + digitsVal ds := by
  induction ds generalizing a with
  | nil => simp [digitsVal]
  | cons c ds ih =>
    unfold digitsVal
    simp only [List.foldl_cons, List.length_cons]
    rw [ih, ih (10 * 0 + (c.toNat - 48))]
    ring

theorem digitsVal_append (a b : Str) :
    digitsVal (a ++ b) = digitsVal a * 10 ^ b.length + digitsVal b := by
  unfold digitsVal
  rw [List.foldl_append, digitsVal_foldl]
  rfl

theorem digitsVal_singleton (c : Char) : digitsVal [c] = c.toNat - 48 := by
  simp [digitsVal]

theorem digitChar_toNat (d : Nat) (hd : d < 10) : (digitChar d).toNat = 48 + d := by
  interval_cases d <;> rfl

theorem isDigit_digitChar (d : Nat) (hd : d < 10) : isDigit (digitChar d) = true := by
  interval_cases d <;> rfl

theorem natDigitsAux_spec (f : Nat) : ∀ n acc, n < f →
    (∃ c ds, natDigitsAux f n acc = c :: ds ++ acc ∧ (∀ x ∈ c :: ds, isDigit x = true) ∧
      digitsVal (c :: ds) = n ∧ (0 < n → c ≠ '0')) := by
  induction f with
  | zero => intro n acc h; omega
  | succ f ih =>
    intro n acc hn
    unfold natDigitsAux
    by_cases h10 : n < 10
    · rw [if_pos h10]
      refine ⟨digitChar n, [], rfl, ?_, ?_, ?_⟩
      · intro x hx
        simp only [List.mem_singleton] at hx
        rw [hx]; exact isDigit_digitChar n h10
      · rw [digitsVal_singleton, digitChar_toNat n h10]; omega
      · intro hpos heq
        have := digitChar_toNat n h10
        rw [heq] at this
        have h48 : ('0' : Char).toNat = 48 := rfl
        omega
    · rw [if_neg h10]
      have hlt : n / 10 < f := by omega
      obtain ⟨c, ds, he, hall, hval, hhead⟩ := ih (n / 10) (digitChar (n % 10) :: acc) hlt
      have hm : n % 10 < 10 := Nat.mod_lt _ (by norm_num)
      refine ⟨c, ds ++ [digitChar (n % 10)], ?_, ?_, ?_, ?_⟩
      · rw [he]; simp
      · intro x hx
        rw [← List.cons_append, List.mem_append] at hx
        rcases hx with hx | hx
        · exact hall x hx
        · simp only [List.mem_singleton] at hx
          rw [hx]; exact isDigit_digitChar _ hm
      · rw [← List.cons_append, digitsVal_append, hval, digitsVal_singleton,
          digitChar_toNat _ hm]
        simp only [List.length_singleton, pow_one]
        omega
      · intro _
        exact hhead (by omega)

/-- The decimal representation: digits only, not empty, the value read back,
and no leading zero for a positive number. -/
theorem natToStr_spec (n : Nat) :
    ∃ c ds, natToStr n = c :: ds ∧ (∀ x ∈ c :: ds, isDigit x = true) ∧
      digitsVal (c :: ds) = n ∧ (0 < n → c ≠ '0') := by
  obtain ⟨c, ds, he, h⟩ := natDigitsAux_spec (n + 1) n [] (Nat.lt_succ_self n)
  exact ⟨c, ds, by unfold natToStr; rw [he]; simp, h⟩

theorem natToStr_ne_nil (n : Nat) : natToStr n ≠ [] := by
  obtain ⟨c, ds, he, _⟩ := natToStr_spec n
  rw [he]; simp

theorem natToStr_digits (n : Nat) : ∀ x ∈ natToStr n, isDigit x = true := by
  obtain ⟨c, ds, he, h, _⟩ := natToStr_spec n
  rw [he]; exact h

theorem digitsVal_natToStr (n : Nat) : digitsVal (natToStr n) = n := by
  obtain ⟨c, ds, he, _, h, _⟩ := natToStr_spec n
  rw [he]; exact h

/-! ## `parseFloat` on digits -/

theorem isDigit_not_white (c : Char) (h : isDigit c = true) : isWhite c = false := by
  unfold isDigit at h
  unfold isWhite
  generalize c.toNat = n at h ⊢
  have hb : 48 ≤ n ∧ n ≤ 57 := by simpa using h
  obtain ⟨h1, h2⟩ := hb
  interval_cases n <;> rfl



theorem isDigits_iff (d : Str) : isDigits d = true ↔ d ≠ [] ∧ ∀ c ∈ d, isDigit c = true := by
  unfold isDigits
  cases d <;> simp

theorem isOp_not_digit (c : Char) (h : isOp c = true ∨ c = ')') :
    isDigit c = false ∧ c ≠ '.' ∧ (c == 'e' || c == 'E') = false ∧ isIdStart c = false := by
  have : c = '+' ∨ c = '-' ∨ c = '*' ∨ c = '/' ∨ c = '%' ∨ c = ')' := by
    rcases h with h | h
    · unfold isOp at h
      simp only [Bool.or_eq_true, beq_iff_eq] at h
      tauto
    · tauto
  rcases this with rfl | rfl | rfl | rfl | rfl | rfl <;> decide

theorem numeralValue_int (d : Str) : numeralValue false d [] 0 = ofNat (digitsVal d) := by
  unfold numeralValue ofDecimal ofNat
  simp

/-- The mantissa of a run of digits in front of a delimiter. -/
theorem scanMantissa_digits (d rest : Str) (hd : isDigits d = true)
    (hr : ∀ c, rest.head? = some c → isDigit c = false ∧ c ≠ '.') :
    scanMantissa (d ++ rest) = some (d, [], rest) := by
  obtain ⟨hne, hall⟩ := (isDigits_iff d).mp hd
  unfold scanMantissa
  rw [span_digits d rest hall (fun c hc => (hr c hc).1)]
  simp only
  split
  · exact absurd rfl (hr '.' rfl).2
  · simp [hne]

theorem scanExp_none (rest : Str)
    (hr : ∀ c, rest.head? = some c → (c == 'e' || c == 'E') = false) : scanExp rest = none := by
  cases rest with
  | nil => rfl
  | cons c r =>
    simp [scanExp, hr c rfl]

theorem afterNumeralOk_of (rest : Str)
    (hr : ∀ c, rest.head? = some c → isIdStart c = false) : afterNumeralOk rest = true := by
  cases rest with
  | nil => rfl
  | cons c r =>
    simp [afterNumeralOk, hr c rfl]

theorem isNumeral_iff (d : Str) :
    isNumeral d = true ↔ isDigits d = true ∧ (d.length = 1 ∨ d.head? ≠ some '0') := by
  unfold isNumeral
  simp

/-- One numeral in front of an operator or a closing parenthesis is one
token. -/
theorem tokenize_numeral (f : Nat) (d rest : Str) (hd : isNumeral d = true)
    (hr : ∀ c, rest.head? = some c → isOp c = true ∨ c = ')') :
    tokenize (f + 1) (d ++ rest) = (tokenize f rest).cons (.num (ofNat (digitsVal d))) := by
  obtain ⟨hdig, hlead⟩ := (isNumeral_iff d).mp hd
  obtain ⟨hne, hall⟩ := (isDigits_iff d).mp hdig
  have hsm := scanMantissa_digits d rest hdig
    (fun c hc => ⟨(isOp_not_digit c (hr c hc)).1, (isOp_not_digit c (hr c hc)).2.1⟩)
  have hse := scanExp_none rest (fun c hc => (isOp_not_digit c (hr c hc)).2.2.1)
  have han := afterNumeralOk_of rest (fun c hc => (isOp_not_digit c (hr c hc)).2.2.2)
  cases d with
  | nil => exact absurd rfl hne
  | cons c d' =>
    have hc : isDigit c = true := hall c (List.mem_cons_self _ _)
    have hz : (decide (1 < (c :: d').length) && (c :: d').head? == some '0') = false := by
      rcases hlead with h | h
      · simp [h]
      · simp only [List.head?_cons, ne_eq, Option.some.injEq] at h
        simp [h]
    rw [List.cons_append] at hsm ⊢
    conv_lhs => unfold tokenize
    simp only [hc, Bool.true_or, if_true, hsm, hz, Bool.false_eq_true, if_false, hse, han,
      numeralValue_int]


/-! ## Flat expressions: from the text to the tokens -/

theorem isArithOp_cases (op : Char) (h : isArithOp op = true) :
    op = '+' ∨ op = '-' ∨ op = '*' ∨ op = '/' := by
  unfold isArithOp at h
  simp only [Bool.or_eq_true, beq_iff_eq] at h
  tauto

theorem isArithOp_isOp (op : Char) (h : isArithOp op = true) : isOp op = true := by
  rcases isArithOp_cases op h with rfl | rfl | rfl | rfl <;> rfl

theorem tokenize_op (f : Nat) (op c : Char) (r : Str) (hop : isArithOp op = true)
    (hc : isDigit c = true) :
    tokenize (f + 1) (op :: c :: r) = (tokenize f (c :: r)).cons (opTok op) := by
  have h1 : c ≠ '+' := by rintro rfl; revert hc; decide
  have h2 : c ≠ '-' := by rintro rfl; revert hc; decide
  have h3 : c ≠ '*' := by rintro rfl; revert hc; decide
  have h4 : c ≠ '/' := by rintro rfl; revert hc; decide
  rcases isArithOp_cases op hop with rfl | rfl | rfl | rfl
  all_goals
    conv_lhs => unfold tokenize
    simp [isDigit, opTok, h1, h2, h3, h4]

theorem tokenize_rparen (f : Nat) : tokenize (f + 2) [')'] = .toks [.rparen] := by
  simp [tokenize, isDigit, Lexed.cons]

theorem flatOk_head (d : Str) (rest : List (Char × Str)) (h : flatOk d rest = true) :
    isNumeral d = true := by
  cases rest with
  | nil => exact h
  | cons p rest =>
    obtain ⟨op, e⟩ := p
    unfold flatOk at h
    simp only [Bool.and_eq_true] at h
    exact h.1.1

theorem isNumeral_cons (d : Str) (h : isNumeral d = true) :
    ∃ c d', d = c :: d' ∧ isDigit c = true := by
  obtain ⟨hdig, _⟩ := (isNumeral_iff d).mp h
  obtain ⟨hne, hall⟩ := (isDigits_iff d).mp hdig
  cases d with
  | nil => exact absurd rfl hne
  | cons c d' => exact ⟨c, d', rfl, hall c (List.mem_cons_self _ _)⟩

theorem flatText_cons (d : Str) (rest : List (Char × Str)) (h : flatOk d rest = true) :
    ∃ c r, flatText d rest = c :: r ∧ isDigit c = true := by
  obtain ⟨c, d', hd, hc⟩ := isNumeral_cons d (flatOk_head d rest h)
  cases rest with
  | nil => exact ⟨c, d', hd, hc⟩
  | cons p rest =>
    obtain ⟨op, e⟩ := p
    exact ⟨c, d' ++ op :: flatText e rest, by simp [flatText, hd], hc⟩

/-- The tokens of a flat expression in front of the closing parenthesis. -/
theorem tokenize_flat (rest : List (Char × Str)) : ∀ (d : Str) (f : Nat),
    flatOk d rest = true → (flatText d rest).length + 2 ≤ f →
    tokenize f (flatText d rest ++ [')'])
      = .toks (.num (ofNat (digitsVal d)) :: (flatToks rest ++ [.rparen])) := by
  induction rest with
  | nil =>
    intro d f hok hf
    have hd : isNumeral d = true := hok
    obtain ⟨c, d', hcd, _⟩ := isNumeral_cons d hd
    have hlen : 1 ≤ d.length := by rw [hcd]; simp
    simp only [flatText] at hf ⊢
    obtain ⟨g, rfl⟩ : ∃ g, f = g + 3 := ⟨f - 3, by omega⟩
    rw [tokenize_numeral (g + 2) d [')'] hd (by intro c hc; simp at hc; exact Or.inr hc.symm),
      tokenize_rparen]
    rfl
  | cons p rest ih =>
    obtain ⟨op, e⟩ := p
    intro d f hok hf
    unfold flatOk at hok
    simp only [Bool.and_eq_true] at hok
    obtain ⟨⟨hd, hop⟩, hrest⟩ := hok
    obtain ⟨c, r, hcr, hc⟩ := flatText_cons e rest hrest
    have hlen : (flatText d ((op, e) :: rest)).length = d.length + 1 + (flatText e rest).length := by
      simp [flatText]; omega
    obtain ⟨c0, d0, hcd, _⟩ := isNumeral_cons d hd
    have hdl : 1 ≤ d.length := by rw [hcd]; simp
    obtain ⟨g, rfl⟩ : ∃ g, f = g + 2 := ⟨f - 2, by omega⟩
    have e1 : flatText d ((op, e) :: rest) ++ [')'] = d ++ op :: (flatText e rest ++ [')']) := by
      simp [flatText]
    rw [e1, tokenize_numeral (g + 1) d _ hd
      (by intro x hx; simp at hx; rw [← hx]; exact Or.inl (isArithOp_isOp op hop))]
    have e2 : flatText e rest ++ [')'] = c :: (r ++ [')']) := by rw [hcr]; rfl
    rw [e2, tokenize_op g op c _ hop hc, ← e2, ih e g hrest (by omega)]
    rfl

/-! ## Flat expressions: from the tokens to the value -/

theorem ofInt_natCast (n : Nat) : ofInt (n : Int) = ofNat n := by
  unfold ofInt ofNat
  have : ¬ ((n : Int) < 0) := by omega
  simp [this]

theorem isSafe_iff (v : Int) : isSafe v = true ↔ v.natAbs ≤ 2 ^ 53 := by
  unfold isSafe
  simp

/-- The sum so far, once the current term is complete. -/
theorem close_flat (fs : Option (Val × Bool)) (sum : Int) (minus : Bool) (term : Nat)
    (hR : (fs = none ∧ sum = 0 ∧ minus = false) ∨
      (fs = some (.num (ofInt sum), minus) ∧ isSafe sum = true))
    (ht : term ≤ 2 ^ 53)
    (hv : isSafe (addTerm sum minus term) = true) :
    Frame.close { sum := fs, term := none, signs := [] } (.num (ofNat term))
      = .num (ofInt (addTerm sum minus term)) := by
  unfold addTerm at hv ⊢
  rcases hR with ⟨rfl, rfl, rfl⟩ | ⟨rfl, hs⟩
  · simp [Frame.close, ofInt_natCast]
  · rw [isSafe_iff] at hs hv
    cases minus with
    | true =>
      simp only [if_true] at hv ⊢
      simp [Frame.close, applyAdd, Val.toNum, sub_ofInt_ofNat sum term hs ht hv]
    | false =>
      simp only [Bool.false_eq_true, if_false] at hv ⊢
      simp [Frame.close, applyAdd, add_ofInt_ofNat sum term hs ht hv]

/-- The run of the parser over a flat expression follows the conventional
precedence. -/
theorem run_flat (rest : List (Char × Str)) : ∀ (sum : Int) (minus : Bool) (term : Nat)
    (fs : Option (Val × Bool)) (v : Int),
    (∀ p ∈ rest, isArithOp p.1 = true) →
    ((fs = none ∧ sum = 0 ∧ minus = false) ∨
      (fs = some (.num (ofInt sum), minus) ∧ isSafe sum = true)) →
    term ≤ 2 ^ 53 → specEval sum minus term rest = some v →
    run (flatToks rest ++ [.rparen]) (.have (.num (ofNat term)))
      { sum := fs, term := none, signs := [] } [Frame.empty] = .num (ofInt v) := by
  induction rest with
  | nil =>
    intro sum minus term fs v _ hR ht hv
    unfold specEval at hv
    split_ifs at hv with hs
    cases hv
    have hc := close_flat fs sum minus term hR ht hs
    simp only [flatToks, List.nil_append, run]
    rw [hc]
    simp [Frame.empty, Frame.operand, applySigns, Frame.close]
  | cons p rest ih =>
    obtain ⟨op, d⟩ := p
    intro sum minus term fs v hops hR ht hv
    have hop := hops (op, d) (List.mem_cons_self _ _)
    have hops' : ∀ p ∈ rest, isArithOp p.1 = true :=
      fun p hp => hops p (List.mem_cons_of_mem _ hp)
    unfold specEval at hv
    split_ifs at hv with h1 h2 h3 h4 h5 h6
    · -- multiplication
      subst h2
      have hn : digitsVal d ≤ 2 ^ 53 := not_lt.mp h1
      have := ih sum minus (term * digitsVal d) fs v hops' hR h3 hv
      simpa [flatToks, opTok, run, Frame.operand, applySigns, applyMul, Val.toNum,
        mul_ofNat term (digitsVal d) ht hn h3] using this
    · -- division
      subst h4
      have hn : digitsVal d ≤ 2 ^ 53 := not_lt.mp h1
      have hq : term / digitsVal d ≤ 2 ^ 53 := le_trans (Nat.div_le_self _ _) ht
      have := ih sum minus (term / digitsVal d) fs v hops' hR hq hv
      simpa [flatToks, opTok, run, Frame.operand, applySigns, applyMul, Val.toNum,
        div_ofNat term (digitsVal d) ht hn h5.1 h5.2] using this
    · -- addition and subtraction
      have hn : digitsVal d ≤ 2 ^ 53 := not_lt.mp h1
      have hc := close_flat fs sum minus term hR ht h6
      have hpm : op = '+' ∨ op = '-' := by
        rcases isArithOp_cases op hop with h | h | h | h
        · exact Or.inl h
        · exact Or.inr h
        · exact absurd h h2
        · exact absurd h h4
      rcases hpm with rfl | rfl
      · have := ih _ false (digitsVal d) (some (.num (ofInt (addTerm sum minus term)), false))
          v hops' (Or.inr ⟨rfl, h6⟩) hn (by simpa using hv)
        simpa [flatToks, opTok, run, Frame.operand, applySigns, hc] using this
      · have := ih _ true (digitsVal d) (some (.num (ofInt (addTerm sum minus term)), true))
          v hops' (Or.inr ⟨rfl, h6⟩) hn (by simpa using hv)
        simpa [flatToks, opTok, run, Frame.operand, applySigns, hc] using this


/-! ## The two replacements on texts without operator at the end and without `%` -/

theorem stripTrailingOps_concat (l : Str) (x : Char) (hx : isOp x = false) :
    stripTrailingOps (l ++ [x]) = l ++ [x] := by
  unfold stripTrailingOps
  exact List.rdropWhile_concat_neg _ _ _ (by simp [hx])

theorem isDigit_not_op (c : Char) (h : isDigit c = true) : isOp c = false := by
  by_contra hc
  have := (isOp_not_digit c (Or.inl (by simpa using hc))).1
  rw [h] at this
  cases this

theorem span_snd_suffix (s : Str) (p : Char → Bool) : ∀ x ∈ (s.span p).2, x ∈ s := by
  rw [List.span_eq_take_drop]
  intro x hx
  exact (List.dropWhile_suffix p).subset hx

theorem matchPercent_none (s : Str) (h : '%' ∉ s) : matchPercent s = none := by
  unfold matchPercent
  split_ifs with h1
  · rfl
  · split
    · rename_i r heq
      exact absurd (span_snd_suffix s isDigit '%' (by rw [heq]; simp)) h
    · rename_i r1 heq
      split_ifs with h2
      · rfl
      · split
        · rename_i r heq2
          have h3 : '%' ∈ r1 := span_snd_suffix r1 isDigit '%' (by rw [heq2]; simp)
          exact absurd (span_snd_suffix s isDigit '%' (by rw [heq]; simp [h3])) h
        · rfl
    · rfl

theorem percentRewrite_id (f : Nat) : ∀ s : Str, '%' ∉ s → percentRewrite f s = s := by
  induction f with
  | zero => intro s _; rfl
  | succ f ih =>
    intro s h
    cases s with
    | nil => rfl
    | cons c r =>
      unfold percentRewrite
      rw [matchPercent_none _ h]
      simp only
      rw [ih r (fun hc => h (List.mem_cons_of_mem _ hc))]

theorem isNumeral_digits (d : Str) (h : isNumeral d = true) : ∀ c ∈ d, isDigit c = true :=
  ((isDigits_iff d).mp ((isNumeral_iff d).mp h).1).2

theorem isNumeral_last (d : Str) (h : isNumeral d = true) :
    ∃ l x, d = l ++ [x] ∧ isDigit x = true := by
  obtain ⟨c, d', hd, _⟩ := isNumeral_cons d h
  have hne : d ≠ [] := by rw [hd]; simp
  refine ⟨d.dropLast, d.getLast hne, (List.dropLast_append_getLast hne).symm, ?_⟩
  exact isNumeral_digits d h _ (List.getLast_mem hne)

theorem flatText_last (rest : List (Char × Str)) : ∀ d : Str, flatOk d rest = true →
    ∃ l x, flatText d rest = l ++ [x] ∧ isDigit x = true := by
  induction rest with
  | nil => intro d h; exact isNumeral_last d h
  | cons p rest ih =>
    obtain ⟨op, e⟩ := p
    intro d h
    unfold flatOk at h
    simp only [Bool.and_eq_true] at h
    obtain ⟨l, x, hl, hx⟩ := ih e h.2
    exact ⟨d ++ op :: l, x, by simp [flatText, hl], hx⟩

theorem flatText_no_percent (rest : List (Char × Str)) : ∀ d : Str, flatOk d rest = true →
    '%' ∉ flatText d rest := by
  induction rest with
  | nil =>
    intro d h hc
    have := isNumeral_digits d h '%' hc
    revert this; decide
  | cons p rest ih =>
    obtain ⟨op, e⟩ := p
    intro d h hc
    unfold flatOk at h
    simp only [Bool.and_eq_true] at h
    simp only [flatText, List.mem_append, List.mem_cons] at hc
    rcases hc with hc | hc | hc
    · have := isNumeral_digits d h.1.1 '%' hc
      revert this; decide
    · rw [← hc] at h
      have := h.1.2
      revert this; decide
    · exact ih e h.2 hc

theorem flatOk_ops (rest : List (Char × Str)) : ∀ d : Str, flatOk d rest = true →
    ∀ p ∈ rest, isArithOp p.1 = true := by
  induction rest with
  | nil => intro d _ p hp; cases hp
  | cons q rest ih =>
    obtain ⟨op, e⟩ := q
    intro d h p hp
    unfold flatOk at h
    simp only [Bool.and_eq_true] at h
    rcases List.mem_cons.mp hp with rfl | hp
    · exact h.1.2
    · exact ih e h.2 p hp

/-- The value of the text of a flat expression. -/
theorem evalFragment_flat (d : Str) (rest : List (Char × Str)) (v : Int)
    (hok : flatOk d rest = true) (hv : specValue d rest = some v) :
    evalFragment (flatText d rest) = .num (ofInt v) := by
  unfold specValue at hv
  split_ifs at hv with hd
  unfold evalFragment
  have ht : tokenize ((flatText d rest).length + 3) ('(' :: flatText d rest ++ [')'])
      = .toks (.lparen :: .num (ofNat (digitsVal d)) :: (flatToks rest ++ [.rparen])) := by
    conv_lhs => unfold tokenize
    simp only [List.cons_append]
    rw [tokenize_flat rest d _ hok (le_refl _)]
    simp [isDigit, Lexed.cons]
  rw [ht]
  have hr := run_flat rest 0 false (digitsVal d) none v (flatOk_ops rest d hok)
    (Or.inl ⟨rfl, rfl, rfl⟩) hd hv
  simpa [run, Frame.empty, Frame.operand, applySigns] using hr

theorem specEval_safe (rest : List (Char × Str)) : ∀ (sum : Int) (minus : Bool) (term : Nat)
    (v : Int), specEval sum minus term rest = some v → v.natAbs ≤ 2 ^ 53 := by
  induction rest with
  | nil =>
    intro sum minus term v hv
    unfold specEval at hv
    split_ifs at hv with hs
    cases hv
    exact (isSafe_iff _).mp hs
  | cons p rest ih =>
    obtain ⟨op, d⟩ := p
    intro sum minus term v hv
    unfold specEval at hv
    split_ifs at hv
    · exact ih _ _ _ v hv
    · exact ih _ _ _ v hv
    · exact ih _ _ _ v hv

/-! ## The string of an integer -/

theorem natToStr_zero : natToStr 0 = "0".toList := by decide

/-- The string of the double of an integer of absolute value at most `2^53`. -/
theorem numToString_ofInt (v : Int) (hv : v.natAbs ≤ 2 ^ 53) :
    numToString (ofInt v) = intToStr v := by
  have hu : 0 < unit := by unfold unit; positivity
  rw [ofInt_eq v hv]
  unfold numToString intToStr
  by_cases h0 : v = 0
  · subst h0
    simp [natToStr_zero]
  · have hpos : 0 < v.natAbs := Int.natAbs_pos.mpr h0
    have hz : v.natAbs * unit ≠ 0 := by positivity
    have hp : posToString (v.natAbs * unit) = natToStr v.natAbs := by
      unfold posToString
      rw [if_pos ⟨Nat.mul_mod_left _ _, by rw [Nat.mul_div_cancel _ hu]; exact hv⟩,
        Nat.mul_div_cancel _ hu]
    simp only [hz, if_false, hp]
    by_cases hn : v < 0
    · simp [hn]
    · simp [hn]

/-- C1, amended: in Normal mode, when the full string is a flat expression of
numerals without superfluous leading zero joined by `+ - * /`, and its
evaluation under the conventional precedence keeps every numeral, product,
quotient and partial sum an integer of absolute value at most `2^53` (every
division exact, by a divisor other than zero) and gives `v`, then
`calculateExpression` puts the decimal string of `v` in the current input, `v`
in `lastResult`, and empties the expression. -/
theorem calculateExpression_flat (H : Host) (s : State) (d : Str) (rest : List (Char × Str))
    (v : Int) (hpm : s.powerMode = false)
    (hfull : s.expression ++ s.currentInput = flatText d rest)
    (hok : flatOk d rest = true) (hv : specValue d rest = some v) :
    calculateExpression H s
      = { s with currentInput := intToStr v, lastResult := some (ofInt v), expression := [] } := by
  obtain ⟨c, r, hcr, _⟩ := flatText_cons d rest hok
  obtain ⟨l, x, hl, hx⟩ := flatText_last rest d hok
  have hsafe : v.natAbs ≤ 2 ^ 53 := by
    unfold specValue at hv
    split_ifs at hv
    exact specEval_safe rest _ _ _ v hv
  have hne : ¬ (s.expression = [] ∧ s.currentInput = []) := by
    rintro ⟨h1, h2⟩
    rw [h1, h2, hcr] at hfull
    cases hfull
  have hfe : fullExpression s = flatText d rest := by
    unfold fullExpression
    rw [hfull]
    have : stripTrailingOps (flatText d rest) = flatText d rest := by
      rw [hl]; exact stripTrailingOps_concat l x (isDigit_not_op x hx)
    rw [this]
    exact percentRewrite_id _ _ (flatText_no_percent rest d hok)
  have hev : jsEval H (fullExpression s) = some (ofInt v) := by
    unfold jsEval
    rw [hfe, evalFragment_flat d rest v hok hv]
  unfold calculateExpression
  rw [if_neg (by simp [hpm]), if_neg hne, hev]
  simp only
  rw [ofInt_eq v hsafe]
  simp only [JSNum.isNaN, JSNum.isFinite, Bool.not_false, Bool.and_self, if_true]
  rw [← ofInt_eq v hsafe, numToString_ofInt v hsafe]

theorem calculateExpression_flat_witness :
    calculateExpression Host.trivial
        { State.init with expression := "1+2*".toList, currentInput := "3".toList }
      = { State.init with currentInput := "7".toList, lastResult := some (ofInt 7) } :=
  calculateExpression_flat Host.trivial
    { State.init with expression := "1+2*".toList, currentInput := "3".toList }
    "1".toList [('+', "2".toList), ('*', "3".toList)] 7 rfl (by decide) (by decide) (by decide)

/-- C1 as stated fails beyond `2^53`: the numeral `9007199254740993` alone
evaluates to the string `9007199254740992`, and so does
`9007199254740992+1`, whose numerals are both doubles. -/
theorem calculateExpression_flat_counterexample :
    (¬ ∃ H : Host, (calculateExpression H
        { State.init with currentInput := "9007199254740993".toList }).currentInput
      = "9007199254740993".toList) ∧
    (¬ ∃ H : Host, (calculateExpression H
        { State.init with expression := "9007199254740992+".toList,
                          currentInput := "1".toList }).currentInput
      = "9007199254740993".toList) := by
  constructor
  · rintro ⟨H, h⟩
    rw [calculateExpression_congr H Host.trivial _ (by decide)] at h
    revert h
    decide
  · rintro ⟨H, h⟩
    rw [calculateExpression_congr H Host.trivial _ (by decide)] at h
    revert h
    decide


/-! ## The power protocol -/

theorem isDigits_cons (d : Str) (h : isDigits d = true) :
    ∃ c d', d = c :: d' ∧ isDigit c = true := by
  obtain ⟨hne, hall⟩ := (isDigits_iff d).mp h
  cases d with
  | nil => exact absurd rfl hne
  | cons c d' => exact ⟨c, d', rfl, hall c (List.mem_cons_self _ _)⟩

/-- `parseFloat` on a string of digits. -/
theorem parseFloat_digits (d : Str) (h : isDigits d = true) :
    parseFloat d = ofNat (digitsVal d) := by
  obtain ⟨c, d', rfl, hc⟩ := isDigits_cons d h
  have hw : (c :: d').dropWhile isWhite = c :: d' := by
    simp [List.dropWhile, isDigit_not_white c hc]
  have h1 : c ≠ '+' := by rintro rfl; revert hc; decide
  have h2 : c ≠ '-' := by rintro rfl; revert hc; decide
  have h3 : c ≠ 'I' := by rintro rfl; revert hc; decide
  have hs : scanSign (c :: d') = (false, c :: d') := by
    unfold scanSign
    split
    · rename_i heq; simp only [List.cons.injEq] at heq; exact absurd heq.1 h1
    · rename_i heq; simp only [List.cons.injEq] at heq; exact absurd heq.1 h2
    · rfl
  have hi : "Infinity".toList.isPrefixOf (c :: d') = false := by
    simp [List.isPrefixOf, h3, Ne.symm h3]
  have hm : scanMantissa (c :: d') = some (c :: d', [], []) := by
    have := scanMantissa_digits (c :: d') [] h (by intro x hx; cases hx)
    simpa using this
  unfold parseFloat
  simp only [hw, hs, hi, hm, Bool.false_eq_true, if_false]
  rw [show scanExp [] = none from rfl]
  exact numeralValue_int _

theorem mkNum_isNaN (neg : Bool) (p q : Nat) : (mkNum neg p q).isNaN = false := by
  unfold mkNum
  cases roundMag p q <;> rfl

theorem ofNat_isNaN (n : Nat) : (ofNat n).isNaN = false := mkNum_isNaN _ _ _

/-- The power key in Normal mode on a string of digits. -/
theorem applyFunction_power (H : Host) (s : State) (h : isDigits s.currentInput = true) :
    applyFunction H "power".toList s
      = { s with baseForPower := some s.currentInput, powerMode := true, currentInput := [] } := by
  have hn : ¬ ((parseFloat s.currentInput).isNaN = true) := by
    rw [parseFloat_digits _ h, ofNat_isNaN]; decide
  unfold applyFunction
  rw [if_neg hn, if_neg (by decide), if_neg (by decide), if_neg (by decide), if_neg (by decide),
    if_neg (by decide), if_neg (by decide), if_neg (by decide), if_neg (by decide),
    if_neg (by decide), if_pos rfl]

theorem appendInput_power_digit (s : State) (c : Char) (hpm : s.powerMode = true)
    (hc : isDigit c = true) :
    appendInput [c] s
      = { s with currentInput := if s.currentInput = "0".toList then [c]
                                 else s.currentInput ++ [c] } := by
  have hdot : c ≠ '.' := isDigit_ne_dot c hc
  unfold appendInput
  rw [if_pos hpm]
  by_cases h0 : s.currentInput = ['0']
  · simp [h0, hdot]
  · simp [h0, hdot]

/-- Typing digits in power mode: the current input stays a string of digits,
of the value of the digits typed behind the former ones. -/
theorem typeDigits_power (ds : Str) : ∀ s : State, s.powerMode = true →
    (s.currentInput = [] ∨ isDigits s.currentInput = true) →
    (∀ c ∈ ds, isDigit c = true) →
    ∃ cur, typeDigits ds s = { s with currentInput := cur } ∧
      (ds ≠ [] ∨ s.currentInput ≠ [] → isDigits cur = true) ∧
      digitsVal cur = digitsVal (s.currentInput ++ ds) := by
  induction ds with
  | nil =>
    intro s _ hcur _
    refine ⟨s.currentInput, rfl, ?_, by simp⟩
    rintro (h | h)
    · exact absurd rfl h
    · rcases hcur with h' | h'
      · exact absurd h' h
      · exact h'
  | cons c ds ih =>
    intro s hpm hcur hall
    have hc : isDigit c = true := hall c (List.mem_cons_self _ _)
    have hstep := appendInput_power_digit s c hpm hc
    have hdig : isDigits (if s.currentInput = "0".toList then [c] else s.currentInput ++ [c])
        = true := by
      split_ifs with h0
      · simp [isDigits, hc]
      · rcases hcur with h' | h'
        · simp [h', isDigits, hc]
        · rw [isDigits_iff] at h' ⊢
          refine ⟨by simp, ?_⟩
          intro x hx
          rcases List.mem_append.mp hx with hx | hx
          · exact h'.2 x hx
          · simp only [List.mem_singleton] at hx; rw [hx]; exact hc
    have hval : digitsVal (if s.currentInput = "0".toList then [c] else s.currentInput ++ [c])
        = digitsVal (s.currentInput ++ [c]) := by
      split_ifs with h0
      · rw [h0, digitsVal_append]; simp [digitsVal]
      · rfl
    obtain ⟨cur, he, hd, hv⟩ := ih (appendInput [c] s) (by rw [hstep]; exact hpm)
      (Or.inr (by rw [hstep]; exact hdig)) (fun x hx => hall x (List.mem_cons_of_mem _ hx))
    refine ⟨cur, ?_, ?_, ?_⟩
    · show typeDigits ds (appendInput [c] s) = _
      rw [he, hstep]
    · intro _
      apply hd
      right
      rw [hstep]
      intro hnil
      rw [isDigits_iff] at hdig
      exact hdig.1 hnil
    · rw [hv, hstep]
      simp only
      rw [digitsVal_append, hval, ← digitsVal_append]
      simp

/-- An integer power that a double holds exactly. -/
theorem mathPow_ofNat (H : Host) (b e : Nat) (hb : b ≤ 2 ^ 53) (he : e ≤ 2 ^ 53)
    (hp : b ^ e ≤ 2 ^ 53) : mathPow H (ofNat b) (ofNat e) = ofNat (b ^ e) := by
  have hu : 0 < unit := by unfold unit; positivity
  rw [ofNat_eq b hb, ofNat_eq e he, ofNat_eq _ hp]
  unfold mathPow powSpecified
  by_cases he0 : e = 0
  · subst he0
    simp [ofNat_one]
  · have hy : e * unit ≠ 0 := by positivity
    simp only [hy, if_false]
    by_cases hb0 : b = 0
    · subst hb0
      simp [Nat.zero_pow (Nat.pos_of_ne_zero he0)]
    · have hx : b * unit ≠ 0 := by positivity
      have hcond : (b = 1 ∨ (e ≤ 53 ∧ b ^ e ≤ 2 ^ 53)) := by
        by_cases hb1 : b = 1
        · exact Or.inl hb1
        · right
          refine ⟨?_, hp⟩
          have hb2 : 2 ≤ b := by omega
          have h2 : 2 ^ e ≤ 2 ^ 53 := le_trans (Nat.pow_le_pow_left hb2 e) hp
          exact (Nat.pow_le_pow_iff_right (by norm_num)).mp h2
      have h53 : (2 : Nat) ^ 53 = 9007199254740992 := by norm_num
      rw [h53] at hcond
      simp [hx, Nat.mul_div_cancel _ hu, hcond]

theorem numToString_ofNat (n : Nat) (hn : n ≤ 2 ^ 53) : numToString (ofNat n) = natToStr n := by
  have := numToString_ofInt (n : Int) (by simpa using hn)
  rw [ofInt_natCast] at this
  rw [this]
  unfold intToStr
  have : ¬ ((n : Int) < 0) := by omega
  simp [this]

theorem isDigits_natToStr (n : Nat) : isDigits (natToStr n) = true :=
  (isDigits_iff _).mpr ⟨natToStr_ne_nil n, natToStr_digits n⟩

/-- C5, amended: from a Normal-mode state whose current input is a string of
digits `b`, the power key, then the digits of `e`, then `=` give the decimal
string of `b^e` in the current input and `b^e` in `lastResult`, an empty
expression, Normal mode and no pending base, provided `b`, `e` and `b^e` are at
most `2^53`. -/
theorem power_protocol (H : Host) (s : State) (b e : Str) (_hpm : s.powerMode = false)
    (hcur : s.currentInput = b) (hb : isDigits b = true) (he : isDigits e = true)
    (hbb : digitsVal b ≤ 2 ^ 53) (hee : digitsVal e ≤ 2 ^ 53)
    (hp : digitsVal b ^ digitsVal e ≤ 2 ^ 53) :
    calculateExpression H (typeDigits e (applyFunction H "power".toList s))
      = { s with currentInput := natToStr (digitsVal b ^ digitsVal e), expression := [],
                 powerMode := false, baseForPower := none,
                 lastResult := some (ofNat (digitsVal b ^ digitsVal e)) } := by
  subst hcur
  rw [applyFunction_power H s hb]
  obtain ⟨hne, hall⟩ := (isDigits_iff e).mp he
  obtain ⟨cur, hty, hdig, hval⟩ := typeDigits_power e
    { s with baseForPower := some s.currentInput, powerMode := true, currentInput := [] }
    rfl (Or.inl rfl) hall
  have hcd : isDigits cur = true := hdig (Or.inl hne)
  have hcv : digitsVal cur = digitsVal e := by simpa using hval
  have hcne : cur ≠ [] := ((isDigits_iff cur).mp hcd).1
  rw [hty]
  unfold calculateExpression
  simp only [if_true, hcne, if_false]
  rw [parseFloat_digits cur hcd, parseFloat_digits s.currentInput hb, hcv,
    mathPow_ofNat H _ _ hbb hee hp, numToString_ofNat _ hp,
    parseFloat_digits _ (isDigits_natToStr _), digitsVal_natToStr]
  simp [ofNat_isNaN]

theorem power_protocol_witness :
    calculateExpression Host.trivial (typeDigits "10".toList
        (applyFunction Host.trivial "power".toList
          { State.init with currentInput := "2".toList, expression := "1+".toList }))
      = { State.init with currentInput := "1024".toList, lastResult := some (ofNat 1024) } :=
  power_protocol Host.trivial
    { State.init with currentInput := "2".toList, expression := "1+".toList }
    "2".toList "10".toList rfl rfl (by decide) (by decide) (by decide) (by decide) (by decide)

/-- C5 as stated fails beyond `2^53`: with base `9007199254740993` and exponent
`1` the result is the string `9007199254740992`. -/
theorem power_protocol_counterexample :
    ¬ ∃ H : Host, (calculateExpression H (typeDigits "1".toList
        (applyFunction H "power".toList
          { State.init with currentInput := "9007199254740993".toList }))).currentInput
      = "9007199254740993".toList := by
  rintro ⟨H, h⟩
  rw [applyFunction_power H _ (by decide),
    calculateExpression_congr H Host.trivial _ (by decide)] at h
  revert h
  decide


/-! ## The remainder operator is rewritten into a percent term -/

/-- A run of digits in front of an operator or a closing parenthesis is one
token, or a SyntaxError when a zero leads it. -/
theorem tokenize_digits (f : Nat) (d rest : Str) (hd : isDigits d = true)
    (hr : ∀ c, rest.head? = some c → isOp c = true ∨ c = ')') :
    tokenize (f + 1) (d ++ rest)
      = if isNumeral d = true then (tokenize f rest).cons (.num (ofNat (digitsVal d)))
        else .bad := by
  split_ifs with hn
  · exact tokenize_numeral f d rest hn hr
  · obtain ⟨hne, hall⟩ := (isDigits_iff d).mp hd
    have hsm := scanMantissa_digits d rest hd
      (fun c hc => ⟨(isOp_not_digit c (hr c hc)).1, (isOp_not_digit c (hr c hc)).2.1⟩)
    cases d with
    | nil => exact absurd rfl hne
    | cons c d' =>
      have hc : isDigit c = true := hall c (List.mem_cons_self _ _)
      have hz : (decide (1 < (c :: d').length) && (c :: d').head? == some '0') = true := by
        rw [isNumeral_iff] at hn
        simp only [hd, true_and, not_or, not_not] at hn
        simp only [List.head?_cons, Option.some.injEq] at hn
        simp only [List.length_cons] at hn ⊢
        simp [hn.2]
        omega
      rw [List.cons_append] at hsm ⊢
      conv_lhs => unfold tokenize
      simp only [hc, Bool.true_or, if_true, hsm, hz]

theorem span_digit_cons (c : Char) (r : Str) (hc : isDigit c = true) :
    (c :: r).span isDigit = (c :: (r.span isDigit).1, (r.span isDigit).2) := by
  simp [List.span_eq_take_drop, List.takeWhile_cons, List.dropWhile_cons, hc]

theorem span_nondigit_cons (c : Char) (r : Str) (hc : isDigit c = false) :
    (c :: r).span isDigit = ([], c :: r) := by
  simp [List.span_eq_take_drop, List.takeWhile_cons, List.dropWhile_cons, hc]

/-- The tokens of the text `*0.01)` that the percent rewrite writes. -/
theorem tokenize_percent_tail (f : Nat) (rest : Str) :
    tokenize (f + 3) ('*' :: '0' :: '.' :: '0' :: '1' :: ')' :: rest)
      = (((tokenize f rest).cons .rparen).cons
          (.num (numeralValue false "0".toList "01".toList 0))).cons .star := by
  have h0 : isDigit '0' = true := by decide
  have h1 : isDigit '1' = true := by decide
  have hd : isDigit '.' = false := by decide
  have hp : isDigit ')' = false := by decide
  have hsm : scanMantissa ('0' :: '.' :: '0' :: '1' :: ')' :: rest)
      = some ("0".toList, "01".toList, ')' :: rest) := by
    have e1 : ('0' :: '.' :: '0' :: '1' :: ')' :: rest).span isDigit
        = (['0'], '.' :: '0' :: '1' :: ')' :: rest) := by
      rw [span_digit_cons _ _ h0, span_nondigit_cons _ _ hd]
    have e2 : ('0' :: '1' :: ')' :: rest).span isDigit = (['0', '1'], ')' :: rest) := by
      rw [span_digit_cons _ _ h0, span_digit_cons _ _ h1, span_nondigit_cons _ _ hp]
    unfold scanMantissa
    rw [e1]
    simp only
    rw [e2]
    simp
  have hse : scanExp (')' :: rest) = none := by simp [scanExp]
  conv_lhs => unfold tokenize
  simp only [show (isDigit '*' || '*' == '.') = false by decide, Bool.false_eq_true, if_false,
    show ('*' == '+') = false by decide, show ('*' == '-') = false by decide,
    show ('*' == '*') = true by decide, if_true, List.head?_cons,
    show ((some '0' : Option Char) == some '*') = false by decide]
  congr 1

theorem matchPercent_digits (a b : Str) (ha : isDigits a = true) :
    matchPercent (a ++ '%' :: b) = some (a, b) := by
  obtain ⟨hne, hall⟩ := (isDigits_iff a).mp ha
  unfold matchPercent
  rw [span_digits a ('%' :: b) hall (by intro c hc; simp at hc; rw [← hc]; decide)]
  simp [hne]

theorem percentRewrite_mod (a b : Str) (ha : isDigits a = true) (hb : isDigits b = true) :
    percentRewrite ((a ++ '%' :: b).length + 1) (a ++ '%' :: b)
      = '(' :: (a ++ ("*0.01)".toList ++ b)) := by
  obtain ⟨c, a', rfl, _⟩ := isDigits_cons a ha
  have hm := matchPercent_digits (c :: a') b ha
  have hnp : '%' ∉ b := by
    intro h
    have := ((isDigits_iff b).mp hb).2 '%' h
    revert this; decide
  rw [List.cons_append] at hm ⊢
  unfold percentRewrite
  rw [hm]
  simp only
  rw [percentRewrite_id _ b hnp]

/-- The text the percent rewrite makes of `a%b` is not an expression: behind
the closing parenthesis comes a numeral. -/
theorem evalFragment_mod (a b : Str) (ha : isDigits a = true) (hb : isDigits b = true) :
    evalFragment ('(' :: (a ++ ("*0.01)".toList ++ b))) = .fail := by
  have hlen : ('(' :: (a ++ ("*0.01)".toList ++ b))).length + 3
      = (a.length + b.length + 3) + 7 := by
    simp; omega
  have htxt : '(' :: ('(' :: (a ++ ("*0.01)".toList ++ b))) ++ [')']
      = '(' :: '(' :: (a ++ '*' :: '0' :: '.' :: '0' :: '1' :: ')' :: (b ++ [')'])) := by
    simp
  unfold evalFragment
  rw [hlen, htxt]
  have e1 : ∀ (g : Nat) (r : Str), tokenize (g + 1) ('(' :: r) = (tokenize g r).cons .lparen := by
    intro g r
    conv_lhs => unfold tokenize
    simp [isDigit]
  rw [e1, e1, tokenize_digits _ a _ ha (by intro c hc; simp at hc; rw [← hc]; decide)]
  by_cases hna : isNumeral a = true
  · rw [if_pos hna, tokenize_percent_tail,
      tokenize_digits _ b _ hb (by intro c hc; simp at hc; exact Or.inr hc.symm)]
    by_cases hnb : isNumeral b = true
    · rw [if_pos hnb, tokenize_rparen]
      simp [Lexed.cons, run, Frame.empty, Frame.operand, applySigns]
    · rw [if_neg hnb]
      rfl
  · rw [if_neg hna]
    rfl

/-- C4 as stated fails: `7 % 3` shows the error marker, not `1`. -/
theorem modulo_counterexample :
    ¬ ∃ H : Host, (calculateExpression H
        { State.init with expression := "7%".toList, currentInput := "3".toList }).currentInput
      = "1".toList := by
  rintro ⟨H, h⟩
  rw [calculateExpression_congr H Host.trivial _ (by decide)] at h
  revert h
  decide

/-- C4, amended: in Normal mode with expression `a%` and current input `b`,
both strings of digits, the percent rewrite turns `a%` into `(a*0.01)`; the
text `(a*0.01)b` is not an expression, and `calculateExpression` puts the error
marker in the current input, empties the expression and leaves `lastResult`
as it was. -/
theorem modulo_is_rewritten (H : Host) (s : State) (a b : Str) (hpm : s.powerMode = false)
    (hex : s.expression = a ++ ['%']) (hcur : s.currentInput = b)
    (ha : isDigits a = true) (hb : isDigits b = true) :
    fullExpression s = '(' :: (a ++ ("*0.01)".toList ++ b)) ∧
    calculateExpression H s = { s with currentInput := errorMarker, expression := [] } := by
  obtain ⟨hbne, hball⟩ := (isDigits_iff b).mp hb
  have hfull : s.expression ++ s.currentInput = a ++ '%' :: b := by
    rw [hex, hcur]; simp
  have hlast : ∃ l x, a ++ '%' :: b = l ++ [x] ∧ isDigit x = true :=
    ⟨a ++ '%' :: b.dropLast, b.getLast hbne,
      by rw [List.append_assoc, List.cons_append, List.dropLast_append_getLast hbne],
      hball _ (List.getLast_mem hbne)⟩
  obtain ⟨l, x, hl, hx⟩ := hlast
  have hfe : fullExpression s = '(' :: (a ++ ("*0.01)".toList ++ b)) := by
    unfold fullExpression
    rw [hfull]
    have : stripTrailingOps (a ++ '%' :: b) = a ++ '%' :: b := by
      rw [hl]; exact stripTrailingOps_concat l x (isDigit_not_op x hx)
    rw [this]
    exact percentRewrite_mod a b ha hb
  refine ⟨hfe, ?_⟩
  have hne : ¬ (s.expression = [] ∧ s.currentInput = []) := by
    rintro ⟨_, h2⟩
    exact hbne (by rw [← hcur]; exact h2)
  have hev : jsEval H (fullExpression s) = none := by
    unfold jsEval
    rw [hfe, evalFragment_mod a b ha hb]
  unfold calculateExpression
  rw [if_neg (by simp [hpm]), if_neg hne, hev]

theorem modulo_is_rewritten_witness :
    fullExpression { State.init with expression := "7%".toList, currentInput := "3".toList }
      = "(7*0.01)3".toList ∧
    calculateExpression Host.trivial
        { State.init with expression := "7%".toList, currentInput := "3".toList }
      = { State.init with currentInput := errorMarker } :=
  modulo_is_rewritten Host.trivial
    { State.init with expression := "7%".toList, currentInput := "3".toList }
    "7".toList "3".toList rfl rfl rfl (by decide) (by decide)


/-! ## Numeric literals with fraction and exponent -/

theorem tokenize_scanned (f : Nat) (c : Char) (r i fr r1 : Str) (hc : isDigit c = true)
    (hsm : scanMantissa (c :: r) = some (i, fr, r1))
    (hz : (decide (1 < i.length) && i.head? == some '0') = false) :
    tokenize (f + 1) (c :: r)
      = match scanExp r1 with
        | some (e, r2) =>
          if afterNumeralOk r2 then (tokenize f r2).cons (.num (numeralValue false i fr e))
          else .unsupported
        | none =>
          if afterNumeralOk r1 then (tokenize f r1).cons (.num (numeralValue false i fr 0))
          else .unsupported := by
  conv_lhs => unfold tokenize
  simp only [hc, Bool.true_or, if_true, hsm, hz, Bool.false_eq_true, if_false]

theorem scanMantissa_frac (i fr rest : Str) (hi : ∀ c ∈ i, isDigit c = true)
    (hf : ∀ c ∈ fr, isDigit c = true) (hne : i ≠ [] ∨ fr ≠ [])
    (hr : ∀ c, rest.head? = some c → isDigit c = false) :
    scanMantissa (i ++ '.' :: (fr ++ rest)) = some (i, fr, rest) := by
  unfold scanMantissa
  rw [span_digits i ('.' :: (fr ++ rest)) hi (by intro c hc; simp at hc; rw [← hc]; decide)]
  simp only
  rw [span_digits fr rest hf hr]
  simp only
  rw [if_neg (by
    rintro ⟨h1, h2⟩
    rcases hne with h | h
    · exact h h1
    · exact h h2)]

theorem scanExp_some (neg : Bool) (ds rest : Str) (hd : isDigits ds = true)
    (hr : ∀ c, rest.head? = some c → isDigit c = false) :
    scanExp ('e' :: (if neg then '-' else '+') :: (ds ++ rest))
      = some (if neg then -(digitsVal ds : Int) else (digitsVal ds : Int), rest) := by
  obtain ⟨hne, hall⟩ := (isDigits_iff ds).mp hd
  have hs : scanSign ((if neg then '-' else '+') :: (ds ++ rest)) = (neg, ds ++ rest) := by
    cases neg <;> rfl
  unfold scanExp
  simp only [show ('e' == 'e' || 'e' == 'E') = true by decide, if_true, hs,
    span_digits ds rest hall hr, hne, if_false]

theorem head_paren_not_digit : ∀ c, ([')'] : Str).head? = some c → isDigit c = false := by
  intro c hc
  simp at hc
  rw [← hc]
  decide

/-! ## What follows from being one numeric literal -/

theorem tokenize_lparen (g : Nat) (r : Str) :
    tokenize (g + 1) ('(' :: r) = (tokenize g r).cons .lparen := by
  conv_lhs => unfold tokenize
  simp [isDigit]

theorem tokenize_minus_digit (g : Nat) (c : Char) (r : Str) (hc : isDigit c = true) :
    tokenize (g + 1) ('-' :: c :: r) = (tokenize g (c :: r)).cons .minus := by
  have h2 : c ≠ '-' := by rintro rfl; revert hc; decide
  conv_lhs => unfold tokenize
  simp [isDigit, h2]

theorem IsNumText.length_pos {T : Str} {V : JSNum} (h : IsNumText T V) : 1 ≤ T.length := by
  obtain ⟨_, ⟨c, r, rfl, _⟩, _, _⟩ := h
  simp

theorem IsNumText.eval {T : Str} {V : JSNum} (h : IsNumText T V) :
    evalFragment T = .num V := by
  have hl := h.length_pos
  obtain ⟨htok, _, _, _⟩ := h
  unfold evalFragment
  obtain ⟨g, hg⟩ : ∃ g, T.length = g + 1 := ⟨T.length - 1, by omega⟩
  rw [hg, List.cons_append, tokenize_lparen, htok, tokenize_rparen]
  simp [Lexed.cons, run, Frame.empty, Frame.operand, applySigns, Frame.close]

theorem IsNumText.eval_neg {T : Str} {V : JSNum} (h : IsNumText T V) :
    evalFragment ('-' :: T) = .num V.neg := by
  have hl := h.length_pos
  obtain ⟨htok, ⟨c, r, hcr, hc⟩, _, _⟩ := h
  unfold evalFragment
  have e1 : '(' :: ('-' :: T) ++ [')'] = '(' :: '-' :: c :: (r ++ [')']) := by
    rw [hcr]; rfl
  have e2 : c :: (r ++ [')']) = T ++ [')'] := by rw [hcr]; rfl
  obtain ⟨g, hg⟩ : ∃ g, T.length = g + 1 := ⟨T.length - 1, by omega⟩
  rw [e1, List.length_cons, hg, tokenize_lparen, tokenize_minus_digit _ c _ hc, e2, htok,
    tokenize_rparen]
  simp [Lexed.cons, run, Frame.empty, Frame.operand, applySigns, Frame.close, Val.toNum]

theorem IsNumText.strip {T : Str} {V : JSNum} (h : IsNumText T V) (pre : Str) :
    stripTrailingOps (pre ++ T) = pre ++ T := by
  obtain ⟨_, _, ⟨l, x, hl, hx⟩, _⟩ := h
  rw [hl, ← List.append_assoc]
  exact stripTrailingOps_concat _ x (isDigit_not_op x hx)


/-! ## The layouts of `Number.prototype.toString` are numeric literals -/

theorem afterNumeralOk_paren : afterNumeralOk [')'] = true := by decide

theorem scanExp_paren : scanExp [')'] = none := by decide

theorem digit_not_percent (x : Char) (h : isDigit x = true) : x ≠ '%' := by
  rintro rfl; revert h; decide

theorem isNumText_numeral (d : Str) (h : isNumeral d = true) :
    IsNumText d (ofNat (digitsVal d)) := by
  refine ⟨fun f => ?_, isNumeral_cons d h, isNumeral_last d h, ?_⟩
  · exact tokenize_numeral f d [')'] h (by intro c hc; simp at hc; exact Or.inr hc.symm)
  · intro hc
    exact digit_not_percent _ (isNumeral_digits d h _ hc) rfl

theorem digitsVal_replicate_zero (j : Nat) : digitsVal (List.replicate j '0') = 0 := by
  induction j with
  | zero => rfl
  | succ j ih =>
    rw [List.replicate_succ, show '0' :: List.replicate j '0' = ['0'] ++ List.replicate j '0'
      from rfl, digitsVal_append, ih]
    simp [digitsVal]

theorem isDigit_replicate_zero (j : Nat) : ∀ x ∈ List.replicate j '0', isDigit x = true := by
  intro x hx
  rw [List.eq_of_mem_replicate hx]
  decide

/-- Layout with zeros behind the digits. -/
theorem layout_zeros (c : Char) (ds' : Str) (s j : Nat)
    (hall : ∀ x ∈ c :: ds', isDigit x = true) (hval : digitsVal (c :: ds') = s)
    (hc : c ≠ '0') :
    IsNumText (c :: ds' ++ List.replicate j '0') (ofDecimal false s (j : Int)) := by
  have hnum : isNumeral (c :: ds' ++ List.replicate j '0') = true := by
    rw [isNumeral_iff, isDigits_iff]
    refine ⟨⟨by simp, ?_⟩, Or.inr (by simpa using hc)⟩
    intro x hx
    rcases List.mem_append.mp hx with hx | hx
    · exact hall x hx
    · exact isDigit_replicate_zero j x hx
  have hv : ofNat (digitsVal (c :: ds' ++ List.replicate j '0')) = ofDecimal false s (j : Int) := by
    rw [digitsVal_append, hval, digitsVal_replicate_zero]
    simp [ofNat, ofDecimal]
  rw [← hv]
  exact isNumText_numeral _ hnum

/-- A literal with a decimal point and no exponent. -/
theorem isNumText_frac (c : Char) (i' fr : Str) (hi : ∀ x ∈ c :: i', isDigit x = true)
    (hf : ∀ x ∈ fr, isDigit x = true) (hfne : fr ≠ [])
    (hz : (decide (1 < (c :: i').length) && (c :: i').head? == some '0') = false) :
    IsNumText (c :: i' ++ '.' :: fr) (numeralValue false (c :: i') fr 0) := by
  refine ⟨fun f => ?_, ⟨c, i' ++ '.' :: fr, rfl, hi c (List.mem_cons_self _ _)⟩, ?_, ?_⟩
  · have hsm := scanMantissa_frac (c :: i') fr [')'] hi hf (Or.inl (by simp))
      head_paren_not_digit
    have e : c :: i' ++ '.' :: fr ++ [')'] = c :: (i' ++ '.' :: (fr ++ [')'])) := by simp
    rw [e]
    rw [show c :: i' ++ '.' :: (fr ++ [')']) = c :: (i' ++ '.' :: (fr ++ [')'])) from rfl] at hsm
    rw [tokenize_scanned f c _ _ _ _ (hi c (List.mem_cons_self _ _)) hsm hz, scanExp_paren]
    simp only [afterNumeralOk_paren, if_true]
  · refine ⟨c :: i' ++ '.' :: fr.dropLast, fr.getLast hfne, ?_, hf _ (List.getLast_mem hfne)⟩
    conv_lhs => rw [← List.dropLast_append_getLast hfne]
    simp
  · intro hm
    rcases List.mem_append.mp hm with hm | hm
    · exact digit_not_percent _ (hi _ hm) rfl
    · rcases List.mem_cons.mp hm with hm | hm
      · revert hm; decide
      · exact digit_not_percent _ (hf _ hm) rfl

/-- Layout with the decimal point inside the digits. -/
theorem layout_inside (c : Char) (ds' : Str) (s m : Nat)
    (hall : ∀ x ∈ c :: ds', isDigit x = true) (hval : digitsVal (c :: ds') = s)
    (hc : c ≠ '0') (hm0 : 0 < m) (hmk : m < (c :: ds').length) :
    IsNumText ((c :: ds').take m ++ '.' :: (c :: ds').drop m)
      (ofDecimal false s ((m : Int) - ((c :: ds').length : Int))) := by
  obtain ⟨m', rfl⟩ : ∃ m', m = m' + 1 := ⟨m - 1, by omega⟩
  have ht : (c :: ds').take (m' + 1) = c :: ds'.take m' := rfl
  have hd : (c :: ds').drop (m' + 1) = ds'.drop m' := rfl
  have hfne : ds'.drop m' ≠ [] := by
    intro h
    have := congrArg List.length h
    simp at this hmk
    omega
  have h := isNumText_frac c (ds'.take m') (ds'.drop m')
    (by
      intro x hx
      rcases List.mem_cons.mp hx with hx | hx
      · rw [hx]; exact hall c (List.mem_cons_self _ _)
      · exact hall x (List.mem_cons_of_mem _ (List.mem_of_mem_take hx)))
    (fun x hx => hall x (List.mem_cons_of_mem _ (List.mem_of_mem_drop hx))) hfne
    (by simp [hc])
  rw [ht, hd]
  have hv : numeralValue false (c :: ds'.take m') (ds'.drop m') 0
      = ofDecimal false s (((m' + 1 : Nat) : Int) - ((c :: ds').length : Int)) := by
    unfold numeralValue
    rw [List.cons_append, List.take_append_drop, hval]
    congr 1
    simp only [List.length_drop, List.length_cons] at hmk ⊢
    omega
  rw [← hv]
  exact h

/-- Layout with zeros between the decimal point and the digits. -/
theorem layout_small (c : Char) (ds' : Str) (s j : Nat)
    (hall : ∀ x ∈ c :: ds', isDigit x = true) (hval : digitsVal (c :: ds') = s) :
    IsNumText ('0' :: '.' :: (List.replicate j '0' ++ (c :: ds')))
      (ofDecimal false s (-(j : Int) - ((c :: ds').length : Int))) := by
  have h := isNumText_frac '0' [] (List.replicate j '0' ++ (c :: ds'))
    (by intro x hx; simp at hx; rw [hx]; decide)
    (by
      intro x hx
      rcases List.mem_append.mp hx with hx | hx
      · exact isDigit_replicate_zero j x hx
      · exact hall x hx)
    (by simp) (by decide)
  have hv : numeralValue false ['0'] (List.replicate j '0' ++ (c :: ds')) 0
      = ofDecimal false s (-(j : Int) - ((c :: ds').length : Int)) := by
    unfold numeralValue
    rw [show ['0'] ++ (List.replicate j '0' ++ (c :: ds'))
        = ('0' :: List.replicate j '0') ++ (c :: ds') from rfl,
      digitsVal_append, hval, ← List.replicate_succ, digitsVal_replicate_zero]
    congr 1
    · simp
    · simp only [List.length_append, List.length_replicate, List.length_cons]
      push_cast
      omega
  rw [← hv]
  exact h


theorem signed_natAbs (e : Int) :
    (if decide (e < 0) = true then -((e.natAbs : Nat) : Int) else ((e.natAbs : Nat) : Int)) = e := by
  by_cases h : e < 0
  · rw [if_pos (by simpa using h), Int.ofNat_natAbs_of_nonpos (le_of_lt h)]
    ring
  · rw [if_neg (by simpa using h), Int.natAbs_of_nonneg (not_lt.mp h)]

/-- The exponent part that `toString` writes. -/
theorem scanExp_layout (e : Int) :
    scanExp ('e' :: ((if e < 0 then '-' else '+') :: natToStr e.natAbs ++ [')']))
      = some (e, [')']) := by
  have h := scanExp_some (decide (e < 0)) (natToStr e.natAbs) [')'] (isDigits_natToStr _)
    head_paren_not_digit
  rw [digitsVal_natToStr, signed_natAbs] at h
  have e1 : (if decide (e < 0) = true then '-' else '+') = (if e < 0 then '-' else '+') := by
    by_cases h : e < 0 <;> simp [h]
  rw [e1] at h
  exact h

theorem exp_tail_last (e : Int) (pre : Str) :
    ∃ l x, pre ++ 'e' :: ((if e < 0 then '-' else '+') :: natToStr e.natAbs) = l ++ [x] ∧
      isDigit x = true := by
  have hne := natToStr_ne_nil e.natAbs
  refine ⟨pre ++ 'e' :: ((if e < 0 then '-' else '+') :: (natToStr e.natAbs).dropLast),
    (natToStr e.natAbs).getLast hne, ?_, natToStr_digits _ _ (List.getLast_mem hne)⟩
  conv_lhs => rw [← List.dropLast_append_getLast hne]
  simp

theorem exp_tail_no_percent (e : Int) :
    '%' ∉ 'e' :: ((if e < 0 then '-' else '+') :: natToStr e.natAbs) := by
  intro h
  rcases List.mem_cons.mp h with h | h
  · revert h; decide
  · rcases List.mem_cons.mp h with h | h
    · by_cases he : e < 0
      · rw [if_pos he] at h; revert h; decide
      · rw [if_neg he] at h; revert h; decide
    · exact digit_not_percent _ (natToStr_digits _ _ h) rfl

/-- Layout with one digit and an exponent. -/
theorem layout_exp_one (c : Char) (s : Nat) (e : Int) (hc : isDigit c = true)
    (hval : digitsVal [c] = s) :
    IsNumText (c :: 'e' :: ((if e < 0 then '-' else '+') :: natToStr e.natAbs))
      (ofDecimal false s e) := by
  refine ⟨fun f => ?_, ⟨c, _, rfl, hc⟩, exp_tail_last e [c], ?_⟩
  · have hsm := scanMantissa_digits [c]
      ('e' :: ((if e < 0 then '-' else '+') :: natToStr e.natAbs ++ [')']))
      (by simp [isDigits, hc]) (by intro x hx; simp at hx; rw [← hx]; decide)
    rw [show [c] ++ 'e' :: ((if e < 0 then '-' else '+') :: natToStr e.natAbs ++ [')'])
      = c :: ('e' :: ((if e < 0 then '-' else '+') :: natToStr e.natAbs ++ [')'])) from rfl] at hsm
    rw [show c :: 'e' :: ((if e < 0 then '-' else '+') :: natToStr e.natAbs) ++ [')']
      = c :: ('e' :: ((if e < 0 then '-' else '+') :: natToStr e.natAbs ++ [')'])) from rfl,
      tokenize_scanned f c _ _ _ _ hc hsm (by simp), scanExp_layout]
    simp only [afterNumeralOk_paren, if_true]
    unfold numeralValue
    simp [hval]
  · intro h
    rcases List.mem_cons.mp h with h | h
    · exact digit_not_percent _ hc h.symm
    · exact exp_tail_no_percent e h

/-- Layout with several digits and an exponent. -/
theorem layout_exp_more (c : Char) (more : Str) (s : Nat) (e : Int)
    (hall : ∀ x ∈ c :: more, isDigit x = true) (hval : digitsVal (c :: more) = s)
    (_hne : more ≠ []) :
    IsNumText (c :: '.' :: (more ++ 'e' :: ((if e < 0 then '-' else '+') :: natToStr e.natAbs)))
      (ofDecimal false s (e - (more.length : Int))) := by
  have hc : isDigit c = true := hall c (List.mem_cons_self _ _)
  have hm : ∀ x ∈ more, isDigit x = true := fun x hx => hall x (List.mem_cons_of_mem _ hx)
  refine ⟨fun f => ?_, ⟨c, _, rfl, hc⟩, ?_, ?_⟩
  · have hsm := scanMantissa_frac [c] more
      ('e' :: ((if e < 0 then '-' else '+') :: natToStr e.natAbs ++ [')']))
      (by intro x hx; simp at hx; rw [hx]; exact hc) hm (Or.inl (by simp))
      (by intro x hx; simp at hx; rw [← hx]; decide)
    have e1 : c :: '.' :: (more ++ 'e' :: ((if e < 0 then '-' else '+') :: natToStr e.natAbs))
        ++ [')']
        = c :: ('.' :: (more ++ 'e' :: ((if e < 0 then '-' else '+') :: natToStr e.natAbs
          ++ [')']))) := by simp
    rw [show [c] ++ '.' :: (more ++ 'e' :: ((if e < 0 then '-' else '+') :: natToStr e.natAbs
        ++ [')']))
      = c :: ('.' :: (more ++ 'e' :: ((if e < 0 then '-' else '+') :: natToStr e.natAbs
        ++ [')']))) from rfl] at hsm
    rw [e1, tokenize_scanned f c _ _ _ _ hc hsm (by simp), scanExp_layout]
    simp only [afterNumeralOk_paren, if_true]
    unfold numeralValue
    simp [hval]
  · have := exp_tail_last e (c :: '.' :: more)
    simpa using this
  · intro h
    rcases List.mem_cons.mp h with h | h
    · exact digit_not_percent _ hc h.symm
    · rcases List.mem_cons.mp h with h | h
      · revert h; decide
      · rcases List.mem_append.mp h with h | h
        · exact digit_not_percent _ (hm _ h) rfl
        · exact exp_tail_no_percent e h

/-- Every layout of the digits of `s` is a numeric literal of the value
`s * 10^(n - k)`, where `k` is the number of digits. -/
theorem layout_isNumText (s : Nat) (hs : 0 < s) (n : Int) :
    IsNumText (layout (natToStr s) n)
      (ofDecimal false s (n - ((natToStr s).length : Int))) := by
  obtain ⟨c, ds', hds, hall, hval, hhead⟩ := natToStr_spec s
  have hc : c ≠ '0' := hhead hs
  rw [hds]
  unfold layout
  simp only
  by_cases h1 : ((c :: ds').length : Int) ≤ n ∧ n ≤ 21
  · rw [if_pos h1]
    obtain ⟨j, hj⟩ : ∃ j : Nat, n - ((c :: ds').length : Int) = j :=
      ⟨(n - ((c :: ds').length : Int)).toNat, by omega⟩
    rw [hj]
    simp only [Int.toNat_ofNat]
    exact layout_zeros c ds' s j hall hval hc
  rw [if_neg h1]
  by_cases h2 : 0 < n ∧ n ≤ 21
  · rw [if_pos h2]
    obtain ⟨m, hm⟩ : ∃ m : Nat, n = m := ⟨n.toNat, by omega⟩
    subst hm
    simp only [Int.toNat_ofNat]
    exact layout_inside c ds' s m hall hval hc (by omega) (by
      by_contra hcon
      exact h1 ⟨by omega, h2.2⟩)
  rw [if_neg h2]
  by_cases h3 : -6 < n ∧ n ≤ 0
  · rw [if_pos h3]
    obtain ⟨j, hj⟩ : ∃ j : Nat, -n = j := ⟨(-n).toNat, by omega⟩
    rw [hj]
    simp only [Int.toNat_ofNat]
    have : n - ((c :: ds').length : Int) = -(j : Int) - ((c :: ds').length : Int) := by omega
    rw [this]
    exact layout_small c ds' s j hall hval
  rw [if_neg h3]
  cases ds' with
  | nil =>
    have := layout_exp_one c s (n - 1) (hall c (List.mem_cons_self _ _)) hval
    have e : n - (([c].length : Nat) : Int) = n - 1 := by simp
    rw [e]
    exact this
  | cons c2 ds2 =>
    have := layout_exp_more c (c2 :: ds2) s (n - 1) hall hval (by simp)
    have e : n - 1 - (((c2 :: ds2).length : Nat) : Int)
        = n - (((c :: c2 :: ds2).length : Nat) : Int) := by
      simp only [List.length_cons]; push_cast; omega
    rw [e] at this
    exact this


/-! ## The string of a double reads back as the double -/

theorem isDoubleMag_iff (z : Nat) :
    isDoubleMag z = true ↔ z < overflowMag ∧ 2 ^ (z.size - 53) ∣ z := by
  unfold isDoubleMag
  simp only [Bool.and_eq_true, decide_eq_true_eq]
  constructor
  · rintro ⟨h1, h2⟩
    rw [bitLen_eq_size z (lt_trans h1 overflowMag_lt)] at h2
    exact ⟨h1, Nat.dvd_of_mod_eq_zero h2⟩
  · rintro ⟨h1, h2⟩
    rw [bitLen_eq_size z (lt_trans h1 overflowMag_lt)]
    exact ⟨h1, Nat.mod_eq_zero_of_dvd h2⟩

theorem shortestAt_spec (z : Nat) (t : Int) (s : Nat) (h : shortestAt z t = some s) :
    0 < s ∧ ofDecimal false s t = .fin false z := by
  unfold shortestAt at h
  simp only at h
  split_ifs at h with h1 h2 h3 h4 h5 h6
  all_goals
    simp only [Option.some.injEq] at h
    subst h
    simp only [Bool.and_eq_true, decide_eq_true_eq] at *
  · exact h1.1
  · exact ⟨Nat.succ_pos _, h1.2⟩
  · exact h1.1
  · exact ⟨Nat.succ_pos _, h1.2⟩
  · exact h5
  · exact ⟨Nat.succ_pos _, h6⟩

theorem shortest_spec (f : Nat) (z : Nat) (hz : 0 < z) (hd : isDoubleMag z = true) :
    ∀ t : Int, 0 < (shortest f z t).1 ∧
      ofDecimal false (shortest f z t).1 (shortest f z t).2 = .fin false z := by
  induction f with
  | zero =>
    intro t
    obtain ⟨h1, h2⟩ := (isDoubleMag_iff z).mp hd
    refine ⟨by simp [shortest]; exact hz, ?_⟩
    show mkNum false (z * 5 ^ 1074 * unit) (10 ^ 1074) = _
    have e : z * 5 ^ 1074 * unit = z * 10 ^ 1074 := by
      unfold unit
      rw [mul_assoc, ← mul_pow]
      norm_num
    rw [e]
    exact mkNum_exact false z _ (by positivity) h1 h2
  | succ f ih =>
    intro t
    unfold shortest
    cases hs : shortestAt z t with
    | some s => exact shortestAt_spec z t s hs
    | none => exact ih (t - 1)

/-- The string of a positive double is one numeric literal whose value is the
double. -/
theorem posToString_isNumText (z : Nat) (hz : 0 < z) (hd : isDoubleMag z = true) :
    IsNumText (posToString z) (.fin false z) := by
  have hu : 0 < unit := by unfold unit; positivity
  unfold posToString
  split_ifs with h
  · obtain ⟨hm, hle⟩ := h
    have hz' : z / unit * unit = z := Nat.div_mul_cancel (Nat.dvd_of_mod_eq_zero hm)
    have hpos : 0 < z / unit := by
      rcases Nat.eq_zero_or_pos (z / unit) with h0 | h0
      · rw [h0] at hz'; omega
      · exact h0
    obtain ⟨c, ds, hds, hall, hval, hhead⟩ := natToStr_spec (z / unit)
    have hnum : isNumeral (natToStr (z / unit)) = true := by
      rw [isNumeral_iff]
      refine ⟨isDigits_natToStr _, Or.inr ?_⟩
      rw [hds]
      simpa using hhead hpos
    have := isNumText_numeral _ hnum
    rw [digitsVal_natToStr, ofNat_eq _ hle, hz'] at this
    exact this
  · simp only
    obtain ⟨hs, hv⟩ := shortest_spec ((natToStr (z / unit)).length + 1076) z hz hd
      ((natToStr (z / unit)).length : Int)
    have := layout_isNumText _ hs
      ((shortest ((natToStr (z / unit)).length + 1076) z
          ((natToStr (z / unit)).length : Int)).2
        + ((natToStr (shortest ((natToStr (z / unit)).length + 1076) z
          ((natToStr (z / unit)).length : Int)).1).length : Int))
    rw [add_sub_cancel_right, hv] at this
    exact this


/-! ## The arithmetic of doubles gives doubles -/

theorem isDoubleMag_of_mantissa (m e : Nat) (hm : m ≤ 2 ^ 53) (hlt : m * 2 ^ e < overflowMag) :
    isDoubleMag (m * 2 ^ e) = true := by
  rw [isDoubleMag_iff]
  refine ⟨hlt, ?_⟩
  rcases Nat.lt_or_eq_of_le hm with h | h
  · exact dvd_of_mantissa m e h
  · have : m * 2 ^ e = 1 * 2 ^ (53 + e) := by rw [h, pow_add]; ring
    rw [this]
    exact dvd_of_mantissa 1 (53 + e) (by norm_num)

theorem isDoubleMag_zero : isDoubleMag 0 = true := by
  have := isDoubleMag_of_mantissa 0 0 (by norm_num) (by unfold overflowMag; positivity)
  simpa using this

theorem exists_mantissa (z : Nat) (h : isDoubleMag z = true) :
    ∃ m e, m < 2 ^ 53 ∧ z = m * 2 ^ e := by
  obtain ⟨_, ⟨k, hk⟩⟩ := (isDoubleMag_iff z).mp h
  refine ⟨k, z.size - 53, ?_, by rw [mul_comm]; exact hk⟩
  by_contra hc
  have hge : 2 ^ 53 ≤ k := not_lt.mp hc
  have h1 : 2 ^ (53 + (z.size - 53)) ≤ z := by
    rw [pow_add]
    calc 2 ^ 53 * 2 ^ (z.size - 53) ≤ k * 2 ^ (z.size - 53) := Nat.mul_le_mul_right _ hge
      _ = z := by rw [mul_comm]; exact hk.symm
  have h2 : z < 2 ^ (53 + (z.size - 53)) :=
    lt_of_lt_of_le (Nat.lt_size_self z) (Nat.pow_le_pow_right (by norm_num) (by omega))
  omega

theorem halfEven_le (p q : Nat) : halfEven p q ≤ p / q + 1 := by
  unfold halfEven
  simp only
  split_ifs <;> omega

theorem roundMag_isDouble (p q z : Nat) (h : roundMag p q = some z) : isDoubleMag z = true := by
  unfold roundMag at h
  simp only at h
  split_ifs at h with h1 h2
  simp only [Option.some.injEq] at h
  have hx : p / q < 2 ^ 8192 := not_le.mp h1
  rw [bitLen_eq_size _ hx] at h h2
  have hz : z < overflowMag := by rw [← h]; exact not_le.mp h2
  rw [← h] at hz ⊢
  apply isDoubleMag_of_mantissa _ _ _ hz
  have hb : p / (q * 2 ^ ((p / q).size - 53)) < 2 ^ 53 := by
    rw [← Nat.div_div_eq_div_mul, Nat.div_lt_iff_lt_mul (by positivity), ← pow_add]
    exact lt_of_lt_of_le (Nat.lt_size_self _) (Nat.pow_le_pow_right (by norm_num) (by omega))
  have := halfEven_le p (q * 2 ^ ((p / q).size - 53))
  omega

theorem mkNum_isDouble (neg : Bool) (p q : Nat) : (mkNum neg p q).isDouble = true := by
  unfold mkNum
  cases h : roundMag p q with
  | none => rfl
  | some z => exact roundMag_isDouble p q z h

theorem ofDecimal_isDouble (neg : Bool) (m : Nat) (e : Int) :
    (ofDecimal neg m e).isDouble = true := by
  unfold ofDecimal
  cases e <;> exact mkNum_isDouble _ _ _

theorem numeralValue_isDouble (neg : Bool) (i f : Str) (e : Int) :
    (numeralValue neg i f e).isDouble = true := ofDecimal_isDouble _ _ _

theorem neg_isDouble (a : JSNum) (ha : a.isDouble = true) : a.neg.isDouble = true := by
  cases a <;> exact ha

theorem add_isDouble (a b : JSNum) : (JSNum.add a b).isDouble = true := by
  unfold JSNum.add
  split
  any_goals rfl
  · split_ifs <;> rfl
  · split_ifs
    · exact mkNum_isDouble _ _ _
    · exact mkNum_isDouble _ _ _
    · exact mkNum_isDouble _ _ _
    · exact isDoubleMag_zero

theorem sub_isDouble (a b : JSNum) : (JSNum.sub a b).isDouble = true := add_isDouble _ _

theorem mul_isDouble (a b : JSNum) : (JSNum.mul a b).isDouble = true := by
  unfold JSNum.mul
  split
  any_goals rfl
  · split_ifs <;> rfl
  · split_ifs <;> rfl
  · exact mkNum_isDouble _ _ _

theorem div_isDouble (a b : JSNum) : (JSNum.div a b).isDouble = true := by
  unfold JSNum.div
  split
  any_goals rfl
  split_ifs
  · rfl
  · rfl
  · exact mkNum_isDouble _ _ _

theorem mod_isDoubleMag (x y : Nat) (hx : isDoubleMag x = true) (hy : isDoubleMag y = true)
    (hy0 : y ≠ 0) : isDoubleMag (x % y) = true := by
  have hxlt : x < overflowMag := ((isDoubleMag_iff x).mp hx).1
  have hlt : x % y < overflowMag := lt_of_le_of_lt (Nat.mod_le x y) hxlt
  obtain ⟨m, a, hm, rfl⟩ := exists_mantissa x hx
  obtain ⟨n, b, hn, rfl⟩ := exists_mantissa y hy
  have hn0 : 0 < n := by
    rcases Nat.eq_zero_or_pos n with h | h
    · rw [h] at hy0; simp at hy0
    · exact h
  rcases le_total b a with hab | hab
  · have e1 : m * 2 ^ a = m * 2 ^ (a - b) * 2 ^ b := by
      rw [mul_assoc, ← pow_add]; congr 2; omega
    rw [e1, Nat.mul_mod_mul_right] at hlt ⊢
    exact isDoubleMag_of_mantissa _ _ (le_of_lt (lt_trans (Nat.mod_lt _ hn0) hn)) hlt
  · have e1 : n * 2 ^ b = n * 2 ^ (b - a) * 2 ^ a := by
      rw [mul_assoc, ← pow_add]; congr 2; omega
    rw [e1, Nat.mul_mod_mul_right] at hlt ⊢
    exact isDoubleMag_of_mantissa _ _
      (le_of_lt (lt_of_le_of_lt (Nat.mod_le _ _) hm)) hlt

theorem mod_isDouble (a b : JSNum) (ha : a.isDouble = true) (hb : b.isDouble = true) :
    (JSNum.mod a b).isDouble = true := by
  unfold JSNum.mod
  split
  any_goals rfl
  · exact ha
  · split_ifs with h
    · rfl
    · exact mod_isDoubleMag _ _ ha hb h


/-! ## The evaluator gives doubles -/

theorem Lexed.ok_cons (t : Tok) (L : Lexed) (ht : t.ok) (hL : L.ok) : (L.cons t).ok := by
  cases L with
  | toks ts =>
    intro x hx
    rcases List.mem_cons.mp hx with rfl | hx
    · exact ht
    · exact hL x hx
  | bad => trivial
  | unsupported => trivial

theorem ite_ok (c : Prop) [Decidable c] (a b : Lexed) (ha : a.ok) (hb : b.ok) :
    (if c then a else b).ok := by
  split_ifs <;> assumption

theorem tokenize_ok (f : Nat) : ∀ s : Str, (tokenize f s).ok := by
  induction f with
  | zero => intro s; unfold tokenize; trivial
  | succ f ih =>
    intro s
    cases s with
    | nil => unfold tokenize; intro t ht; cases ht
    | cons c r =>
      unfold tokenize
      refine ite_ok _ _ _ ?_ ?_
      · cases scanMantissa (c :: r) with
        | none => trivial
        | some x =>
          obtain ⟨i, fr, r1⟩ := x
          simp only
          refine ite_ok _ _ _ trivial ?_
          cases scanExp r1 with
          | none =>
            simp only
            exact ite_ok _ _ _ (Lexed.ok_cons _ _ (numeralValue_isDouble _ _ _ _) (ih _)) trivial
          | some y =>
            obtain ⟨e, r2⟩ := y
            simp only
            exact ite_ok _ _ _ (Lexed.ok_cons _ _ (numeralValue_isDouble _ _ _ _) (ih _)) trivial
      · refine ite_ok _ _ _ (ite_ok _ _ _ trivial (Lexed.ok_cons _ _ trivial (ih _))) ?_
        refine ite_ok _ _ _ (ite_ok _ _ _ trivial (Lexed.ok_cons _ _ trivial (ih _))) ?_
        refine ite_ok _ _ _ (ite_ok _ _ _ trivial (Lexed.ok_cons _ _ trivial (ih _))) ?_
        refine ite_ok _ _ _ (ite_ok _ _ _ trivial (Lexed.ok_cons _ _ trivial (ih _))) ?_
        refine ite_ok _ _ _ (Lexed.ok_cons _ _ trivial (ih _)) ?_
        refine ite_ok _ _ _ (Lexed.ok_cons _ _ trivial (ih _)) ?_
        refine ite_ok _ _ _ (Lexed.ok_cons _ _ trivial (ih _)) ?_
        refine ite_ok _ _ _ ?_ trivial
        cases hid : identTok ((c :: r).span isIdChar).1 with
        | none => trivial
        | some t =>
          simp only
          refine Lexed.ok_cons _ _ ?_ (ih _)
          unfold identTok at hid
          split_ifs at hid <;> (cases hid; trivial)

theorem applyMul_ok (op : MulOp) (a b : Val) (ha : a.ok) (hb : b.ok) : (applyMul op a b).ok := by
  have hna : a.toNum.isDouble = true := by cases a <;> first | exact ha | rfl
  have hnb : b.toNum.isDouble = true := by cases b <;> first | exact hb | rfl
  cases op
  · exact mul_isDouble _ _
  · exact div_isDouble _ _
  · exact mod_isDouble _ _ hna hnb

theorem applyAdd_ok (minus : Bool) (a b : Val) : (applyAdd minus a b).ok := by
  unfold applyAdd
  split_ifs
  · exact sub_isDouble _ _
  · split
    · exact add_isDouble _ _
    · trivial

theorem applySigns_ok (signs : List Bool) : ∀ v : Val, v.ok → (applySigns signs v).ok := by
  induction signs with
  | nil => intro v hv; exact hv
  | cons sg signs ih =>
    intro v hv
    unfold applySigns
    simp only [List.foldl_cons]
    apply ih
    have hn : v.toNum.isDouble = true := by cases v <;> first | exact hv | rfl
    show (if sg = true then v.toNum.neg else v.toNum).isDouble = true
    split_ifs
    · exact neg_isDouble _ hn
    · exact hn

theorem Frame.operand_ok (fr : Frame) (v : Val) (hf : fr.ok) (hv : v.ok) : (fr.operand v).ok := by
  unfold Frame.operand
  cases h : fr.term with
  | none => exact applySigns_ok _ _ hv
  | some x =>
    obtain ⟨l, op⟩ := x
    exact applyMul_ok _ _ _ (hf.2 l op h) (applySigns_ok _ _ hv)

theorem Frame.close_ok (fr : Frame) (t : Val) (ht : t.ok) : (fr.close t).ok := by
  unfold Frame.close
  cases fr.sum with
  | none => exact ht
  | some x => exact applyAdd_ok _ _ _

theorem Frame.ok_clear (fr : Frame) (hf : fr.ok) (signs : List Bool) :
    Frame.ok { fr with term := none, signs := signs } :=
  ⟨hf.1, by intro l op h; cases h⟩

theorem Frame.ok_signs (fr : Frame) (hf : fr.ok) (signs : List Bool) :
    Frame.ok { fr with signs := signs } := hf

theorem Frame.ok_mk (sum : Option (Val × Bool)) (term : Option (Val × MulOp))
    (signs : List Bool) (h1 : ∀ l m, sum = some (l, m) → l.ok)
    (h2 : ∀ l op, term = some (l, op) → l.ok) :
    Frame.ok { sum := sum, term := term, signs := signs } := by
  unfold Frame.ok
  exact ⟨h1, h2⟩

theorem Frame.ok_empty : Frame.empty.ok :=
  Frame.ok_mk none none [] (by intro l m h; cases h) (by intro l op h; cases h)

theorem run_ok (toks : List Tok) : ∀ (mode : Mode) (fr : Frame) (stack : List Frame),
    (∀ t ∈ toks, t.ok) → (∀ t, mode = .have t → t.ok) → fr.ok → (∀ g ∈ stack, g.ok) →
    ∀ v, run toks mode fr stack = .num v → v.isDouble = true := by
  induction toks with
  | nil =>
    intro mode fr stack _ hm _ _ v hv
    cases mode with
    | expect => simp [run] at hv
    | «have» t =>
      cases stack with
      | cons g st => simp [run] at hv
      | nil =>
        have hc := Frame.close_ok fr t (hm t rfl)
        simp only [run] at hv
        cases hcl : fr.close t with
        | other => rw [hcl] at hv; cases hv
        | num w =>
          rw [hcl] at hv hc
          cases hv
          exact hc
  | cons tok rest ih =>
    intro mode fr stack ht hm hf hs v hv
    have hrest : ∀ t ∈ rest, t.ok := fun t h => ht t (List.mem_cons_of_mem _ h)
    have htok : tok.ok := ht tok (List.mem_cons_self _ _)
    have hnone : ∀ t, Mode.expect = .have t → t.ok := by intro t h; cases h
    cases mode with
    | expect =>
      cases tok with
      | num w =>
        simp only [run] at hv
        refine ih _ _ _ hrest ?_ (Frame.ok_clear fr hf []) hs v hv
        intro t h; cases h; exact Frame.operand_ok fr _ hf htok
      | nanId =>
        simp only [run] at hv
        refine ih _ _ _ hrest ?_ (Frame.ok_clear fr hf []) hs v hv
        intro t h; cases h; exact Frame.operand_ok fr _ hf rfl
      | infinityId =>
        simp only [run] at hv
        refine ih _ _ _ hrest ?_ (Frame.ok_clear fr hf []) hs v hv
        intro t h; cases h; exact Frame.operand_ok fr _ hf rfl
      | errorId =>
        simp only [run] at hv
        refine ih _ _ _ hrest ?_ (Frame.ok_clear fr hf []) hs v hv
        intro t h; cases h; exact Frame.operand_ok fr _ hf trivial
      | plus =>
        simp only [run] at hv
        exact ih _ _ _ hrest hnone (Frame.ok_signs fr hf _) hs v hv
      | minus =>
        simp only [run] at hv
        exact ih _ _ _ hrest hnone (Frame.ok_signs fr hf _) hs v hv
      | lparen =>
        simp only [run] at hv
        refine ih _ _ _ hrest hnone Frame.ok_empty ?_ v hv
        intro g hg
        rcases List.mem_cons.mp hg with rfl | hg
        · exact hf
        · exact hs g hg
      | slash => simp [run] at hv
      | star => simp [run] at hv
      | percent => simp [run] at hv
      | rparen => simp [run] at hv
    | «have» t =>
      have hto : t.ok := hm t rfl
      have hcl : (fr.close t).ok := Frame.close_ok fr t hto
      cases tok with
      | plus =>
        simp only [run] at hv
        refine ih _ _ _ hrest hnone (Frame.ok_mk _ _ _ ?_ ?_) hs v hv
        · intro l m h; cases h; exact hcl
        · intro l op h; cases h
      | minus =>
        simp only [run] at hv
        refine ih _ _ _ hrest hnone (Frame.ok_mk _ _ _ ?_ ?_) hs v hv
        · intro l m h; cases h; exact hcl
        · intro l op h; cases h
      | star =>
        simp only [run] at hv
        refine ih _ _ _ hrest hnone (Frame.ok_mk _ _ _ hf.1 ?_) hs v hv
        intro l op h; cases h; exact hto
      | slash =>
        simp only [run] at hv
        refine ih _ _ _ hrest hnone (Frame.ok_mk _ _ _ hf.1 ?_) hs v hv
        intro l op h; cases h; exact hto
      | percent =>
        simp only [run] at hv
        refine ih _ _ _ hrest hnone (Frame.ok_mk _ _ _ hf.1 ?_) hs v hv
        intro l op h; cases h; exact hto
      | rparen =>
        cases stack with
        | nil => simp [run] at hv
        | cons outer st =>
          have ho : outer.ok := hs outer (List.mem_cons_self _ _)
          simp only [run] at hv
          refine ih _ _ _ hrest ?_ (Frame.ok_clear outer ho [])
            (fun g hg => hs g (List.mem_cons_of_mem _ hg)) v hv
          intro t h; cases h; exact Frame.operand_ok outer _ ho hcl
      | num w => simp [run] at hv
      | nanId => simp [run] at hv
      | infinityId => simp [run] at hv
      | errorId => simp [run] at hv
      | lparen => simp [run] at hv

theorem evalFragment_isDouble (text : Str) (v : JSNum) (h : evalFragment text = .num v) :
    v.isDouble = true := by
  unfold evalFragment at h
  have hok := tokenize_ok (text.length + 3) ('(' :: text ++ [')'])
  cases htk : tokenize (text.length + 3) ('(' :: text ++ [')']) with
  | bad => rw [htk] at h; cases h
  | unsupported => rw [htk] at h; cases h
  | toks ts =>
    rw [htk] at h hok
    exact run_ok ts .expect Frame.empty [] hok (by intro t h; cases h)
      Frame.ok_empty (by intro g hg; cases hg) v h

theorem jsEval_isDouble (H : Host) (hH : H.givesDoubles) (text : Str) (v : JSNum)
    (h : jsEval H text = some v) : v.isDouble = true := by
  unfold jsEval at h
  cases hev : evalFragment text with
  | num w =>
    rw [hev] at h
    cases h
    exact evalFragment_isDouble text _ hev
  | fail => rw [hev] at h; cases h
  | unsupported =>
    rw [hev] at h
    exact hH.2 text v h


/-! ## Evaluating twice -/

theorem ofNat_isDouble (n : Nat) : (ofNat n).isDouble = true := mkNum_isDouble _ _ _

theorem isDoubleMag_unit : isDoubleMag unit = true := by
  have := isDoubleMag_of_mantissa 1 1074 (by norm_num)
    (by rw [one_mul]; unfold overflowMag; exact Nat.pow_lt_pow_right (by norm_num) (by norm_num))
  rw [one_mul] at this
  exact this

theorem powSpecified_isDouble (b e v : JSNum) (h : powSpecified b e = some v) :
    v.isDouble = true := by
  have hz : isDoubleMag 0 = true := isDoubleMag_zero
  have hu : isDoubleMag unit = true := isDoubleMag_unit
  unfold powSpecified at h
  repeat' split at h
  all_goals try (cases h; done)
  all_goals try (simp only [Option.some.injEq] at h)
  all_goals try subst h
  all_goals try (rw [ofNat_one])
  all_goals try (simp only [JSNum.isDouble, hz, hu])
  rename_i hc
  simp only [Bool.and_eq_true, Bool.or_eq_true, decide_eq_true_eq] at hc
  rcases hc.2 with h1 | h1
  · rw [h1, one_pow, one_mul]
    exact hu
  · rw [isDoubleMag_iff]
    exact ⟨natMag_lt _ h1.2, natMag_dvd _ h1.2⟩

theorem mathPow_isDouble (H : Host) (hH : H.givesDoubles) (b e : JSNum) :
    (mathPow H b e).isDouble = true := by
  unfold mathPow
  cases h : powSpecified b e with
  | none => exact hH.1 b e
  | some v => exact powSpecified_isDouble b e v h

theorem percentRewrite_numText {T : Str} {V : JSNum} (h : IsNumText T V) (f : Nat) :
    percentRewrite f T = T ∧ percentRewrite f ('-' :: T) = '-' :: T := by
  obtain ⟨_, _, _, hnp⟩ := h
  refine ⟨percentRewrite_id f T hnp, percentRewrite_id f _ ?_⟩
  intro hc
  rcases List.mem_cons.mp hc with hc | hc
  · revert hc; decide
  · exact hnp hc

/-- Evaluating one numeric literal, with or without a minus sign in front. -/
theorem calculateExpression_numText (H : Host) (s : State) (T : Str) (V : JSNum) (neg : Bool)
    (hT : IsNumText T V) (hex : s.expression = [])
    (hcur : s.currentInput = if neg then '-' :: T else T) :
    jsEval H (fullExpression s) = some (if neg then V.neg else V) ∧
    ¬ (s.expression = [] ∧ s.currentInput = []) := by
  constructor
  · unfold jsEval fullExpression
    rw [hex, List.nil_append, hcur]
    cases neg
    · simp only [Bool.false_eq_true, if_false]
      have hs := hT.strip []
      rw [List.nil_append] at hs
      rw [hs, (percentRewrite_numText hT _).1, hT.eval]
    · simp only [if_true]
      have hs := hT.strip ['-']
      rw [show ['-'] ++ T = '-' :: T from rfl] at hs
      rw [hs, (percentRewrite_numText hT _).2, hT.eval_neg]
  · rintro ⟨_, h2⟩
    rw [hcur] at h2
    have := hT.length_pos
    cases neg
    · simp only [Bool.false_eq_true, if_false] at h2
      rw [h2] at this; simp at this
    · simp only [if_true] at h2
      cases h2

/-- Evaluating the string of a finite double shows the same string. -/
theorem calculateExpression_of_string (H : Host) (s : State) (v : JSNum)
    (hfin : v.isFinite = true) (hd : v.isDouble = true) (hpm : s.powerMode = false)
    (hex : s.expression = []) (hcur : s.currentInput = numToString v) :
    (calculateExpression H s).currentInput = numToString v ∧
    (calculateExpression H s).expression = [] := by
  cases v with
  | nan => cases hfin
  | inf _ => cases hfin
  | fin neg z =>
    rcases Nat.eq_zero_or_pos z with hz | hz
    · subst hz
      have hnt : IsNumText "0".toList (.fin false 0) := by
        have := isNumText_numeral "0".toList (by decide)
        rw [show digitsVal "0".toList = 0 from rfl, ofNat_zero] at this
        exact this
      have hc0 : s.currentInput = if false then '-' :: "0".toList else "0".toList := by
        rw [hcur]; simp [numToString]
      obtain ⟨hev, hne⟩ := calculateExpression_numText H s _ _ false hnt hex hc0
      unfold calculateExpression
      rw [if_neg (by simp [hpm]), if_neg hne, hev]
      simp [JSNum.isNaN, JSNum.isFinite, numToString]
    · have hnt := posToString_isNumText z hz hd
      have hzne : z ≠ 0 := by omega
      have hcur' : s.currentInput = if neg then '-' :: posToString z else posToString z := by
        rw [hcur]; simp [numToString, hzne]
      obtain ⟨hev, hne⟩ := calculateExpression_numText H s _ _ neg hnt hex hcur'
      have hval : (if neg = true then (JSNum.fin false z).neg else JSNum.fin false z)
          = .fin neg z := by
        cases neg <;> rfl
      rw [hval] at hev
      unfold calculateExpression
      rw [if_neg (by simp [hpm]), if_neg hne, hev]
      simp [JSNum.isNaN, JSNum.isFinite]

/-- Evaluating the error marker shows the error marker. -/
theorem calculateExpression_of_error (H : Host) (s : State) (hpm : s.powerMode = false)
    (hex : s.expression = []) (hcur : s.currentInput = errorMarker) :
    (calculateExpression H s).currentInput = errorMarker ∧
    (calculateExpression H s).expression = [] := by
  have hfe : fullExpression s = errorMarker := by
    unfold fullExpression
    rw [hex, hcur]
    decide
  have hev : jsEval H (fullExpression s) = none := by
    unfold jsEval
    rw [hfe]
    have : evalFragment errorMarker = .fail := by decide
    rw [this]
  unfold calculateExpression
  rw [if_neg (by simp [hpm]), if_neg (by rw [hcur]; simp [errorMarker]), hev]
  exact ⟨rfl, rfl⟩

/-- What the first evaluation leaves: the state as it was, or Normal mode with
an empty expression and the error marker or the string of a finite double. -/
theorem calculateExpression_result (H : Host) (hH : H.givesDoubles) (s : State)
    (hfin : ∀ b, s.powerMode = true → s.baseForPower = some b → s.currentInput ≠ [] →
      ((parseFloat s.currentInput).isNaN || (parseFloat b).isNaN) = false →
      (mathPow H (parseFloat b) (parseFloat s.currentInput)).isFinite = true) :
    calculateExpression H s = s ∨
    ((calculateExpression H s).powerMode = false ∧ (calculateExpression H s).expression = [] ∧
      ((calculateExpression H s).currentInput = errorMarker ∨
        ∃ v : JSNum, v.isFinite = true ∧ v.isDouble = true ∧
          (calculateExpression H s).currentInput = numToString v)) := by
  have hzero : ∃ v : JSNum, v.isFinite = true ∧ v.isDouble = true ∧
      "0".toList = numToString v := ⟨.fin false 0, rfl, isDoubleMag_zero, rfl⟩
  unfold calculateExpression
  cases hpm : s.powerMode with
  | true =>
    rw [if_pos rfl]
    cases hb : s.baseForPower with
    | none => exact Or.inl rfl
    | some b =>
      dsimp only
      by_cases hc : s.currentInput = []
      · rw [if_pos hc]; exact Or.inl rfl
      · rw [if_neg hc]
        by_cases hn : ((parseFloat s.currentInput).isNaN || (parseFloat b).isNaN) = true
        · rw [if_pos hn]
          exact Or.inr ⟨rfl, rfl, Or.inr hzero⟩
        · rw [if_neg hn]
          refine Or.inr ⟨rfl, rfl, Or.inr ⟨_, hfin b hpm hb hc (by simpa using hn),
            mathPow_isDouble H hH _ _, rfl⟩⟩
  | false =>
    rw [if_neg (by simp)]
    by_cases h1 : s.expression = [] ∧ s.currentInput = []
    · rw [if_pos h1]
      exact Or.inr ⟨rfl, h1.1, Or.inr hzero⟩
    · rw [if_neg h1]
      cases hev : jsEval H (fullExpression s) with
      | none => exact Or.inr ⟨rfl, rfl, Or.inl rfl⟩
      | some v =>
        dsimp only
        by_cases hv : (!v.isNaN && v.isFinite) = true
        · rw [if_pos hv]
          refine Or.inr ⟨rfl, rfl, Or.inr ⟨v, ?_, jsEval_isDouble H hH _ v hev, rfl⟩⟩
          simp only [Bool.and_eq_true] at hv
          exact hv.2
        · rw [if_neg hv]
          exact Or.inr ⟨rfl, rfl, Or.inl rfl⟩

/-- C7, amended: when the host gives doubles, evaluating twice in a row shows
the same current input and expression as evaluating once, unless the first
evaluation commits a pending power whose result is not finite. -/
theorem calculateExpression_twice (H : Host) (hH : H.givesDoubles) (s : State)
    (hfin : ∀ b, s.powerMode = true → s.baseForPower = some b → s.currentInput ≠ [] →
      ((parseFloat s.currentInput).isNaN || (parseFloat b).isNaN) = false →
      (mathPow H (parseFloat b) (parseFloat s.currentInput)).isFinite = true) :
    (calculateExpression H (calculateExpression H s)).currentInput
      = (calculateExpression H s).currentInput ∧
    (calculateExpression H (calculateExpression H s)).expression
      = (calculateExpression H s).expression := by
  rcases calculateExpression_result H hH s hfin with h | ⟨hpm, hex, h | ⟨v, hvf, hvd, hv⟩⟩
  · rw [h, h]
    exact ⟨rfl, rfl⟩
  · have := calculateExpression_of_error H _ hpm hex h
    rw [this.1, this.2, h, hex]
    exact ⟨rfl, rfl⟩
  · have := calculateExpression_of_string H _ v hvf hvd hpm hex hv
    rw [this.1, this.2, hv, hex]
    exact ⟨rfl, rfl⟩

/-- C7 as stated fails: after the keys 8, sign, power, 0, ., 5, = the display
shows `NaN`, and a second = shows `Error`. -/
theorem calculateExpression_twice_counterexample :
    (¬ ∃ H : Host,
      (calculateExpression H (calculateExpression H
        { State.init with currentInput := "0.5".toList, powerMode := true,
                          baseForPower := some "-8".toList })).currentInput
      = (calculateExpression H
        { State.init with currentInput := "0.5".toList, powerMode := true,
                          baseForPower := some "-8".toList }).currentInput) ∧
    appendInput "5".toList (appendInput ".".toList (appendInput "0".toList
      (applyFunction Host.trivial "power".toList (appendInput "+/-".toList
        (appendInput "8".toList State.init)))))
      = { State.init with currentInput := "0.5".toList, powerMode := true,
                          baseForPower := some "-8".toList } := by
  constructor
  · rintro ⟨H, h⟩
    rw [calculateExpression_congr H Host.trivial
        { State.init with currentInput := "0.5".toList, powerMode := true,
                          baseForPower := some "-8".toList } (by decide),
      calculateExpression_congr H Host.trivial _ (by decide)] at h
    revert h
    decide
  · decide

theorem calculateExpression_twice_witness :
    (calculateExpression Host.trivial (calculateExpression Host.trivial
        { State.init with expression := "1/".toList, currentInput := "3".toList })).currentInput
      = (calculateExpression Host.trivial
        { State.init with expression := "1/".toList, currentInput := "3".toList }).currentInput ∧
    (calculateExpression Host.trivial (calculateExpression Host.trivial
        { State.init with expression := "1/".toList, currentInput := "3".toList })).expression
      = (calculateExpression Host.trivial
        { State.init with expression := "1/".toList, currentInput := "3".toList }).expression :=
  calculateExpression_twice Host.trivial
    ⟨fun _ _ => rfl, fun _ _ h => by cases h⟩
    { State.init with expression := "1/".toList, currentInput := "3".toList }
    (fun _ h => by cases h)


/-! ## Memory and clearing -/

/-- C13: `clearAll` sets the current input to `0`, empties the expression,
leaves power mode and clears the base, and keeps the memory and the last
result; `memoryClear` sets the memory to zero and keeps the five other
variables. -/
theorem clear_and_memoryClear_disjoint (s : State) :
    ((clearAll s).currentInput = "0".toList ∧ (clearAll s).expression = [] ∧
      (clearAll s).powerMode = false ∧ (clearAll s).baseForPower = none ∧
      (clearAll s).memory = s.memory ∧ (clearAll s).lastResult = s.lastResult) ∧
    ((memoryClear s).memory = ofNat 0 ∧ (memoryClear s).currentInput = s.currentInput ∧
      (memoryClear s).expression = s.expression ∧ (memoryClear s).lastResult = s.lastResult ∧
      (memoryClear s).powerMode = s.powerMode ∧
      (memoryClear s).baseForPower = s.baseForPower) :=
  ⟨⟨rfl, rfl, rfl, rfl, rfl, rfl⟩, ⟨ofNat_zero.symm, rfl, rfl, rfl, rfl, rfl⟩⟩

/-- The memory after `memoryAdd` on a string of digits. -/
theorem memoryAdd_digits (s : State) (a : Str) (ha : isDigits a = true) :
    memoryAdd { s with currentInput := a }
      = { s with currentInput := a, memory := JSNum.add s.memory (ofNat (digitsVal a)) } := by
  unfold memoryAdd
  simp only [parseFloat_digits a ha, ofNat_isNaN, Bool.false_eq_true, if_false]

/-- The memory after `memorySubtract` on a string of digits. -/
theorem memorySubtract_digits (s : State) (a : Str) (ha : isDigits a = true) :
    memorySubtract { s with currentInput := a }
      = { s with currentInput := a, memory := JSNum.sub s.memory (ofNat (digitsVal a)) } := by
  unfold memorySubtract
  simp only [parseFloat_digits a ha, ofNat_isNaN, Bool.false_eq_true, if_false]

/-- C12, amended: when the memory is an integer `m` and `a`, `b` are strings of
digits, with `m`, `a`, `b` and the sums (the differences) of absolute value at
most `2^53`, `memoryAdd` on `a` then `memoryRecall` shows the decimal string of
`m + a`, and `memoryAdd` on `b` then `memoryRecall` shows that of `m + a + b`;
`memorySubtract` does the same with differences. -/
theorem memory_round_trip (s : State) (m : Int) (a b : Str)
    (hm : s.memory = ofInt m) (ha : isDigits a = true) (hb : isDigits b = true)
    (hm53 : m.natAbs ≤ 2 ^ 53) (ha53 : digitsVal a ≤ 2 ^ 53) (hb53 : digitsVal b ≤ 2 ^ 53) :
    ((m + digitsVal a).natAbs ≤ 2 ^ 53 → (m + digitsVal a + digitsVal b).natAbs ≤ 2 ^ 53 →
      (memoryRecall (memoryAdd { s with currentInput := a })).currentInput
        = intToStr (m + digitsVal a) ∧
      (memoryRecall (memoryAdd
          { memoryRecall (memoryAdd { s with currentInput := a }) with currentInput := b })
        ).currentInput = intToStr (m + digitsVal a + digitsVal b)) ∧
    ((m - digitsVal a).natAbs ≤ 2 ^ 53 → (m - digitsVal a - digitsVal b).natAbs ≤ 2 ^ 53 →
      (memoryRecall (memorySubtract { s with currentInput := a })).currentInput
        = intToStr (m - digitsVal a) ∧
      (memoryRecall (memorySubtract
          { memoryRecall (memorySubtract { s with currentInput := a }) with currentInput := b })
        ).currentInput = intToStr (m - digitsVal a - digitsVal b)) := by
  constructor
  · intro h1 h2
    have e1 : memoryRecall (memoryAdd { s with currentInput := a })
        = { s with currentInput := intToStr (m + digitsVal a),
                   memory := ofInt (m + digitsVal a) } := by
      rw [memoryAdd_digits s a ha]
      unfold memoryRecall
      simp only [hm, add_ofInt_ofNat m _ hm53 ha53 h1, numToString_ofInt _ h1]
    refine ⟨by rw [e1], ?_⟩
    rw [e1]
    have := memoryAdd_digits
      { s with currentInput := intToStr (m + digitsVal a), memory := ofInt (m + digitsVal a) }
      b hb
    simp only at this
    rw [this]
    unfold memoryRecall
    simp only [add_ofInt_ofNat _ _ h1 hb53 h2, numToString_ofInt _ h2]
  · intro h1 h2
    have e1 : memoryRecall (memorySubtract { s with currentInput := a })
        = { s with currentInput := intToStr (m - digitsVal a),
                   memory := ofInt (m - digitsVal a) } := by
      rw [memorySubtract_digits s a ha]
      unfold memoryRecall
      simp only [hm, sub_ofInt_ofNat m _ hm53 ha53 h1, numToString_ofInt _ h1]
    refine ⟨by rw [e1], ?_⟩
    rw [e1]
    have := memorySubtract_digits
      { s with currentInput := intToStr (m - digitsVal a), memory := ofInt (m - digitsVal a) }
      b hb
    simp only at this
    rw [this]
    unfold memoryRecall
    simp only [sub_ofInt_ofNat _ _ h1 hb53 h2, numToString_ofInt _ h2]

theorem memory_round_trip_witness :
    ((memoryRecall (memoryAdd { State.init with currentInput := "7".toList })).currentInput
        = "7".toList ∧
      (memoryRecall (memoryAdd
          { memoryRecall (memoryAdd { State.init with currentInput := "7".toList }) with
            currentInput := "3".toList })).currentInput = "10".toList) ∧
    ((memoryRecall (memorySubtract { State.init with currentInput := "7".toList })).currentInput
        = "-7".toList ∧
      (memoryRecall (memorySubtract
          { memoryRecall (memorySubtract { State.init with currentInput := "7".toList }) with
            currentInput := "3".toList })).currentInput = "-10".toList) :=
  ⟨(memory_round_trip State.init 0 "7".toList "3".toList (by decide) (by decide) (by decide)
      (by decide) (by decide) (by decide)).1 (by decide) (by decide),
   (memory_round_trip State.init 0 "7".toList "3".toList (by decide) (by decide) (by decide)
      (by decide) (by decide) (by decide)).2 (by decide) (by decide)⟩

/-- C12 as stated fails beyond `2^53`: from the initial state, whose memory is
zero, `memoryAdd` on `9007199254740993` then `memoryRecall` shows
`9007199254740992`; and with `9007199254740992` in the memory, adding `1`
shows `9007199254740992` again. -/
theorem memory_round_trip_counterexample :
    ((memoryRecall (memoryAdd
        { State.init with currentInput := "9007199254740993".toList })).currentInput
      = "9007199254740992".toList ∧
     intToStr (0 + (digitsVal "9007199254740993".toList : Int)) = "9007199254740993".toList) ∧
    ((memoryRecall (memoryAdd
        { State.init with memory := ofInt 9007199254740992,
                          currentInput := "1".toList })).currentInput
      = "9007199254740992".toList ∧
     intToStr (9007199254740992 + (digitsVal "1".toList : Int))
      = "9007199254740993".toList) := by
  refine ⟨⟨?_, ?_⟩, ⟨?_, ?_⟩⟩ <;> decide


/-! ## The strings of numbers -/

theorem chain_nonop (l : Str) (h : ∀ c ∈ l, isOp c = false) : List.Chain' opAfterE l := by
  induction l with
  | nil => exact List.chain'_nil
  | cons a l ih =>
    rw [List.chain'_cons']
    refine ⟨fun y hy hop => ?_, ih (fun c hc => h c (List.mem_cons_of_mem _ hc))⟩
    have hy' : y ∈ l := by
      cases l with
      | nil => cases hy
      | cons b l' =>
        simp only [List.head?_cons, Option.mem_def, Option.some.injEq] at hy
        subst hy
        exact List.mem_cons_self _ _
    rw [h y (List.mem_cons_of_mem _ hy')] at hop
    cases hop

theorem chain_append (l1 l2 : Str) (h1 : List.Chain' opAfterE l1) (h2 : List.Chain' opAfterE l2)
    (hh : ∀ y ∈ l2.head?, isOp y = false) : List.Chain' opAfterE (l1 ++ l2) := by
  rw [List.chain'_append]
  refine ⟨h1, h2, fun x _ y hy hop => ?_⟩
  rw [hh y hy] at hop
  cases hop

theorem endsWithOp_suffix (p q : Str) (hq : q ≠ []) (h : ∀ c ∈ q, isOp c = false) :
    endsWithOp (p ++ q) = false := by
  obtain ⟨l, z, rfl⟩ : ∃ l z, q = l ++ [z] := by
    rcases List.eq_nil_or_concat q with h0 | ⟨l, z, h0⟩
    · exact absurd h0 hq
    · exact ⟨l, z, by simpa using h0⟩
  rw [← List.append_assoc, endsWithOp_concat]
  exact h z (by simp)

theorem endsWithOp_cons (c : Char) (t : Str) (ht : t ≠ []) :
    endsWithOp (c :: t) = endsWithOp t := by
  cases t with
  | nil => exact absurd rfl ht
  | cons b r => simp [endsWithOp, List.getLast?_cons_cons]

theorem digits_nonop (l : Str) (h : ∀ c ∈ l, isDigit c = true) : ∀ c ∈ l, isOp c = false :=
  fun c hc => isDigit_not_op c (h c hc)

theorem count_dot_digits (l : Str) (h : ∀ c ∈ l, isDigit c = true) : l.count '.' = 0 := by
  rw [List.count_eq_zero]
  intro hmem
  exact isDigit_ne_dot _ (h _ hmem) rfl

/-- A string of the shape of a number is a string the engine can show, and so
is it with `-` in front. -/
theorem NumShape.strOk {t : Str} (h : NumShape t) : StrOk t ∧ StrOk ('-' :: t) := by
  obtain ⟨a, m, x, rfl, ha, hm, hx⟩ := h
  obtain ⟨had0, hda⟩ := (isDigits_iff a).mp ha
  obtain ⟨c0, a', rfl, hc0⟩ := isDigits_cons a ha
  have hmn : ∀ c ∈ m, isOp c = false := by
    rcases hm with rfl | ⟨b, rfl, hb⟩
    · intro c hc; cases hc
    · intro c hc
      rcases List.mem_cons.mp hc with rfl | hc
      · decide
      · exact isDigit_not_op c (hb c hc)
  have hxc : List.Chain' opAfterE x ∧ (∀ y ∈ x.head?, isOp y = false) ∧ x.count '.' = 0 ∧
      (x ≠ [] → ∃ p q, x = p ++ q ∧ q ≠ [] ∧ ∀ c ∈ q, isOp c = false) := by
    rcases hx with rfl | ⟨sg, d, rfl, hsg, hd⟩
    · exact ⟨List.chain'_nil, fun y hy => (by cases hy), rfl, fun h => absurd rfl h⟩
    · obtain ⟨hd0, hdd⟩ := (isDigits_iff d).mp hd
      refine ⟨?_, ?_, ?_, fun _ => ⟨['e', sg], d, rfl, hd0, digits_nonop d hdd⟩⟩
      · rw [List.chain'_cons, List.chain'_cons']
        refine ⟨fun _ => rfl, fun y hy hop => ?_, chain_nonop d (digits_nonop d hdd)⟩
        have hy' : y ∈ d := by
          cases d with
          | nil => cases hy
          | cons b l' =>
            simp only [List.head?_cons, Option.mem_def, Option.some.injEq] at hy
            subst hy
            exact List.mem_cons_self _ _
        rw [isDigit_not_op y (hdd y hy')] at hop
        cases hop
      · intro y hy
        simp only [List.head?_cons, Option.mem_def, Option.some.injEq] at hy
        subst hy
        decide
      · have h1 : ('e' == '.') = false := by decide
        have h2 : (sg == '.') = false := by rcases hsg with rfl | rfl <;> decide
        rw [List.count_cons, List.count_cons, count_dot_digits d hdd, h1, h2]
        rfl
  obtain ⟨hxchain, hxhead, hxcount, hxlast⟩ := hxc
  have hmcount : m.count '.' ≤ 1 := by
    rcases hm with rfl | ⟨b, rfl, hb⟩
    · simp
    · rw [List.count_cons, count_dot_digits b hb]
      simp
  have hcount : ((c0 :: a') ++ (m ++ x)).count '.' ≤ 1 := by
    rw [List.count_append, List.count_append, count_dot_digits _ hda, hxcount]
    omega
  have hmx : List.Chain' opAfterE (m ++ x) := chain_append m x (chain_nonop m hmn) hxchain hxhead
  have hmxhead : ∀ y ∈ (m ++ x).head?, isOp y = false := by
    intro y hy
    cases m with
    | nil => exact hxhead y (by simpa using hy)
    | cons b l' =>
      simp only [List.cons_append, List.head?_cons, Option.mem_def, Option.some.injEq] at hy
      subst hy
      exact hmn _ (List.mem_cons_self _ _)
  have hchain : List.Chain' opAfterE ((c0 :: a') ++ (m ++ x)) :=
    chain_append _ _ (chain_nonop _ (digits_nonop _ hda)) hmx hmxhead
  have hc0op : isOp c0 = false := isDigit_not_op c0 hc0
  have hend : endsWithOp ((c0 :: a') ++ (m ++ x)) = false := by
    by_cases hx0 : x = []
    · subst hx0
      rw [List.append_nil]
      by_cases hm0 : m = []
      · subst hm0
        rw [List.append_nil]
        have := endsWithOp_suffix [] (c0 :: a') had0 (digits_nonop _ hda)
        simpa using this
      · exact endsWithOp_suffix _ m hm0 hmn
    · obtain ⟨p, q, rfl, hq0, hq⟩ := hxlast hx0
      rw [← List.append_assoc, ← List.append_assoc]
      exact endsWithOp_suffix _ q hq0 hq
  have hne : (c0 :: a') ++ (m ++ x) ≠ errorMarker := by
    intro he
    have : c0 = 'E' := by
      have := congrArg List.head? he
      simpa [errorMarker] using this
    subst this
    revert hc0
    decide
  have hnm : (c0 :: a') ++ (m ++ x) ≠ ['-'] := by
    intro he
    have : c0 = '-' := by
      have := congrArg List.head? he
      simpa using this
    subst this
    revert hc0
    decide
  refine ⟨⟨hcount, ⟨hchain, ?_⟩, by simp, hnm, hend, hne⟩,
    ⟨?_, ⟨?_, ?_⟩, by simp, by simp, ?_, ?_⟩⟩
  · intro c hc hop
    simp only [List.cons_append, List.head?_cons, Option.mem_def, Option.some.injEq] at hc
    subst hc
    rw [hc0op] at hop
    cases hop
  · rw [List.count_cons]
    have : ('-' == '.') = false := by decide
    rw [this]
    simpa using hcount
  · rw [List.chain'_cons']
    refine ⟨fun y hy hop => ?_, hchain⟩
    simp only [List.cons_append, List.head?_cons, Option.mem_def, Option.some.injEq] at hy
    subst hy
    rw [hc0op] at hop
    cases hop
  · intro c hc _
    simp only [List.head?_cons, Option.mem_def, Option.some.injEq] at hc
    exact hc.symm
  · rw [endsWithOp_cons _ _ (by simp)]
    exact hend
  · intro he
    have := congrArg List.head? he
    simp [errorMarker] at this

theorem digits_shape (d : Str) (hd : isDigits d = true) : NumShape d :=
  ⟨d, [], [], by simp, hd, Or.inl rfl, Or.inl rfl⟩

/-- Every layout of a string of digits has the shape of a number. -/
theorem layout_shape (ds : Str) (hds : isDigits ds = true) (n : Int) : NumShape (layout ds n) := by
  obtain ⟨hne, hall⟩ := (isDigits_iff ds).mp hds
  obtain ⟨c, ds', rfl, hc⟩ := isDigits_cons ds hds
  unfold layout
  simp only
  by_cases h1 : ((c :: ds').length : Int) ≤ n ∧ n ≤ 21
  · rw [if_pos h1]
    refine digits_shape _ ((isDigits_iff _).mpr ⟨by simp, fun x hx => ?_⟩)
    rcases List.mem_append.mp hx with hx | hx
    · exact hall x hx
    · exact isDigit_replicate_zero _ x hx
  rw [if_neg h1]
  by_cases h2 : 0 < n ∧ n ≤ 21
  · rw [if_pos h2]
    obtain ⟨m, hm⟩ : ∃ m : Nat, n = m := ⟨n.toNat, by omega⟩
    subst hm
    simp only [Int.toNat_ofNat]
    refine ⟨(c :: ds').take m, '.' :: (c :: ds').drop m, [], by simp, ?_,
      Or.inr ⟨_, rfl, fun x hx => hall x (List.mem_of_mem_drop hx)⟩, Or.inl rfl⟩
    rw [isDigits_iff]
    refine ⟨?_, fun x hx => hall x (List.mem_of_mem_take hx)⟩
    obtain ⟨k, rfl⟩ : ∃ k, m = k + 1 := ⟨m - 1, by omega⟩
    simp
  rw [if_neg h2]
  by_cases h3 : -6 < n ∧ n ≤ 0
  · rw [if_pos h3]
    refine ⟨['0'], '.' :: (List.replicate (-n).toNat '0' ++ (c :: ds')), [], by simp, by decide,
      Or.inr ⟨_, rfl, fun x hx => ?_⟩, Or.inl rfl⟩
    rcases List.mem_append.mp hx with hx | hx
    · exact isDigit_replicate_zero _ x hx
    · exact hall x hx
  rw [if_neg h3]
  have hsg : ∀ e : Int, ((if e < 0 then '-' else '+') = '+' ∨ (if e < 0 then '-' else '+') = '-') := by
    intro e
    by_cases he : e < 0
    · rw [if_pos he]; exact Or.inr rfl
    · rw [if_neg he]; exact Or.inl rfl
  cases ds' with
  | nil =>
    show NumShape (c :: 'e' :: ((if n - 1 < 0 then '-' else '+') :: natToStr (n - 1).natAbs))
    exact ⟨[c], [], 'e' :: ((if n - 1 < 0 then '-' else '+') :: natToStr (n - 1).natAbs), rfl, hds, Or.inl rfl, Or.inr ⟨_, _, rfl, hsg _, isDigits_natToStr _⟩⟩
  | cons c2 ds2 =>
    show NumShape (c :: '.' :: ((c2 :: ds2) ++
      'e' :: ((if n - 1 < 0 then '-' else '+') :: natToStr (n - 1).natAbs)))
    refine ⟨[c], '.' :: (c2 :: ds2),
      'e' :: ((if n - 1 < 0 then '-' else '+') :: natToStr (n - 1).natAbs), ?_, ?_,
      Or.inr ⟨_, rfl, fun x hx => hall x (List.mem_cons_of_mem _ hx)⟩,
      Or.inr ⟨_, _, rfl, hsg _, isDigits_natToStr _⟩⟩
    · simp
    · rw [isDigits_iff]
      exact ⟨by simp, fun x hx => by
        rw [List.mem_singleton] at hx
        subst hx
        exact hc⟩

theorem posToString_shape (z : Nat) : NumShape (posToString z) := by
  unfold posToString
  split_ifs with h
  · exact digits_shape _ (isDigits_natToStr _)
  · exact layout_shape _ (isDigits_natToStr _) _

theorem strOk_of_letters (t : Str) (h0 : t ≠ []) (hE : t ≠ errorMarker)
    (h : ∀ c ∈ t, isOp c = false ∧ c ≠ '.') : StrOk t := by
  refine ⟨?_, ⟨chain_nonop t (fun c hc => (h c hc).1), fun c hc hop => ?_⟩, h0, ?_, ?_, hE⟩
  · have : t.count '.' = 0 := by
      rw [List.count_eq_zero]
      intro hmem
      exact (h _ hmem).2 rfl
    omega
  · have hc' : c ∈ t := by
      cases t with
      | nil => cases hc
      | cons b l' =>
        simp only [List.head?_cons, Option.mem_def, Option.some.injEq] at hc
        subst hc
        exact List.mem_cons_self _ _
    rw [(h c hc').1] at hop
    cases hop
  · intro he
    subst he
    have := (h '-' (List.mem_cons_self _ _)).1
    revert this
    decide
  · have := endsWithOp_suffix [] t h0 (fun c hc => (h c hc).1)
    simpa using this

/-- The string of a Number is a string the engine can show. -/
theorem numToString_ok (v : JSNum) : StrOk (numToString v) := by
  cases v with
  | nan =>
    exact strOk_of_letters _ (by decide) (by decide) (by decide)
  | inf b =>
    cases b
    · exact strOk_of_letters _ (by decide) (by decide) (by decide)
    · have h := strOk_of_letters "Infinity".toList (by decide) (by decide) (by decide)
      obtain ⟨h1, ⟨h2, _⟩, _, _, h5, _⟩ := h
      refine ⟨?_, ⟨?_, ?_⟩, by decide, by decide, ?_, by decide⟩
      · exact h1
      · show List.Chain' opAfterE ('-' :: "Infinity".toList)
        rw [List.chain'_cons']
        exact ⟨by decide, h2⟩
      · decide
      · show endsWithOp ('-' :: "Infinity".toList) = false
        rw [endsWithOp_cons _ _ (by decide)]
        exact h5
  | fin neg z =>
    show StrOk (if z = 0 then "0".toList else if neg then '-' :: posToString z else posToString z)
    by_cases hz : z = 0
    · rw [if_pos hz]
      exact (digits_shape "0".toList (by decide)).strOk.1
    · rw [if_neg hz]
      cases neg
      · simp only [Bool.false_eq_true, if_false]
        exact (posToString_shape z).strOk.1
      · simp only [if_true]
        exact (posToString_shape z).strOk.2

theorem strOk_errorMarker_parts :
    errorMarker.count '.' ≤ 1 ∧ CurOk errorMarker ∧ errorMarker ≠ [] ∧ errorMarker ≠ ['-'] ∧
      endsWithOp errorMarker = false := by
  refine ⟨by decide, ⟨chain_nonop _ (by decide), by decide⟩, by decide, by decide, by decide⟩

theorem strOk_zero : StrOk "0".toList := (digits_shape "0".toList (by decide)).strOk.1


/-! ## Division by zero -/

/-- The ways `calculateExpression` ends: nothing, `clearAll`, a power, the
`0` of the empty input, a result, or the error marker. -/
theorem calculateExpression_ind (H : Host) (s : State) (P : State → Prop)
    (hsame : P s) (hclear : P (clearAll s))
    (hpow : ∀ r, s.powerMode = true →
      P { s with currentInput := numToString r, expression := [], powerMode := false,
                 baseForPower := none, lastResult := some (parseFloat (numToString r)) })
    (hzero : s.powerMode = false → s.expression = [] → s.currentInput = [] →
      P { s with currentInput := "0".toList })
    (hres : ∀ v, s.powerMode = false → ¬ (s.expression = [] ∧ s.currentInput = []) →
      P { s with lastResult := some v, currentInput := numToString v, expression := [] })
    (herr : s.powerMode = false → ¬ (s.expression = [] ∧ s.currentInput = []) →
      P { s with currentInput := errorMarker, expression := [] }) :
    P (calculateExpression H s) := by
  unfold calculateExpression
  by_cases hpm : s.powerMode = true
  · rw [if_pos hpm]
    cases hb : s.baseForPower with
    | none => exact hsame
    | some b =>
      dsimp only
      split_ifs
      · exact hsame
      · exact hclear
      · exact hpow _ hpm
  · rw [if_neg hpm]
    have hpm' : s.powerMode = false := by simpa using hpm
    split_ifs with h1
    · exact hzero hpm' h1.1 h1.2
    · cases jsEval H (fullExpression s) with
      | none => exact herr hpm' h1
      | some v =>
        dsimp only
        split_ifs
        · exact hres v hpm' h1
        · exact herr hpm' h1

/-- The ways `addOperator` ends: nothing, `clearAll`, a power, or the operator
behind the expression without its last character, behind the current input, or
behind the expression and the current input. -/
theorem addOperator_ind (H : Host) (op : Str) (s : State) (P : State → Prop)
    (hsame : P s) (hclear : P (clearAll s))
    (hpow : ∀ r, s.powerMode = true →
      P { s with currentInput := numToString r, expression := [], powerMode := false,
                 baseForPower := none })
    (hrepl : s.powerMode = false → s.expression ≠ [] → endsWithOp s.expression = true →
      P { s with expression := s.expression.dropLast ++ op, currentInput := [] })
    (hfirst : s.powerMode = false → s.expression = [] →
      P { s with expression := s.currentInput ++ op, currentInput := [] })
    (happ : s.powerMode = false → s.expression ≠ [] → endsWithOp s.expression ≠ true →
      P { s with expression := s.expression ++ (s.currentInput ++ op), currentInput := [] }) :
    P (addOperator H op s) := by
  unfold addOperator
  by_cases hpm : s.powerMode = true
  · rw [if_pos hpm]
    cases hb : s.baseForPower with
    | none => exact hsame
    | some b =>
      dsimp only
      split_ifs
      · exact hsame
      · exact hclear
      · exact hpow _ hpm
  · rw [if_neg hpm]
    have hpm' : s.powerMode = false := by simpa using hpm
    split_ifs with h1 h2
    · exact hrepl hpm' h1.1 h1.2
    · exact hfirst hpm' h2
    · exact happ hpm' h2 (fun h => h1 ⟨h2, h⟩)

theorem tokenize_leading_zero (f : Nat) (c : Char) (r i fr r1 : Str) (hc : isDigit c = true)
    (hsm : scanMantissa (c :: r) = some (i, fr, r1))
    (hz : (decide (1 < i.length) && i.head? == some '0') = true) :
    tokenize (f + 1) (c :: r) = .bad := by
  conv_lhs => unfold tokenize
  simp only [hc, Bool.true_or, if_true, hsm, hz]

theorem scanMantissa_decimal (i : Str) (f : Option Str) (rest : Str) (hi : isDigits i = true)
    (hf : ∀ g, f = some g → ∀ c ∈ g, isDigit c = true)
    (hr : ∀ c, rest.head? = some c → isDigit c = false ∧ c ≠ '.') :
    scanMantissa (decimalText i f ++ rest) = some (i, f.getD [], rest) := by
  cases f with
  | none => exact scanMantissa_digits i rest hi hr
  | some g =>
    have := scanMantissa_frac i g rest ((isDigits_iff i).mp hi).2 (hf g rfl)
      (Or.inl ((isDigits_iff i).mp hi).1) (fun c hc => (hr c hc).1)
    simpa [decimalText] using this

theorem div_zero_not_finite (V : JSNum) :
    (!(JSNum.div V (ofNat 0)).isNaN && (JSNum.div V (ofNat 0)).isFinite) = false := by
  rw [ofNat_zero]
  cases V with
  | nan => rfl
  | inf b => rfl
  | fin b x =>
    by_cases hx : x = 0
    · simp [JSNum.div, hx, JSNum.isNaN]
    · simp [JSNum.div, hx, JSNum.isNaN, JSNum.isFinite]

/-- The text `a/0` of a decimal literal `a` is a syntax error of strict code
(a superfluous leading zero) or divides the value of `a` by zero. -/
theorem evalFragment_div_zero (i : Str) (f : Option Str) (hi : isDigits i = true)
    (hf : ∀ g, f = some g → ∀ c ∈ g, isDigit c = true) :
    evalFragment (decimalText i f ++ ['/', '0']) = .fail ∨
    ∃ V, evalFragment (decimalText i f ++ ['/', '0']) = .num (JSNum.div V (ofNat 0)) := by
  obtain ⟨c, i', rfl, hc⟩ := isDigits_cons i hi
  have hd : ∃ r, decimalText (c :: i') f = c :: r := by
    cases f with
    | none => exact ⟨i', rfl⟩
    | some g => exact ⟨i' ++ '.' :: g, rfl⟩
  obtain ⟨r, hr⟩ := hd
  have hsm := scanMantissa_decimal (c :: i') f ['/', '0', ')'] hi hf (by
    intro x hx
    simp only [List.head?_cons, Option.some.injEq] at hx
    subst hx
    decide)
  have hlen : (decimalText (c :: i') f ++ ['/', '0']).length + 3 = r.length + 6 := by
    rw [hr]; simp
  have htxt : '(' :: (decimalText (c :: i') f ++ ['/', '0']) ++ [')']
      = '(' :: (decimalText (c :: i') f ++ ['/', '0', ')']) := by simp
  unfold evalFragment
  rw [hlen, htxt, tokenize_lparen]
  rw [hr] at hsm ⊢
  rw [List.cons_append] at hsm ⊢
  by_cases hz : (decide (1 < (c :: i').length) && (c :: i').head? == some '0') = true
  · rw [tokenize_leading_zero _ c _ _ _ _ hc hsm hz]
    exact Or.inl rfl
  · rw [tokenize_scanned _ c _ _ _ _ hc hsm (by simpa using hz)]
    have e1 : scanExp ['/', '0', ')'] = none := by decide
    have e2 : afterNumeralOk ['/', '0', ')'] = true := by decide
    rw [e1]
    simp only [e2, if_true]
    have e3 : tokenize (r.length + 2 + 1) ['0', ')']
        = (tokenize (r.length + 2) [')']).cons (.num (ofNat (digitsVal "0".toList))) :=
      tokenize_numeral (r.length + 2) "0".toList [')'] (by decide) (by
        intro x hx
        simp only [List.head?_cons, Option.some.injEq] at hx
        exact Or.inr hx.symm)
    rw [tokenize_op _ '/' '0' [')'] (by decide) (by decide), e3, tokenize_rparen]
    refine Or.inr ⟨numeralValue false (c :: i') (f.getD []) 0, ?_⟩
    simp [Lexed.cons, opTok, run, Frame.empty, Frame.operand, applySigns, Frame.close, applyMul,
      Val.toNum, digitsVal]

theorem decimalText_no_percent (i : Str) (f : Option Str) (hi : isDigits i = true)
    (hf : ∀ g, f = some g → ∀ c ∈ g, isDigit c = true) :
    '%' ∉ decimalText i f ++ ['/', '0'] := by
  have hdi : ∀ c ∈ i, c ≠ '%' := fun c hc => digit_not_percent c (((isDigits_iff i).mp hi).2 c hc)
  intro hmem
  rcases List.mem_append.mp hmem with h | h
  · cases f with
    | none => exact hdi _ h rfl
    | some g =>
      rcases List.mem_append.mp h with h | h
      · exact hdi _ h rfl
      · rcases List.mem_cons.mp h with h | h
        · revert h; decide
        · exact digit_not_percent _ (hf g rfl _ h) rfl
  · revert h; decide

/-- C11: in Normal mode, with the expression a decimal literal followed by `/`
and the current input `0`, `calculateExpression` leaves the error marker in
the current input and empties the expression, and changes nothing else; and
whenever `calculateExpression` ends with the error marker in the current
input, the last result and the memory are the ones before. -/
theorem division_by_zero_absorbed (H : Host) (s : State) (i : Str) (f : Option Str)
    (hpm : s.powerMode = false) (hi : isDigits i = true)
    (hf : ∀ g, f = some g → ∀ c ∈ g, isDigit c = true)
    (hex : s.expression = decimalText i f ++ ['/']) (hcur : s.currentInput = ['0']) :
    calculateExpression H s = { s with currentInput := errorMarker, expression := [] } ∧
    ∀ t : State, (calculateExpression H t).currentInput = errorMarker →
      (calculateExpression H t).lastResult = t.lastResult ∧
      (calculateExpression H t).memory = t.memory := by
  constructor
  · have hfull : s.expression ++ s.currentInput = decimalText i f ++ ['/', '0'] := by
      rw [hex, hcur]; simp
    have hfe : fullExpression s = decimalText i f ++ ['/', '0'] := by
      unfold fullExpression
      rw [hfull]
      have : stripTrailingOps (decimalText i f ++ ['/', '0']) = decimalText i f ++ ['/', '0'] := by
        have := stripTrailingOps_concat (decimalText i f ++ ['/']) '0' (by decide)
        simpa using this
      rw [this]
      exact percentRewrite_id _ _ (decimalText_no_percent i f hi hf)
    have hne : ¬ (s.expression = [] ∧ s.currentInput = []) := by
      rintro ⟨_, h2⟩
      rw [hcur] at h2
      cases h2
    unfold calculateExpression
    rw [if_neg (by simp [hpm]), if_neg hne]
    unfold jsEval
    rw [hfe]
    rcases evalFragment_div_zero i f hi hf with h | ⟨V, h⟩
    · rw [h]
    · rw [h]
      simp only [div_zero_not_finite, Bool.false_eq_true, if_false]
  · intro t
    refine calculateExpression_ind H t
      (fun u => u.currentInput = errorMarker → u.lastResult = t.lastResult ∧ u.memory = t.memory)
      (fun _ => ⟨rfl, rfl⟩) (fun _ => ⟨rfl, rfl⟩) ?_ (fun _ _ _ _ => ⟨rfl, rfl⟩) ?_
      (fun _ _ _ => ⟨rfl, rfl⟩)
    · intro r _ h
      exact absurd h (numToString_ok r).2.2.2.2.2
    · intro v _ _ h
      exact absurd h (numToString_ok v).2.2.2.2.2

theorem division_by_zero_absorbed_witness :
    calculateExpression Host.trivial
        { State.init with expression := "12.5/".toList, currentInput := "0".toList,
                          lastResult := some (ofNat 3) }
      = { State.init with currentInput := errorMarker, lastResult := some (ofNat 3) } :=
  (division_by_zero_absorbed Host.trivial
    { State.init with expression := "12.5/".toList, currentInput := "0".toList,
                      lastResult := some (ofNat 3) }
    "12".toList (some "5".toList) rfl (by decide) (by decide) rfl rfl).1


/-! ## The tangent guard -/

theorem ofNat_360 : ofNat 360 = .fin false (360 * unit) := ofNat_eq 360 (by norm_num)

theorem ofNat_90 : ofNat 90 = .fin false (90 * unit) := ofNat_eq 90 (by norm_num)

theorem ofNat_270 : ofNat 270 = .fin false (270 * unit) := ofNat_eq 270 (by norm_num)

theorem tmod_natCast (q : Nat) : (q : Int).tmod 360 = ((q % 360 : Nat) : Int) := by
  have := Int.ofNat_tmod q 360
  simpa using this.symm

theorem tmod_neg_natCast (q : Nat) : (-(q : Int)).tmod 360 = -((q % 360 : Nat) : Int) := by
  cases q with
  | zero => simp
  | succ n =>
    show (Int.negSucc n).tmod ((360 : Nat) : Int) = _
    rfl

/-- The remainder by 360 of an integer Number is the integer remainder, with
the sign of the dividend. -/
theorem strictEq_mod_360 (neg : Bool) (q k : Nat) (hk : 0 < k) :
    (JSNum.mod (.fin neg (q * unit)) (ofNat 360)).strictEq (.fin false (k * unit)) = true
      ↔ (if neg then -((q : Nat) : Int) else ((q : Nat) : Int)).tmod 360 = k := by
  have hu : 0 < unit := by unfold unit; positivity
  have h360 : 360 * unit ≠ 0 := by positivity
  rw [ofNat_360]
  simp only [JSNum.mod, h360, if_false, Nat.mul_mod_mul_right, JSNum.strictEq, JSNum.isNaN,
    Bool.not_false, Bool.true_and, decide_eq_true_eq]
  cases neg with
  | false =>
    simp only [JSNum.key, Bool.false_eq_true, if_false]
    rw [tmod_natCast]
    constructor
    · intro h
      have h' : q % 360 * unit = k * unit := by exact_mod_cast h
      have := Nat.eq_of_mul_eq_mul_right hu h'
      exact_mod_cast this
    · intro h
      have : q % 360 = k := by exact_mod_cast h
      rw [this]
  | true =>
    simp only [JSNum.key, if_true]
    rw [tmod_neg_natCast]
    have hku : 0 < k * unit := by positivity
    have h1 : (0 : Int) ≤ ((q % 360 * unit : Nat) : Int) := Int.ofNat_nonneg _
    have h2 : (0 : Int) < ((k * unit : Nat) : Int) := by exact_mod_cast hku
    have h3 : (0 : Int) ≤ ((q % 360 : Nat) : Int) := Int.ofNat_nonneg _
    have h4 : (0 : Int) < (k : Int) := by exact_mod_cast hk
    constructor
    · intro h
      omega
    · intro h
      omega

theorem toInt_some (v : JSNum) (n : Int) (h : v.toInt = some n) :
    ∃ neg q, v = .fin neg (q * unit) ∧
      n = (if neg then -((q : Nat) : Int) else ((q : Nat) : Int)) := by
  cases v with
  | nan => cases h
  | inf b => cases h
  | fin neg z =>
    simp only [JSNum.toInt] at h
    by_cases hz : z % unit = 0
    · rw [if_pos hz] at h
      simp only [Option.some.injEq] at h
      exact ⟨neg, z / unit, by rw [Nat.div_mul_cancel (Nat.dvd_of_mod_eq_zero hz)], h.symm⟩
    · rw [if_neg hz] at h
      cases h

/-- C17: when the current input parses to the integer `n`, `applyFunction`
on `tan` leaves the error marker in the current input exactly when the
truncated remainder of `n` by 360 is 90 or 270, and then it empties the
expression and changes nothing else. -/
theorem tangent_guard (H : Host) (s : State) (n : Int)
    (hn : (parseFloat s.currentInput).toInt = some n) :
    ((applyFunction H "tan".toList s).currentInput = errorMarker
      ↔ n.tmod 360 = 90 ∨ n.tmod 360 = 270) ∧
    (n.tmod 360 = 90 ∨ n.tmod 360 = 270 →
      applyFunction H "tan".toList s = { s with currentInput := errorMarker, expression := [] }) := by
  obtain ⟨neg, q, hv, rfl⟩ := toInt_some _ n hn
  have hnan : ¬ ((parseFloat s.currentInput).isNaN = true) := by rw [hv]; simp [JSNum.isNaN]
  have hguard : ((JSNum.mod (parseFloat s.currentInput) (ofNat 360)).strictEq (ofNat 90)
        || (JSNum.mod (parseFloat s.currentInput) (ofNat 360)).strictEq (ofNat 270)) = true
      ↔ ((if neg then -((q : Nat) : Int) else ((q : Nat) : Int)).tmod 360 = 90 ∨
         (if neg then -((q : Nat) : Int) else ((q : Nat) : Int)).tmod 360 = 270) := by
    rw [hv, ofNat_90, ofNat_270, Bool.or_eq_true, strictEq_mod_360 neg q 90 (by norm_num),
      strictEq_mod_360 neg q 270 (by norm_num)]
    simp
  have hform : applyFunction H "tan".toList s
      = if ((JSNum.mod (parseFloat s.currentInput) (ofNat 360)).strictEq (ofNat 90)
            || (JSNum.mod (parseFloat s.currentInput) (ofNat 360)).strictEq (ofNat 270)) = true
        then showError s
        else showResult s (H.tan (toRadians (parseFloat s.currentInput))) := by
    unfold applyFunction
    rw [if_neg hnan, if_neg (by decide), if_neg (by decide), if_neg (by decide),
      if_neg (by decide), if_neg (by decide), if_pos rfl]
  rw [hform]
  constructor
  · constructor
    · intro h
      by_contra hcon
      rw [if_neg (fun hg => hcon (hguard.mp hg))] at h
      exact (numToString_ok _).2.2.2.2.2 h
    · intro h
      rw [if_pos (hguard.mpr h)]
      rfl
  · intro h
    rw [if_pos (hguard.mpr h)]
    rfl

theorem tangent_guard_witness :
    (applyFunction Host.trivial "tan".toList
        { State.init with currentInput := "450".toList, expression := "1+".toList }
      = { State.init with currentInput := errorMarker }) ∧
    (applyFunction Host.trivial "tan".toList
        { State.init with currentInput := "-90".toList }).currentInput ≠ errorMarker :=
  ⟨(tangent_guard Host.trivial
      { State.init with currentInput := "450".toList, expression := "1+".toList } 450
      (by decide)).2 (by decide),
   fun h => absurd ((tangent_guard Host.trivial
      { State.init with currentInput := "-90".toList } (-90) (by decide)).1.mp h) (by decide)⟩


/-! ## What every reachable state satisfies -/

theorem isDigit_fin (d : Fin 10) : isDigit (digitChar d.val) = true :=
  isDigit_digitChar d.val d.isLt

/-- The ways `appendInput` ends on a character that is a digit or the decimal
point: nothing, the character alone, or the character behind the current
input. -/
theorem appendInput_char_ind (c : Char) (s : State) (hc : isDigit c = true ∨ c = '.')
    (P : State → Prop)
    (hsame : '.' ∈ s.currentInput → c = '.' → P s)
    (hfirst : s.currentInput = "0".toList → c ≠ '.' → P { s with currentInput := [c] })
    (happ : (c = '.' → '.' ∉ s.currentInput) →
      P { s with currentInput := s.currentInput ++ [c] }) :
    P (appendInput [c] s) := by
  have hne : [c] ≠ "+/-".toList := by
    intro h
    simp at h
  unfold appendInput
  by_cases hdot : c = '.'
  · subst hdot
    by_cases hpm : s.powerMode = true
    · rw [if_pos hpm]
      by_cases hin : '.' ∈ s.currentInput
      · rw [if_pos ⟨rfl, hin⟩]
        exact hsame hin rfl
      · rw [if_neg (fun h => hin h.2), if_neg (fun h => h.2 rfl)]
        exact happ (fun _ => hin)
    · rw [if_neg hpm, if_pos (show ['.'] = ".".toList from rfl)]
      by_cases hin : '.' ∈ s.currentInput
      · rw [if_neg (fun h => h hin)]
        exact hsame hin rfl
      · rw [if_pos hin]
        exact happ (fun _ => hin)
  · have hv : [c] ≠ ".".toList := by
      intro h
      simp at h
      exact hdot h
    by_cases hpm : s.powerMode = true
    · rw [if_pos hpm, if_neg (fun h => hv h.1)]
      by_cases h0 : s.currentInput = "0".toList
      · rw [if_pos ⟨h0, hv⟩]
        exact hfirst h0 hdot
      · rw [if_neg (fun h => h0 h.1)]
        exact happ (fun h => absurd h hdot)
    · rw [if_neg hpm, if_neg hv, if_neg hne]
      by_cases h0 : s.currentInput = "0".toList
      · rw [if_pos h0]
        exact hfirst h0 hdot
      · rw [if_neg h0]
        exact happ (fun h => absurd h hdot)

/-- The ways `appendInput` ends on the sign toggle: in power mode its text is
put in the input like a digit; in Normal mode the `-` in front is dropped, or
put, or nothing happens on `0`. -/
theorem appendInput_toggle_ind (s : State) (P : State → Prop)
    (hp1 : s.powerMode = true → P { s with currentInput := "+/-".toList })
    (hp2 : s.powerMode = true → P { s with currentInput := s.currentInput ++ "+/-".toList })
    (hdrop : ∀ x, s.powerMode = false → s.currentInput = '-' :: x →
      P { s with currentInput := x })
    (hput : s.powerMode = false → s.currentInput.head? ≠ some '-' →
      s.currentInput ≠ "0".toList → P { s with currentInput := '-' :: s.currentInput })
    (hsame : s.powerMode = false → s.currentInput = "0".toList → P s) :
    P (appendInput "+/-".toList s) := by
  unfold appendInput
  by_cases hpm : s.powerMode = true
  · rw [if_pos hpm, if_neg (fun h => absurd h.1 (by decide))]
    by_cases h0 : s.currentInput = "0".toList
    · rw [if_pos ⟨h0, by decide⟩]
      exact hp1 hpm
    · rw [if_neg (fun h => h0 h.1)]
      exact hp2 hpm
  · have hpm' : s.powerMode = false := by simpa using hpm
    rw [if_neg hpm, if_neg (by decide), if_pos rfl]
    by_cases hh : s.currentInput.head? = some '-'
    · rw [if_pos hh]
      cases hcur : s.currentInput with
      | nil => rw [hcur] at hh; cases hh
      | cons a x =>
        rw [hcur] at hh
        simp only [List.head?_cons, Option.some.injEq] at hh
        subst hh
        exact hdrop x hpm' hcur
    · rw [if_neg hh]
      by_cases h0 : s.currentInput = "0".toList
      · rw [if_neg (fun h => h h0)]
        exact hsame hpm' h0
      · rw [if_pos h0]
        exact hput hpm' hh h0

theorem curOk_nil : CurOk [] := ⟨List.chain'_nil, fun c hc => by cases hc⟩

theorem curOk_append_char (t : Str) (c : Char) (ht : CurOk t) (hc : isOp c = false) :
    CurOk (t ++ [c]) := by
  refine ⟨chain_append t [c] ht.1 (List.chain'_singleton c) (fun y hy => ?_), fun y hy hop => ?_⟩
  · simp only [List.head?_cons, Option.mem_def, Option.some.injEq] at hy
    subst hy
    exact hc
  · cases t with
    | nil =>
      simp only [List.nil_append, List.head?_cons, Option.mem_def, Option.some.injEq] at hy
      subst hy
      rw [hc] at hop
      cases hop
    | cons a l => exact ht.2 y (by simpa using hy) hop

theorem curOk_single (c : Char) (hc : isOp c = false) : CurOk [c] := by
  have := curOk_append_char [] c curOk_nil hc
  simpa using this

theorem curOk_tail (x : Str) (h : CurOk ('-' :: x)) : CurOk x ∧ x ≠ ['-'] := by
  obtain ⟨h1, _⟩ := h
  rw [List.chain'_cons'] at h1
  have hhead : ∀ y ∈ x.head?, isOp y = false := by
    intro y hy
    by_contra hop
    have : isOp y = true := by simpa using hop
    have := h1.1 y hy this
    revert this
    decide
  refine ⟨⟨h1.2, fun y hy hop => ?_⟩, ?_⟩
  · rw [hhead y hy] at hop
    cases hop
  · intro hx
    subst hx
    have := hhead '-' rfl
    revert this
    decide

theorem curOk_cons (t : Str) (ht : CurOk t) (hh : t.head? ≠ some '-') : CurOk ('-' :: t) := by
  refine ⟨?_, fun c hc _ => ?_⟩
  · rw [List.chain'_cons']
    refine ⟨fun y hy hop => ?_, ht.1⟩
    have := ht.2 y hy hop
    subst this
    exact absurd hy hh
  · simp only [List.head?_cons, Option.mem_def, Option.some.injEq] at hc
    exact hc.symm

theorem curOk_dropLast (t : Str) (ht : CurOk t) : CurOk t.dropLast := by
  have hch : List.Chain' opAfterE t.dropLast := by
    rcases List.eq_nil_or_concat t with h | ⟨l, z, h⟩
    · subst h
      exact List.chain'_nil
    · have h' : t = l ++ [z] := by simpa using h
      subst h'
      rw [List.dropLast_concat]
      exact (List.chain'_append.mp ht.1).1
  refine ⟨hch, fun c hc hop => ?_⟩
  rw [List.head?_dropLast] at hc
  split_ifs at hc
  · exact ht.2 c hc hop
  · cases hc

theorem count_dot_append_char (t : Str) (c : Char) (ht : t.count '.' ≤ 1)
    (hc : c = '.' → '.' ∉ t) : (t ++ [c]).count '.' ≤ 1 := by
  rw [List.count_append]
  by_cases h : c = '.'
  · subst h
    have : t.count '.' = 0 := List.count_eq_zero.mpr (hc rfl)
    rw [this]
    simp
  · have : ([c] : Str).count '.' = 0 := by
      rw [List.count_eq_zero]
      intro hm
      simp at hm
      exact h hm.symm
    rw [this]
    exact ht

/-- Every handler keeps the invariant of the reachable states. -/
theorem handle_inv (H : Host) (e : Event) (s : State) (hs : Inv s) : Inv (handle H e s) := by
  obtain ⟨h1, h2, h3⟩ := hs
  have hchar : ∀ c : Char, (isDigit c = true ∨ c = '.') → Inv (appendInput [c] s) := by
    intro c hc
    have hcop : isOp c = false := by
      rcases hc with hc | rfl
      · exact isDigit_not_op c hc
      · decide
    refine appendInput_char_ind c s hc Inv (fun _ _ => ⟨h1, h2, h3⟩) (fun _ hd => ?_)
      (fun hd => ?_)
    · refine ⟨?_, h2, fun _ => curOk_single c hcop⟩
      have := count_dot_append_char [] c (by simp) (fun _ => by simp)
      simpa using this
    · exact ⟨count_dot_append_char _ c h1 hd, h2, fun hp => curOk_append_char _ c (h3 hp) hcop⟩
  have hstr : ∀ (t : State) (r : JSNum), t.currentInput = numToString r →
      t.baseForPower.isSome = t.powerMode → Inv t := by
    intro t r ht hb
    refine ⟨?_, hb, fun _ => ?_⟩
    · rw [ht]; exact (numToString_ok r).1
    · rw [ht]; exact (numToString_ok r).2.1
  have hzero : ∀ t : State, t.currentInput = "0".toList →
      t.baseForPower.isSome = t.powerMode → Inv t := by
    intro t ht hb
    refine ⟨?_, hb, fun _ => ?_⟩
    · rw [ht]; exact strOk_zero.1
    · rw [ht]; exact strOk_zero.2.1
  have herr : ∀ t : State, t.currentInput = errorMarker →
      t.baseForPower.isSome = t.powerMode → Inv t := by
    intro t ht hb
    refine ⟨?_, hb, fun _ => ?_⟩
    · rw [ht]; exact strOk_errorMarker_parts.1
    · rw [ht]; exact strOk_errorMarker_parts.2.1
  have hnil : ∀ t : State, t.currentInput = [] →
      t.baseForPower.isSome = t.powerMode → Inv t := by
    intro t ht hb
    refine ⟨?_, hb, fun _ => ?_⟩
    · rw [ht]; simp
    · rw [ht]; exact curOk_nil
  cases e with
  | digit d => exact hchar _ (Or.inl (isDigit_fin d))
  | dot => exact hchar '.' (Or.inr rfl)
  | toggleSign =>
    refine appendInput_toggle_ind s Inv (fun hp => ?_) (fun hp => ?_) (fun x hp hx => ?_)
      (fun hp hh h0 => ?_) (fun _ _ => ⟨h1, h2, h3⟩)
    · exact ⟨show ("+/-".toList).count '.' ≤ 1 by decide, h2,
        fun hq => by rw [hp] at hq; cases hq⟩
    · refine ⟨?_, h2, fun hq => by rw [hp] at hq; cases hq⟩
      show (s.currentInput ++ "+/-".toList).count '.' ≤ 1
      rw [List.count_append]
      have : ("+/-".toList).count '.' = 0 := by decide
      rw [this]
      exact h1
    · refine ⟨?_, h2, fun hq => ?_⟩
      · show x.count '.' ≤ 1
        rw [hx] at h1
        rw [List.count_cons] at h1
        omega
      · have := h3 hq
        rw [hx] at this
        exact (curOk_tail x this).1
    · refine ⟨?_, h2, fun hq => curOk_cons _ (h3 hq) hh⟩
      show ('-' :: s.currentInput).count '.' ≤ 1
      rw [List.count_cons]
      have : ('-' == '.') = false := by decide
      rw [this]
      simpa using h1
  | operator op =>
    refine addOperator_ind H [op.char] s Inv ⟨h1, h2, h3⟩ (hzero _ rfl rfl)
      (fun r _ => hstr _ r rfl rfl) (fun _ _ _ => hnil _ rfl h2) (fun _ _ => hnil _ rfl h2)
      (fun _ _ _ => hnil _ rfl h2)
  | func f =>
    exact applyFunction_ind H f.name s Inv ⟨h1, h2, h3⟩ (herr _ rfl h2)
      (fun r => hstr _ r rfl h2) (hnil _ rfl rfl)
  | equals =>
    exact calculateExpression_ind H s Inv ⟨h1, h2, h3⟩ (hzero _ rfl rfl)
      (fun r _ => hstr _ r rfl rfl) (fun _ _ _ => hzero _ rfl h2) (fun v _ _ => hstr _ v rfl h2)
      (fun _ _ => herr _ rfl h2)
  | clear => exact hzero _ rfl rfl
  | clearEntry => exact hzero _ rfl h2
  | memoryClear => exact ⟨h1, h2, h3⟩
  | memoryRecall => exact hstr _ s.memory rfl h2
  | memoryAdd =>
    show Inv (memoryAdd s)
    unfold memoryAdd
    split_ifs
    · exact ⟨h1, h2, h3⟩
    · exact ⟨h1, h2, h3⟩
  | memorySubtract =>
    show Inv (memorySubtract s)
    unfold memorySubtract
    split_ifs
    · exact ⟨h1, h2, h3⟩
    · exact ⟨h1, h2, h3⟩
  | backspace =>
    show Inv (backspace s)
    unfold backspace
    split_ifs
    · refine ⟨?_, h2, fun hq => curOk_dropLast _ (h3 hq)⟩
      exact le_trans ((List.dropLast_sublist _).count_le '.') h1
    · exact hzero _ rfl h2

theorem inv_init : Inv State.init := by
  refine ⟨by decide, rfl, fun _ => strOk_zero.2.1⟩

/-- Every state the events reach satisfies the invariant. -/
theorem runEvents_inv (H : Host) (evs : List Event) : ∀ s : State, Inv s →
    Inv (runEvents H evs s) := by
  induction evs with
  | nil => exact fun s hs => hs
  | cons e evs ih => exact fun s hs => ih _ (handle_inv H e s hs)


/-! ## What every state reached without `Backspace` satisfies -/

theorem curNB_of_strOk (t e : Str) (h : StrOk t) : CurNB t e :=
  ⟨h.2.1, fun h0 => by rcases h0 with h0 | h0
                       · exact absurd h0 h.2.2.1
                       · exact absurd h0 h.2.2.2.1,
   fun _ _ => h.2.2.2.2.1⟩

theorem curNB_errorMarker (e : Str) : CurNB errorMarker e :=
  ⟨strOk_errorMarker_parts.2.1, fun h0 => by rcases h0 with h0 | h0
                                             · exact absurd h0 strOk_errorMarker_parts.2.2.1
                                             · exact absurd h0 strOk_errorMarker_parts.2.2.2.1,
   fun _ _ => strOk_errorMarker_parts.2.2.2.2⟩

theorem curNB_append_char (t e : Str) (c : Char) (ht : CurOk t) (hc : isOp c = false) :
    CurNB (t ++ [c]) e := by
  refine ⟨curOk_append_char t c ht hc, fun h0 => ?_, fun _ _ => ?_⟩
  · exfalso
    rcases h0 with h0 | h0
    · simp at h0
    · have := congrArg List.getLast? h0
      rw [List.getLast?_concat] at this
      simp only [List.getLast?_singleton, Option.some.injEq] at this
      subst this
      revert hc
      decide
  · rw [endsWithOp_concat]
    exact hc

theorem exprOk_ends (e : Str) (h : ExprOk e) (hne : e ≠ []) : endsWithOp e = true := by
  rcases h with h | ⟨c, op, rfl, hop, _⟩
  · exact absurd h hne
  · rw [endsWithOp_concat]
    exact hop

theorem exprOk_replace (e : Str) (op : Char) (h : ExprOk e) (hne : e ≠ [])
    (hop : isOp op = true) : ExprOk (e.dropLast ++ [op]) := by
  rcases h with h | ⟨c, o, rfl, _, hc, hend, hch⟩
  · exact absurd h hne
  · rw [List.dropLast_concat]
    exact Or.inr ⟨c, op, rfl, hop, hc, hend, hch⟩

theorem isOp_opKey (op : OpKey) : isOp op.char = true := by
  cases op <;> decide

/-- Every handler but the one of `Backspace` keeps the invariant of the states
reached without `Backspace`. -/
theorem handle_invNB (H : Host) (e : Event) (s : State) (he : e ≠ .backspace)
    (hs : InvNB s) : InvNB (handle H e s) := by
  obtain ⟨h1, h2⟩ := hs
  have hchar : ∀ c : Char, (isDigit c = true ∨ c = '.') → InvNB (appendInput [c] s) := by
    intro c hc
    have hcop : isOp c = false := by
      rcases hc with hc | rfl
      · exact isDigit_not_op c hc
      · decide
    refine appendInput_char_ind c s hc InvNB (fun _ _ => ⟨h1, h2⟩) (fun _ _ => ?_) (fun _ => ?_)
    · refine ⟨h1, fun _ => ?_⟩
      have := curNB_append_char [] s.expression c curOk_nil hcop
      simpa using this
    · exact ⟨h1, fun hp => curNB_append_char _ _ c (h2 hp).1 hcop⟩
  have hstr : ∀ (t : State) (r : JSNum), t.currentInput = numToString r →
      ExprOk t.expression → InvNB t := by
    intro t r ht hx
    refine ⟨hx, fun _ => ?_⟩
    rw [ht]
    exact curNB_of_strOk _ _ (numToString_ok r)
  have hzero : ∀ t : State, t.currentInput = "0".toList → ExprOk t.expression → InvNB t := by
    intro t ht hx
    refine ⟨hx, fun _ => ?_⟩
    rw [ht]
    exact curNB_of_strOk _ _ strOk_zero
  have herr : ∀ t : State, t.currentInput = errorMarker → ExprOk t.expression → InvNB t := by
    intro t ht hx
    refine ⟨hx, fun _ => ?_⟩
    rw [ht]
    exact curNB_errorMarker _
  have hnilx : ExprOk ([] : Str) := Or.inl rfl
  cases e with
  | digit d => exact hchar _ (Or.inl (isDigit_fin d))
  | dot => exact hchar '.' (Or.inr rfl)
  | toggleSign =>
    refine appendInput_toggle_ind s InvNB (fun hp => ?_) (fun hp => ?_) (fun x hp hx => ?_)
      (fun hp hh h0 => ?_) (fun _ _ => ⟨h1, h2⟩)
    · exact ⟨h1, fun hq => by rw [hp] at hq; cases hq⟩
    · exact ⟨h1, fun hq => by rw [hp] at hq; cases hq⟩
    · obtain ⟨g1, g2, g3⟩ := h2 hp
      rw [hx] at g1 g2 g3
      obtain ⟨t1, t2⟩ := curOk_tail x g1
      refine ⟨h1, fun _ => ⟨t1, fun h0 => ?_, fun hx0 _ => ?_⟩⟩
      · rcases h0 with h0 | h0
        · subst h0
          exact g2 (Or.inr rfl)
        · exact absurd h0 t2
      · have := g3 (by simp) (by
          intro h
          simp only [List.cons.injEq, true_and] at h
          exact hx0 h)
        rw [endsWithOp_cons _ _ hx0] at this
        exact this
    · obtain ⟨g1, g2, g3⟩ := h2 hp
      refine ⟨h1, fun _ => ⟨curOk_cons _ g1 hh, fun h0 => ?_, fun _ hx1 => ?_⟩⟩
      · rcases h0 with h0 | h0
        · simp at h0
        · simp only [List.cons.injEq, true_and] at h0
          exact g2 (Or.inl h0)
      · have hne : s.currentInput ≠ [] := by
          intro h
          apply hx1
          show '-' :: s.currentInput = ['-']
          rw [h]
        have hnm : s.currentInput ≠ ['-'] := by
          intro h
          rw [h] at hh
          exact hh rfl
        show endsWithOp ('-' :: s.currentInput) = false
        rw [endsWithOp_cons _ _ hne]
        exact g3 hne hnm
  | operator op =>
    refine addOperator_ind H [op.char] s InvNB ⟨h1, h2⟩ (hzero _ rfl hnilx)
      (fun r _ => hstr _ r rfl hnilx) (fun hp hne _ => ?_) (fun hp hx => ?_)
      (fun hp hne hend => ?_)
    · refine ⟨exprOk_replace _ _ h1 hne (isOp_opKey op), fun _ => ⟨curOk_nil, fun _ => ?_, ?_⟩⟩
      · show s.expression.dropLast ++ [op.char] ≠ []
        simp
      · intro h
        exact absurd rfl h
    · obtain ⟨g1, g2, g3⟩ := h2 hp
      have hne : s.currentInput ≠ [] := fun h => g2 (Or.inl h) hx
      have hnm : s.currentInput ≠ ['-'] := fun h => g2 (Or.inr h) hx
      refine ⟨Or.inr ⟨s.currentInput, op.char, rfl, isOp_opKey op, hne, g3 hne hnm, g1.1⟩,
        fun _ => ⟨curOk_nil, fun _ => ?_, ?_⟩⟩
      · show s.currentInput ++ [op.char] ≠ []
        simp
      · intro h
        exact absurd rfl h
    · exact absurd (exprOk_ends _ h1 hne) hend
  | func f =>
    refine applyFunction_ind H f.name s InvNB ⟨h1, h2⟩ (herr _ rfl hnilx)
      (fun r => hstr _ r rfl hnilx) ⟨h1, fun hq => ?_⟩
    cases hq
  | equals =>
    refine calculateExpression_ind H s InvNB ⟨h1, h2⟩ (hzero _ rfl hnilx)
      (fun r _ => hstr _ r rfl hnilx) (fun _ _ _ => hzero _ rfl h1)
      (fun v _ _ => hstr _ v rfl hnilx) (fun _ _ => herr _ rfl hnilx)
  | clear => exact hzero _ rfl hnilx
  | clearEntry => exact hzero _ rfl h1
  | memoryClear => exact ⟨h1, h2⟩
  | memoryRecall => exact hstr _ s.memory rfl h1
  | memoryAdd =>
    show InvNB (memoryAdd s)
    unfold memoryAdd
    split_ifs
    · exact ⟨h1, h2⟩
    · exact ⟨h1, h2⟩
  | memorySubtract =>
    show InvNB (memorySubtract s)
    unfold memorySubtract
    split_ifs
    · exact ⟨h1, h2⟩
    · exact ⟨h1, h2⟩
  | backspace => exact absurd rfl he

theorem invNB_init : InvNB State.init :=
  ⟨Or.inl rfl, fun _ => curNB_of_strOk _ _ strOk_zero⟩

/-- Every state reached without `Backspace` satisfies the invariant. -/
theorem runEvents_invNB (H : Host) (evs : List Event) : ∀ s : State, InvNB s →
    Event.backspace ∉ evs → InvNB (runEvents H evs s) := by
  induction evs with
  | nil => exact fun s hs _ => hs
  | cons e evs ih =>
    intro s hs hb
    exact ih _ (handle_invNB H e s (fun h => hb (by rw [h]; exact List.mem_cons_self _ _)) hs)
      (fun h => hb (List.mem_cons_of_mem _ h))


/-! ## The invariants of the reachable states -/

theorem hasAdjacentOps_chain (t : Str) (h : List.Chain' opAfterE t) :
    hasAdjacentOps t = false := by
  induction t with
  | nil => rfl
  | cons a r ih =>
    cases r with
    | nil => rfl
    | cons b r' =>
      rw [List.chain'_cons] at h
      simp only [hasAdjacentOps, Bool.or_eq_false_iff, Bool.and_eq_false_iff]
      refine ⟨?_, ih h.2⟩
      by_cases hb : isOp b = true
      · left
        have := h.1 hb
        subst this
        decide
      · right
        simpa using hb

theorem hasAdjacentOps_concat (c : Str) (op : Char) :
    hasAdjacentOps (c ++ [op]) = (hasAdjacentOps c || (endsWithOp c && isOp op)) := by
  induction c with
  | nil => simp [hasAdjacentOps, endsWithOp]
  | cons a r ih =>
    cases r with
    | nil => simp [hasAdjacentOps, endsWithOp]
    | cons b r' =>
      have e : (a :: b :: r') ++ [op] = a :: b :: (r' ++ [op]) := rfl
      have e2 : (b :: r') ++ [op] = b :: (r' ++ [op]) := rfl
      rw [e]
      simp only [hasAdjacentOps]
      rw [← e2, ih, endsWithOp_cons a (b :: r') (by simp)]
      simp only [hasAdjacentOps, Bool.or_assoc]

theorem exprOk_no_adjacent (e : Str) (h : ExprOk e) : hasAdjacentOps e = false := by
  rcases h with rfl | ⟨c, op, rfl, _, _, hend, hch⟩
  · rfl
  · rw [hasAdjacentOps_concat, hasAdjacentOps_chain c hch, hend]
    rfl

/-- C14 as stated fails: the keys `5`, sign toggle, `Backspace`, `+` leave the
expression `-+`, two operator characters side by side. -/
theorem expression_adjacent_ops_counterexample :
    (runEvents Host.trivial [.digit 5, .toggleSign, .backspace, .operator .plus]
        State.init).expression = "-+".toList ∧
    hasAdjacentOps (runEvents Host.trivial [.digit 5, .toggleSign, .backspace, .operator .plus]
        State.init).expression = true := by
  constructor <;> decide

/-- C14, amended: in every state reached from the initial state by events
other than the `Backspace` edit, the expression holds no two adjacent operator
characters. -/
theorem expression_no_adjacent_ops (H : Host) (evs : List Event)
    (hb : Event.backspace ∉ evs) :
    hasAdjacentOps (runEvents H evs State.init).expression = false :=
  exprOk_no_adjacent _ (runEvents_invNB H evs State.init invNB_init hb).1

theorem expression_no_adjacent_ops_witness :
    Event.backspace ∉
        [Event.digit 1, .operator .plus, .operator .minus, .toggleSign, .digit 2,
          .operator .times] ∧
    hasAdjacentOps (runEvents Host.trivial
        [.digit 1, .operator .plus, .operator .minus, .toggleSign, .digit 2, .operator .times]
        State.init).expression = false :=
  ⟨by decide, expression_no_adjacent_ops Host.trivial _ (by decide)⟩

theorem appendInput_dot_noop (s : State) (h : '.' ∈ s.currentInput) :
    appendInput ".".toList s = s :=
  appendInput_char_ind '.' s (Or.inr rfl) (fun t => t = s) (fun _ _ => rfl)
    (fun _ hne => absurd rfl hne) (fun hd => absurd h (hd rfl))

/-- C15: in every state reached from the initial state, the current input
holds at most one decimal point; and `appendInput` on the decimal point
changes nothing when the current input holds one, in Normal mode as in power
mode. -/
theorem decimal_point_invariant (H : Host) (evs : List Event) :
    (runEvents H evs State.init).currentInput.count '.' ≤ 1 ∧
    ∀ s : State, '.' ∈ s.currentInput → appendInput ".".toList s = s :=
  ⟨(runEvents_inv H evs State.init inv_init).1, appendInput_dot_noop⟩

theorem decimal_point_invariant_witness :
    (runEvents Host.trivial [.digit 1, .dot, .dot, .digit 5, .dot] State.init).currentInput
      = "1.5".toList ∧
    (runEvents Host.trivial [.digit 1, .dot, .dot, .digit 5, .dot]
        State.init).currentInput.count '.' ≤ 1 :=
  ⟨by decide, (decimal_point_invariant Host.trivial [.digit 1, .dot, .dot, .digit 5, .dot]).1⟩

theorem applyFunction_base (H : Host) (f : Str) (s : State) (hf : f ≠ "power".toList) :
    (applyFunction H f s).baseForPower = s.baseForPower := by
  unfold applyFunction
  repeat' first
    | exact rfl
    | exact absurd ‹f = "power".toList› hf
    | refine ite_ind (fun t : State => t.baseForPower = s.baseForPower) _ _ _ (fun _ => ?_) (fun _ => ?_)

/-- C16 as stated fails: after the keys `2`, power, `3` the engine is in
power mode with the base `2`, and the power action sets the base again, to
`3`. -/
theorem baseForPower_reset_counterexample :
    (runEvents Host.trivial [.digit 2, .func .power, .digit 3] State.init).powerMode = true ∧
    (runEvents Host.trivial [.digit 2, .func .power, .digit 3] State.init).baseForPower
      = some "2".toList ∧
    (handle Host.trivial (.func .power)
      (runEvents Host.trivial [.digit 2, .func .power, .digit 3] State.init)).baseForPower
      = some "3".toList := by
  refine ⟨?_, ?_, ?_⟩ <;> decide

/-- C16, amended: in every state reached from the initial state the base is
set exactly when power mode is on; and every handler leaves the base as it
is or clears it, except the power action, which sets it to the current input
and turns power mode on, whether power mode was on or not. -/
theorem power_mode_invariant (H : Host) (evs : List Event) :
    (runEvents H evs State.init).baseForPower.isSome = (runEvents H evs State.init).powerMode ∧
    ∀ (e : Event) (s : State),
      (handle H e s).baseForPower = s.baseForPower ∨ (handle H e s).baseForPower = none ∨
      (e = .func .power ∧ (handle H e s).baseForPower = some s.currentInput ∧
        (handle H e s).powerMode = true) := by
  refine ⟨(runEvents_inv H evs State.init inv_init).2.1, fun e s => ?_⟩
  cases e with
  | digit d =>
    exact appendInput_char_ind _ s (Or.inl (isDigit_fin d))
      (fun t => t.baseForPower = s.baseForPower ∨ t.baseForPower = none ∨
        (Event.digit d = .func .power ∧ t.baseForPower = some s.currentInput ∧
          t.powerMode = true))
      (fun _ _ => Or.inl rfl) (fun _ _ => Or.inl rfl) (fun _ => Or.inl rfl)
  | dot =>
    exact appendInput_char_ind '.' s (Or.inr rfl)
      (fun t => t.baseForPower = s.baseForPower ∨ t.baseForPower = none ∨
        (Event.dot = .func .power ∧ t.baseForPower = some s.currentInput ∧
          t.powerMode = true))
      (fun _ _ => Or.inl rfl) (fun _ _ => Or.inl rfl) (fun _ => Or.inl rfl)
  | toggleSign =>
    exact appendInput_toggle_ind s
      (fun t => t.baseForPower = s.baseForPower ∨ t.baseForPower = none ∨
        (Event.toggleSign = .func .power ∧ t.baseForPower = some s.currentInput ∧
          t.powerMode = true))
      (fun _ => Or.inl rfl) (fun _ => Or.inl rfl) (fun _ _ _ => Or.inl rfl)
      (fun _ _ _ => Or.inl rfl) (fun _ _ => Or.inl rfl)
  | operator op =>
    exact addOperator_ind H [op.char] s
      (fun t => t.baseForPower = s.baseForPower ∨ t.baseForPower = none ∨
        (Event.operator op = .func .power ∧ t.baseForPower = some s.currentInput ∧
          t.powerMode = true))
      (Or.inl rfl) (Or.inr (Or.inl rfl)) (fun _ _ => Or.inr (Or.inl rfl))
      (fun _ _ _ => Or.inl rfl) (fun _ _ => Or.inl rfl) (fun _ _ _ => Or.inl rfl)
  | func f =>
    by_cases hf : f = .power
    · subst hf
      exact applyFunction_ind H _ s
        (fun t => t.baseForPower = s.baseForPower ∨ t.baseForPower = none ∨
          (Event.func .power = .func .power ∧ t.baseForPower = some s.currentInput ∧
            t.powerMode = true))
        (Or.inl rfl) (Or.inl rfl) (fun _ => Or.inl rfl) (Or.inr (Or.inr ⟨rfl, rfl, rfl⟩))
    · exact Or.inl (applyFunction_base H f.name s (by cases f <;> first | decide | exact absurd rfl hf))
  | equals =>
    exact calculateExpression_ind H s
      (fun t => t.baseForPower = s.baseForPower ∨ t.baseForPower = none ∨
        (Event.equals = .func .power ∧ t.baseForPower = some s.currentInput ∧
          t.powerMode = true))
      (Or.inl rfl) (Or.inr (Or.inl rfl)) (fun _ _ => Or.inr (Or.inl rfl))
      (fun _ _ _ => Or.inl rfl) (fun _ _ _ => Or.inl rfl) (fun _ _ => Or.inl rfl)
  | clear => exact Or.inr (Or.inl rfl)
  | clearEntry => exact Or.inl rfl
  | memoryClear => exact Or.inl rfl
  | memoryRecall => exact Or.inl rfl
  | memoryAdd =>
    left
    show (memoryAdd s).baseForPower = s.baseForPower
    unfold memoryAdd
    split_ifs <;> rfl
  | memorySubtract =>
    left
    show (memorySubtract s).baseForPower = s.baseForPower
    unfold memorySubtract
    split_ifs <;> rfl
  | backspace =>
    left
    show (backspace s).baseForPower = s.baseForPower
    unfold backspace
    split_ifs <;> rfl


/-! ## Operands that are dropped, the dead branch, the sign toggle -/

theorem runEvents_append (H : Host) (as bs : List Event) (s : State) :
    runEvents H (as ++ bs) s = runEvents H bs (runEvents H as s) := by
  unfold runEvents
  rw [List.foldl_append]

theorem runEvents_cons (H : Host) (e : Event) (evs : List Event) (s : State) :
    runEvents H (e :: evs) s = runEvents H evs (handle H e s) := rfl

/-- Digit keys change the current input only, and leave Normal mode on. -/
theorem runEvents_digits (H : Host) (ds : List (Fin 10)) : ∀ s : State,
    ∃ cur, runEvents H (ds.map Event.digit) s = { s with currentInput := cur } := by
  induction ds with
  | nil => exact fun s => ⟨s.currentInput, rfl⟩
  | cons d ds ih =>
    intro s
    have h1 : ∃ cur, handle H (.digit d) s = { s with currentInput := cur } :=
      appendInput_char_ind _ s (Or.inl (isDigit_fin d))
        (fun t => ∃ cur, t = { s with currentInput := cur })
        (fun _ _ => ⟨s.currentInput, rfl⟩) (fun _ _ => ⟨_, rfl⟩) (fun _ => ⟨_, rfl⟩)
    obtain ⟨c1, hc1⟩ := h1
    obtain ⟨c2, hc2⟩ := ih { s with currentInput := c1 }
    exact ⟨c2, by rw [List.map_cons, runEvents_cons, hc1, hc2]⟩

/-- In Normal mode, behind an expression that ends in an operator,
`addOperator` puts the operator in the place of the last one, whatever the
current input. -/
theorem addOperator_replace (H : Host) (op : Str) (s : State) (hpm : s.powerMode = false)
    (hne : s.expression ≠ []) (hend : endsWithOp s.expression = true) :
    addOperator H op s = { s with expression := s.expression.dropLast ++ op, currentInput := [] } := by
  unfold addOperator
  rw [if_neg (by simp [hpm]), if_pos ⟨hne, hend⟩]

/-- In Normal mode `addOperator` puts the operator behind the expression
without its last operator, behind the current input, or behind both. -/
theorem addOperator_normal (H : Host) (op : Str) (s : State) (hpm : s.powerMode = false) :
    addOperator H op s
      = { s with expression :=
                   (if s.expression ≠ [] ∧ endsWithOp s.expression = true then
                      s.expression.dropLast
                    else if s.expression = [] then s.currentInput
                    else s.expression ++ s.currentInput) ++ op,
                 currentInput := [] } := by
  unfold addOperator
  rw [if_neg (by simp [hpm])]
  by_cases hc : s.expression ≠ [] ∧ endsWithOp s.expression = true
  · rw [if_pos hc, if_pos hc]
  · rw [if_neg hc, if_neg hc]
    by_cases he : s.expression = []
    · rw [if_pos he, if_pos he]
    · rw [if_neg he, if_neg he, List.append_assoc]

/-- An operator, digits, an operator: in Normal mode the digits and the first
operator are lost. -/
theorem addOperator_twice (H : Host) (op1 op2 : OpKey) (b : List (Fin 10)) (s : State)
    (hpm : s.powerMode = false) :
    handle H (.operator op2) (runEvents H (b.map Event.digit) (handle H (.operator op1) s))
      = handle H (.operator op2) s := by
  obtain ⟨cur, hcur⟩ := runEvents_digits H b (handle H (.operator op1) s)
  rw [hcur]
  show addOperator H [op2.char] { addOperator H [op1.char] s with currentInput := cur }
    = addOperator H [op2.char] s
  rw [addOperator_normal H [op1.char] s hpm, addOperator_normal H [op2.char] s hpm]
  have key : ∀ E : Str,
      addOperator H [op2.char]
          ({ s with expression := E ++ [op1.char], currentInput := cur } : State)
        = { s with expression := E ++ [op2.char], currentInput := [] } := by
    intro E
    have h := addOperator_replace H [op2.char]
      ({ s with expression := E ++ [op1.char], currentInput := cur } : State) hpm (by simp) (by
        show endsWithOp (E ++ [op1.char]) = true
        rw [endsWithOp_concat]
        exact isOp_opKey op1)
    rw [h]
    show ({ s with expression := (E ++ [op1.char]).dropLast ++ [op2.char], currentInput := [] }
      : State) = _
    rw [List.dropLast_concat]
  exact key _

/-- C18: in every state reached from the initial state without `Backspace`
the expression is empty or one operand and one operator behind it; so in
Normal mode, behind an expression that is not empty, an operator key puts its
operator in the place of the last one and drops the current input; hence the
keys `a`, `op1`, `b`, `op2`, `c`, `=` end in the state of the keys `a`, `op2`,
`c`, `=`, and `1 + 2 + 3 =` shows `4`. -/
theorem intermediate_operands_dropped (H : Host) (evs : List Event)
    (hb : Event.backspace ∉ evs) (a b c : List (Fin 10)) (op1 op2 : OpKey) :
    ((runEvents H evs State.init).expression = [] ∨
      ∃ x op, (runEvents H evs State.init).expression = x ++ [op] ∧ isOp op = true ∧
        x ≠ [] ∧ endsWithOp x = false) ∧
    ((runEvents H evs State.init).powerMode = false →
      (runEvents H evs State.init).expression ≠ [] →
      ∀ op : OpKey, handle H (.operator op) (runEvents H evs State.init)
        = { runEvents H evs State.init with
              expression := (runEvents H evs State.init).expression.dropLast ++ [op.char],
              currentInput := [] }) ∧
    runEvents H (a.map Event.digit ++ .operator op1 ::
        (b.map Event.digit ++ .operator op2 :: (c.map Event.digit ++ [.equals]))) State.init
      = runEvents H (a.map Event.digit ++ .operator op2 :: (c.map Event.digit ++ [.equals]))
          State.init ∧
    (runEvents H [.digit 1, .operator .plus, .digit 2, .operator .plus, .digit 3, .equals]
        State.init).currentInput = "4".toList := by
  have hinv := (runEvents_invNB H evs State.init invNB_init hb).1
  refine ⟨?_, ?_, ?_, ?_⟩
  · rcases hinv with h | ⟨x, op, hx, hop, hne, hend, _⟩
    · exact Or.inl h
    · exact Or.inr ⟨x, op, hx, hop, hne, hend⟩
  · intro hpm hne op
    exact addOperator_replace H [op.char] _ hpm hne (exprOk_ends _ hinv hne)
  · obtain ⟨cur, hcur⟩ := runEvents_digits H a State.init
    rw [runEvents_append, runEvents_append, hcur, runEvents_cons, runEvents_append,
      runEvents_cons, runEvents_cons]
    rw [addOperator_twice H op1 op2 b _ rfl]
  · have hs : runEvents Host.trivial
        [.digit 1, .operator .plus, .digit 2, .operator .plus, .digit 3] State.init
        = { State.init with expression := "1+".toList, currentInput := "3".toList } := by
      decide
    have hH : runEvents H [.digit 1, .operator .plus, .digit 2, .operator .plus, .digit 3]
        State.init
        = runEvents Host.trivial
            [.digit 1, .operator .plus, .digit 2, .operator .plus, .digit 3] State.init := by
      simp only [runEvents, List.foldl, handle]
      rw [addOperator_congr H Host.trivial _ (appendInput _ State.init) (Or.inl (by decide))]
      rw [addOperator_congr H Host.trivial _
        (appendInput _ (addOperator Host.trivial _ (appendInput _ State.init)))
        (Or.inl (by decide))]
    have hl : [Event.digit 1, .operator .plus, .digit 2, .operator .plus, .digit 3, .equals]
        = [Event.digit 1, .operator .plus, .digit 2, .operator .plus, .digit 3] ++ [.equals] :=
      rfl
    rw [hl, runEvents_append, hH, hs]
    show (calculateExpression H
      { State.init with expression := "1+".toList, currentInput := "3".toList }).currentInput
      = "4".toList
    rw [calculateExpression_congr H Host.trivial _ (by decide)]
    decide

theorem intermediate_operands_dropped_witness :
    Event.backspace ∉ [Event.digit 1, .operator .plus, .digit 2] ∧
    runEvents Host.trivial [.digit 1, .operator .plus, .digit 2, .operator .times, .digit 3,
        .equals] State.init
      = runEvents Host.trivial [.digit 1, .operator .times, .digit 3, .equals] State.init :=
  ⟨by decide,
   (intermediate_operands_dropped Host.trivial [.digit 1, .operator .plus, .digit 2]
      (by decide) [1] [2] [3] .plus .times).2.2.1⟩

/-- C19 as stated fails: the keys `5`, sign toggle, `Backspace`, sign toggle
reach Normal mode with the expression and the current input both empty; `=`
then takes the branch, and `+` makes the expression `+`. -/
theorem defensive_branch_counterexample :
    (runEvents Host.trivial [.digit 5, .toggleSign, .backspace, .toggleSign]
        State.init).powerMode = false ∧
    (runEvents Host.trivial [.digit 5, .toggleSign, .backspace, .toggleSign]
        State.init).expression = [] ∧
    (runEvents Host.trivial [.digit 5, .toggleSign, .backspace, .toggleSign]
        State.init).currentInput = [] ∧
    (runEvents Host.trivial [.digit 5, .toggleSign, .backspace, .toggleSign, .operator .plus]
        State.init).expression = "+".toList := by
  refine ⟨?_, ?_, ?_, ?_⟩ <;> decide

/-- C19, amended: in every state reached from the initial state by events
other than the `Backspace` edit, in Normal mode the expression and the
current input are not both empty, and an operator key never leaves an
expression that is its operator alone. -/
theorem defensive_branch_dead (H : Host) (evs : List Event) (hb : Event.backspace ∉ evs) :
    ((runEvents H evs State.init).powerMode = false →
      ¬ ((runEvents H evs State.init).expression = [] ∧
         (runEvents H evs State.init).currentInput = [])) ∧
    ∀ op : OpKey, (handle H (.operator op) (runEvents H evs State.init)).expression
      ≠ [op.char] := by
  have hinv := runEvents_invNB H evs State.init invNB_init hb
  refine ⟨fun hpm h => (hinv.2 hpm).2.1 (Or.inl h.2) h.1, fun op h => ?_⟩
  have h2 := (handle_invNB H (.operator op) _ (fun h => by cases h) hinv).1
  rw [h] at h2
  rcases h2 with h2 | ⟨x, o, hx, _, hne, _⟩
  · cases h2
  · have hl := congrArg List.length hx
    simp only [List.length_singleton, List.length_append] at hl
    have : x.length = 0 := by omega
    exact hne (List.length_eq_zero.mp this)

theorem defensive_branch_dead_witness :
    Event.backspace ∉ [Event.digit 5, .operator .plus, .toggleSign, .toggleSign] ∧
    ¬ ((runEvents Host.trivial [.digit 5, .operator .plus, .toggleSign, .toggleSign]
          State.init).expression = [] ∧
       (runEvents Host.trivial [.digit 5, .operator .plus, .toggleSign, .toggleSign]
          State.init).currentInput = []) :=
  ⟨by decide,
   (defensive_branch_dead Host.trivial [.digit 5, .operator .plus, .toggleSign, .toggleSign]
      (by decide)).1 (by decide)⟩

theorem appendInput_toggle_normal (s : State) (hpm : s.powerMode = false) :
    appendInput "+/-".toList s
      = if s.currentInput.head? = some '-' then
          { s with currentInput := s.currentInput.drop 1 }
        else if s.currentInput ≠ "0".toList then { s with currentInput := '-' :: s.currentInput }
        else s := by
  unfold appendInput
  rw [if_neg (by simp [hpm]), if_neg (by decide), if_pos rfl]

/-- C20 as stated fails: the keys `5`, `+`, sign toggle, `0` reach Normal
mode with the current input `-0`, and two sign toggles leave `0`. -/
theorem sign_toggle_counterexample :
    (runEvents Host.trivial [.digit 5, .operator .plus, .toggleSign, .digit 0]
        State.init).powerMode = false ∧
    (runEvents Host.trivial [.digit 5, .operator .plus, .toggleSign, .digit 0]
        State.init).currentInput = "-0".toList ∧
    (appendInput "+/-".toList (appendInput "+/-".toList
      (runEvents Host.trivial [.digit 5, .operator .plus, .toggleSign, .digit 0]
        State.init))).currentInput = "0".toList := by
  refine ⟨?_, ?_, ?_⟩ <;> decide

/-- C20, amended: in every state reached from the initial state that is in
Normal mode and whose current input is not `-0`, two sign toggles give the
state back. -/
theorem sign_toggle_involution (H : Host) (evs : List Event)
    (hpm : (runEvents H evs State.init).powerMode = false)
    (hne : (runEvents H evs State.init).currentInput ≠ "-0".toList) :
    appendInput "+/-".toList (appendInput "+/-".toList (runEvents H evs State.init))
      = runEvents H evs State.init := by
  have hcur := (runEvents_inv H evs State.init inv_init).2.2 hpm
  generalize runEvents H evs State.init = s at hpm hne hcur ⊢
  rw [appendInput_toggle_normal s hpm]
  by_cases hh : s.currentInput.head? = some '-'
  · rw [if_pos hh]
    cases hc : s.currentInput with
    | nil => rw [hc] at hh; cases hh
    | cons m x =>
      rw [hc] at hh hcur hne
      simp only [List.head?_cons, Option.some.injEq] at hh
      subst hh
      have hx : x.head? ≠ some '-' := by
        intro h
        have := hcur.1
        rw [List.chain'_cons'] at this
        have := this.1 '-' h (by decide)
        revert this
        decide
      have hx0 : x ≠ "0".toList := by
        intro h
        apply hne
        rw [h]
        rfl
      have ht := appendInput_toggle_normal ({ s with currentInput := x } : State) hpm
      rw [if_neg hx, if_pos hx0] at ht
      show appendInput "+/-".toList ({ s with currentInput := x } : State) = s
      rw [ht]
      cases s
      simp only at hc
      subst hc
      rfl
  · rw [if_neg hh]
    by_cases h0 : s.currentInput = "0".toList
    · rw [if_neg (fun h => h h0), appendInput_toggle_normal s hpm, if_neg hh,
        if_neg (fun h => h h0)]
    · rw [if_pos h0]
      have ht : appendInput "+/-".toList
          ({ s with currentInput := '-' :: s.currentInput } : State)
          = { s with currentInput := s.currentInput } := by
        rw [appendInput_toggle_normal
          ({ s with currentInput := '-' :: s.currentInput } : State) hpm]
        exact if_pos rfl
      rw [ht]

theorem sign_toggle_involution_witness :
    (runEvents Host.trivial [.digit 1, .digit 2, .toggleSign] State.init).currentInput
      = "-12".toList ∧
    appendInput "+/-".toList (appendInput "+/-".toList
        (runEvents Host.trivial [.digit 1, .digit 2, .toggleSign] State.init))
      = runEvents Host.trivial [.digit 1, .digit 2, .toggleSign] State.init :=
  ⟨by decide,
   sign_toggle_involution Host.trivial [.digit 1, .digit 2, .toggleSign] (by decide)
     (by decide)⟩

end Calc
